import Mathlib

/-!
# ou5: graph store (`graph4.c`) and breadth-first connectivity query (`is_connected2.c`)

A shallow embedding of the C sources.

* A `node *` is an address, a natural number.  The malloc'ed `struct node` cells live in
  `graph.heap`; address `p` is cell number `p`, and a cell is `none` once it has been freed.
  `malloc` hands out the next unused address, so addresses are never reused.
* `struct graph` keeps its four fields `nodes`, `edgecount`, `nodecount`, `maxnodes`.
  `graph_empty` never writes `edgecount`, so the value found in the fresh memory is a
  parameter of `graph_empty`.
* C strings are modelled by their text (the characters before the terminator), one `Char`
  for one C `char`.  `int` is modelled by `Int`.  `nodecount` goes up only below `maxnodes`
  and down only when a node is unlinked, so it never leaves the range of `int`;
  `edgecount` starts from any value, and its `++` and `--` wrap at the ends of the range
  (`int_wrap`).
* Every function that can read through a pointer returns an `Option`: `none` stands for
  undefined behaviour (reading a freed or foreign cell, a NULL position, a name that does
  not fit its buffer).
* `dlist` and `queue` come from the course library `datastructures-v1.0.8.2`, which is not
  part of the repository; their model is described at `dlist` and `queue` below.
* Of `graph3.c`, the earlier version of the graph store with the same two structs, the
  hand-written name comparisons are embedded under the names `graph3.nodes_are_equal` and
  `graph3.graph_find_node`, to be compared with the `strcmp` test of `graph4.c`.
-/

namespace Ou5

/-! ## Data types -/

/-- The C `struct node`: `char name[41]; bool seen; dlist *neighbours;`. -/
structure node where
  name : String
  seen : Bool
  neighbours : List Nat
deriving DecidableEq

/-- The C `struct graph` (`nodes`, `edgecount`, `nodecount`, `maxnodes`) together with the
memory that holds its node cells. -/
structure graph where
  heap : List (Option node)
  nodes : List Nat
  edgecount : Int
  nodecount : Int
  maxnodes : Int
deriving DecidableEq

/-- Modelled from the spec: `dlist`, the directed list of the external library
`datastructures-v1.0.8.2` (not under src/), which the spec only calls an "ordered
collection".  A list of values is modelled by a `List`.  In the library a position is a
pointer to the cell in front of an element, so that
`dlist_first` stands in front of the first element,
`dlist_is_end(l, p)` is `p->next == NULL`,
`dlist_inspect(l, p)` is `p->next->val`,
`dlist_next(l, p)` is `p->next`,
`dlist_insert(l, v, p)` links a new cell behind `p` (at `dlist_first`: a new first element),
`dlist_remove(l, p)` unlinks the cell behind `p` and leaves `p` where it is.
The loops below are written over the pair "elements already passed, elements still ahead",
which is exactly the information a position carries. -/
abbrev dlist := List Nat

/-- Modelled from the spec: `queue`, the first-in-first-out queue of the external library
`datastructures-v1.0.8.2` (not under src/), the spec's "first-in-first-out work queue".
`queue_front` is the head of the list and `queue_dequeue` drops it. -/
abbrev queue := List Nat

/-- Modelled from the spec: `queue_empty(NULL)` of the library queue. -/
def queue_empty : queue := []

/-- Modelled from the spec: `queue_enqueue(q, v)` of the library queue adds `v` at the back. -/
def queue_enqueue (q : queue) (v : Nat) : queue := q ++ [v]

/-- The comparison loop of `strcmp` on the characters of two texts: the end of a text is
its terminator, which is smaller than every character. -/
def strcmp_chars : List Char → List Char → Int
  | [], [] => 0
  | [], _ :: _ => -1
  | _ :: _, [] => 1
  | a :: as, b :: bs =>
    if a = b then strcmp_chars as bs else if a.toNat < b.toNat then -1 else 1

/-- Modelled from the spec: `strcmp` of the C library on the texts of two strings: `0`
exactly when they are equal, otherwise the sign of the first difference. -/
def strcmp (a b : String) : Int :=
  strcmp_chars a.data b.data

/-- `strcpy(n->name, s)` into `char name[41]`: defined when the text and its terminator
fit into the buffer. -/
def strcpy (s : String) : Option String :=
  if s.length < 41 then some s else none

/-- The largest value of an `int` (32 bits). -/
def INT_MAX : Int := 2147483647

/-- The smallest value of an `int` (32 bits). -/
def INT_MIN : Int := -2147483648

/-- The value `x` fits an `int`. -/
def in_int (x : Int) : Prop :=
  INT_MIN ≤ x ∧ x ≤ INT_MAX

instance (x : Int) : Decidable (in_int x) := by
  unfold in_int; infer_instance

/-- What an `int` holds after `++` or `--` has given `x`: `x` itself when it fits, else the
value of its low 32 bits in two's complement, so that one more than `INT_MAX` is
`INT_MIN` and one less than `INT_MIN` is `INT_MAX`.  (The C standard leaves the overflow
of an `int` undefined; this is what the two's complement arithmetic of the machine
gives.) -/
def int_wrap (x : Int) : Int :=
  (x + 2147483648) % 4294967296 - 2147483648

/-- Reading the cell behind a `node *`. -/
def graph.deref (g : graph) (p : Nat) : Option node :=
  g.heap.getD p none

/-! ## graph4.c -/

/-- The function `nodes_are_equal` of graph4.c: `return (n1 == n2);`, pointer identity. -/
def nodes_are_equal (n1 n2 : Nat) : Bool :=
  decide (n1 = n2)

/-- The function `graph_empty`: `edgecount` is left as found in the fresh memory. -/
def graph_empty (max_nodes : Int) (fresh_edgecount : Int) : graph :=
  { heap := [], nodes := [], edgecount := fresh_edgecount, nodecount := 0,
    maxnodes := max_nodes }

/-- The function `graph_is_empty`: `dlist_is_empty(g->nodes)`. -/
def graph_is_empty (g : graph) : Bool :=
  g.nodes.isEmpty

/-- The function `graph_has_edges`: `g->edgecount > 0`. -/
def graph_has_edges (g : graph) : Bool :=
  decide (g.edgecount > 0)

/-- The `while` loop of `graph_insert_node` from the position in front of the given
entries: `some true` when an entry has the name `s`. -/
def insert_node_scan (g : graph) (s : String) : List Nat → Option Bool
  | [] => some false
  | p :: ahead =>
    match g.deref p with
    | none => none
    | some n => if strcmp n.name s = 0 then some true else insert_node_scan g s ahead

/-- What `graph_insert_node` prints when the name is already there. -/
def warning_duplicate : String := "Warning: A node with that name already exists in the graph!"

/-- What `graph_insert_node` prints when the graph is full. -/
def warning_full : String := "Warning: Graph full!"

/-- The function `graph_insert_node` with what it writes to stdout: the returned graph and
the lines printed.  The new cell is put at `dlist_first`, in front of the older nodes. -/
def graph_insert_node_out (g : graph) (s : String) : Option (graph × List String) :=
  if g.nodecount < g.maxnodes then
    match insert_node_scan g s g.nodes with
    | none => none
    | some true => some (g, [warning_duplicate])
    | some false =>
      match strcpy s with
      | none => none
      | some name =>
        some ({ g with
                heap := g.heap ++ [some { name := name, seen := false, neighbours := [] }]
                nodes := g.heap.length :: g.nodes
                nodecount := g.nodecount + 1 }, [])
  else some (g, [warning_full])

/-- The function `graph_insert_node`: the value it returns, the graph. -/
def graph_insert_node (g : graph) (s : String) : Option graph :=
  (graph_insert_node_out g s).map Prod.fst

/-- Outcome of `graph_find_node`. -/
inductive lookup where
  /-- `return n;` -/
  | found (n : Nat)
  /-- The warning is printed and the process ends with `exit(EXIT_FAILURE)`. -/
  | not_found
  /-- An entry of `g->nodes` that is not an allocated cell was read. -/
  | undefined
deriving DecidableEq

/-- The `while` loop of `graph_find_node` from the position in front of the given entries. -/
def find_node_scan (g : graph) (s : String) : List Nat → lookup
  | [] => lookup.not_found
  | p :: ahead =>
    match g.deref p with
    | none => lookup.undefined
    | some n => if strcmp n.name s = 0 then lookup.found p else find_node_scan g s ahead

/-- The function `graph_find_node`. -/
def graph_find_node (g : graph) (s : String) : lookup :=
  find_node_scan g s g.nodes

/-- The function `graph_node_is_seen`: `n->seen`. -/
def graph_node_is_seen (g : graph) (n : Nat) : Option Bool :=
  (g.deref n).map node.seen

/-- The function `graph_node_set_seen`: `n->seen = seen`. -/
def graph_node_set_seen (g : graph) (n : Nat) (seen : Bool) : Option graph :=
  match g.deref n with
  | none => none
  | some nd => some { g with heap := g.heap.set n (some { nd with seen := seen }) }

/-- The `while` loop of `graph_reset_seen` from the position in front of the given entries. -/
def reset_seen_loop : graph → List Nat → Option graph
  | g, [] => some g
  | g, entry :: ahead =>
    match graph_node_set_seen g entry false with
    | none => none
    | some g' => reset_seen_loop g' ahead

/-- The function `graph_reset_seen`. -/
def graph_reset_seen (g : graph) : Option graph :=
  reset_seen_loop g g.nodes

/-- The `while` loop of `graph_insert_edge` from the position in front of the given
entries of `n1->neighbours`: `some true` when `n2` is among them.  The step
`dlist_next(n->neighbours, pos)` reads the field `neighbours` of the entry `n` just
inspected (the library's `dlist_next` only follows `pos`). -/
def insert_edge_scan (g : graph) (n2 : Nat) : List Nat → Option Bool
  | [] => some false
  | n :: ahead =>
    if nodes_are_equal n n2 then some true
    else
      match g.deref n with
      | none => none
      | some _ => insert_edge_scan g n2 ahead

/-- The function `graph_insert_edge`: `n2` is put in front of `n1->neighbours` and
`edgecount` goes up by one, unless `n2` is already an entry.  The counter starts from
whatever `graph_empty` found in the fresh memory, so `g->edgecount++` can step over
`INT_MAX`; it then wraps to `INT_MIN`. -/
def graph_insert_edge (g : graph) (n1 n2 : Nat) : Option graph :=
  match g.deref n1 with
  | none => none
  | some nd1 =>
    match insert_edge_scan g n2 nd1.neighbours with
    | none => none
    | some true => some g
    | some false =>
      some { g with
             heap := g.heap.set n1 (some { nd1 with neighbours := n2 :: nd1.neighbours })
             edgecount := int_wrap (g.edgecount + 1) }

/-- The `while` loop of `graph_delete_edge` over `n1->neighbours`, as the entries already
passed, the entries still ahead of the position, and `g->edgecount`.
On a match the entry is unlinked (`dlist_remove`), the position stays and now stands in
front of the entry that followed; the `dlist_next` that comes next steps over that entry
without inspecting it.  When the unlinked entry was the last one, `dlist_next` returns
the NULL link and the loop test reads through it.  `g->edgecount--` wraps from `INT_MIN`
to `INT_MAX`. -/
def delete_edge_loop (n2 : Nat) : List Nat → List Nat → Int → Option (List Nat × Int)
  | passed, [], edgecount => some (passed, edgecount)
  | passed, [n], edgecount =>
    if nodes_are_equal n n2 then none else some (passed ++ [n], edgecount)
  | passed, n :: m :: ahead, edgecount =>
    if nodes_are_equal n n2 then
      delete_edge_loop n2 (passed ++ [m]) ahead (int_wrap (edgecount - 1))
    else delete_edge_loop n2 (passed ++ [n]) (m :: ahead) edgecount

/-- The function `graph_delete_edge`: only `n1->neighbours` is scanned. -/
def graph_delete_edge (g : graph) (n1 n2 : Nat) : Option graph :=
  match g.deref n1 with
  | none => none
  | some nd1 =>
    match delete_edge_loop n2 [] nd1.neighbours g.edgecount with
    | none => none
    | some (l, edgecount) =>
      some { g with
             heap := g.heap.set n1 (some { nd1 with neighbours := l })
             edgecount := edgecount }

/-- The first `while` loop of `graph_delete_node`: `graph_delete_edge(g, ni, n)` for the
entries `ni` of `g->nodes` ahead of the position. -/
def delete_node_edges (n : Nat) : graph → List Nat → Option graph
  | g, [] => some g
  | g, ni :: ahead =>
    match graph_delete_edge g ni n with
    | none => none
    | some g' => delete_node_edges n g' ahead

/-- The second `while` loop of `graph_delete_node` over `g->nodes`, as the entries already
passed and the entries still ahead.  On a match the entry is unlinked, the cell `n` is
freed and `nodecount` goes down; the position behaves as in `delete_edge_loop`. -/
def delete_node_loop (n : Nat) : graph → List Nat → List Nat → Option graph
  | g, passed, [] => some { g with nodes := passed }
  | g, passed, [ni] =>
    if nodes_are_equal ni n then none else some { g with nodes := passed ++ [ni] }
  | g, passed, ni :: m :: ahead =>
    if nodes_are_equal ni n then
      match g.deref n with
      | none => none
      | some _ =>
        delete_node_loop n
          { g with heap := g.heap.set n none, nodecount := g.nodecount - 1 }
          (passed ++ [m]) ahead
    else delete_node_loop n g (passed ++ [ni]) (m :: ahead)

/-- The function `graph_delete_node`. -/
def graph_delete_node (g : graph) (n : Nat) : Option graph :=
  match delete_node_edges n g g.nodes with
  | none => none
  | some g' => delete_node_loop n g' [] g'.nodes

/-- The function `graph_choose_node`: the first entry of `g->nodes`. -/
def graph_choose_node (g : graph) : Option Nat :=
  g.nodes.head?

/-- The function `graph_neighbours`: `n->neighbours`. -/
def graph_neighbours (g : graph) (n : Nat) : Option dlist :=
  (g.deref n).map node.neighbours

/-! ## is_connected2.c -/

/-- The inner `while` loop of `find_path` over the entries of `neighbourSet` ahead of the
position: an entry that is not seen is marked and enqueued. -/
def find_path_visit : graph → queue → List Nat → Option (graph × queue)
  | g, q, [] => some (g, q)
  | g, q, entry :: ahead =>
    match graph_node_is_seen g entry with
    | none => none
    | some true => find_path_visit g q ahead
    | some false =>
      match graph_node_set_seen g entry true with
      | none => none
      | some g' => find_path_visit g' (queue_enqueue q entry) ahead

/-- The outer `while (!queue_is_empty(q))` loop of `find_path`, run for at most `fuel`
rounds: `none` when a round reads a cell that is not allocated or when the rounds run out
with the queue still holding an entry. -/
def find_path_loop : Nat → graph → queue → Option graph
  | _, g, [] => some g
  | 0, _, _ :: _ => none
  | fuel + 1, g, n :: q =>
    match graph_neighbours g n with
    | none => none
    | some neighbourSet =>
      match find_path_visit g q neighbourSet with
      | none => none
      | some (g', q') => find_path_loop fuel g' q'

/-- The function `find_path`: the returned truth value and the graph it leaves behind.
One round per cell of the heap and one more for `src` are always enough
(`find_path_loop_spec` below). -/
def find_path (g : graph) (src dest : Nat) : Option (Bool × graph) :=
  match graph_node_set_seen g src true with
  | none => none
  | some g1 =>
    match find_path_loop (g1.heap.length + 1) g1 (queue_enqueue queue_empty src) with
    | none => none
    | some g2 =>
      match graph_node_is_seen g2 dest with
      | none => none
      | some b => some (b, g2)

/-- A statement of `main` that changes the graph. -/
inductive main_call where
  /-- `g = graph_insert_node(g, s);` -/
  | insert_node (s : String)
  /-- `g = graph_insert_edge(g, graph_find_node(g, a), graph_find_node(g, b));` -/
  | insert_edge (a b : String)

/-- One statement of `main`, run on the graph `g`. -/
def main_step (g : graph) : main_call → Option graph
  | main_call.insert_node s => graph_insert_node g s
  | main_call.insert_edge a b =>
    match graph_find_node g a, graph_find_node g b with
    | lookup.found n1, lookup.found n2 => graph_insert_edge g n1 n2
    | _, _ => none

/-- Statements run one after the other. -/
def main_steps : graph → List main_call → Option graph
  | g, [] => some g
  | g, c :: cs =>
    match main_step g c with
    | none => none
    | some g' => main_steps g' cs

/-- The statements of `main` between `graph_empty(8)` and the prompt, in source order. -/
def main_calls : List main_call :=
  [ main_call.insert_node "UME", main_call.insert_node "BMA", main_call.insert_node "MMX",
    main_call.insert_node "GOT", main_call.insert_node "PJA", main_call.insert_node "LLA",
    main_call.insert_edge "UME" "BMA", main_call.insert_edge "BMA" "UME",
    main_call.insert_edge "BMA" "MMX", main_call.insert_edge "MMX" "BMA",
    main_call.insert_edge "BMA" "GOT", main_call.insert_edge "GOT" "BMA",
    main_call.insert_edge "LLA" "PJA", main_call.insert_edge "PJA" "LLA" ]

/-- The graph that `main` builds before it asks for the two names. -/
def main_graph (fresh_edgecount : Int) : Option graph :=
  main_steps (graph_empty 8 fresh_edgecount) main_calls

/-- The line `find_path(g, graph_find_node(g, srcstr), graph_find_node(g, deststr))` of
`main`, on the graph that `main` has built. -/
def main_query (fresh_edgecount : Int) (srcstr deststr : String) : Option Bool :=
  match main_graph fresh_edgecount with
  | none => none
  | some g =>
    match graph_find_node g srcstr, graph_find_node g deststr with
    | lookup.found src, lookup.found dest => (find_path g src dest).map Prod.fst
    | _, _ => none

/-! ## graph3.c -/

/-- The terminator of a C string. -/
def NUL : Char := Char.ofNat 0

/-- The character `name[i]` of a C string, given the characters from index `i` on: the
terminator when none is left. -/
def c_char : List Char → Char
  | [] => NUL
  | c :: _ => c

/-- The `while` loop and the final test of `nodes_are_equal` of graph3.c, on the characters
of the two names from index `i` on. -/
def graph3.nodes_are_equal_loop : List Char → List Char → Bool
  | a :: as, b :: bs =>
    if a ≠ NUL ∧ b ≠ NUL then
      if a ≠ b then false else graph3.nodes_are_equal_loop as bs
    else decide (a = NUL ∧ b = NUL)
  | [], name2 => decide (c_char name2 = NUL)
  | a :: _, [] => decide (a = NUL)

/-- The function `nodes_are_equal` of graph3.c, on the cells behind the two pointers. -/
def graph3.nodes_are_equal (n1 n2 : node) : Bool :=
  graph3.nodes_are_equal_loop n1.name.data n2.name.data

/-- The inner `while` loop and the test after it in `graph_find_node` of graph3.c, on the
characters of `n->name` and of `s` from index `i` on, with the current value of `check`. -/
def graph3.find_node_compare : List Char → List Char → Bool → Bool
  | a :: as, b :: bs, check =>
    if a ≠ NUL ∧ b ≠ NUL ∧ check = true then
      graph3.find_node_compare as bs (if a ≠ b then false else check)
    else decide (a = NUL ∧ b = NUL ∧ check = true)
  | [], s, check => decide (c_char s = NUL ∧ check = true)
  | a :: _, [], check => decide (a = NUL ∧ check = true)

/-- The outer `while` loop of `graph_find_node` of graph3.c from the position in front of
the given entries. -/
def graph3.find_node_scan (g : graph) (s : String) : List Nat → lookup
  | [] => lookup.not_found
  | p :: ahead =>
    match g.deref p with
    | none => lookup.undefined
    | some n =>
      if graph3.find_node_compare n.name.data s.data true then lookup.found p
      else graph3.find_node_scan g s ahead

/-- The function `graph_find_node` of graph3.c. -/
def graph3.graph_find_node (g : graph) (s : String) : lookup :=
  graph3.find_node_scan g s g.nodes

/-! ## Predicates used in the statements -/

/-- The address `p` is an allocated node cell. -/
def graph.live (g : graph) (p : Nat) : Prop :=
  (g.deref p).isSome = true

/-- Every entry of a neighbour list of an allocated cell is an allocated cell. -/
def graph.closed (g : graph) : Prop :=
  ∀ c ∈ g.heap, ∀ nd ∈ c, ∀ m ∈ nd.neighbours, (g.deref m).isSome = true

/-- No allocated cell is marked seen. -/
def graph.unseen (g : graph) : Prop :=
  ∀ c ∈ g.heap, ∀ nd ∈ c, nd.seen = false

/-- The entry `b` is in `graph_neighbours(g, a)`. -/
def neighbour_of (g : graph) (a b : Nat) : Prop :=
  ∃ l, graph_neighbours g a = some l ∧ b ∈ l

/-- The node `b` is reached from `a` by following neighbour entries zero or more times. -/
def reachable (g : graph) (a b : Nat) : Prop :=
  Relation.ReflTransGen (neighbour_of g) a b

/-- The nodes `a` and `b` lie in the same connected component of the graph whose edges are
the neighbour entries taken without direction. -/
def same_component (g : graph) (a b : Nat) : Prop :=
  Relation.ReflTransGen (fun x y => neighbour_of g x y ∨ neighbour_of g y x) a b

/-- The cell with its seen flag cleared. -/
def node.unmark (nd : node) : node :=
  { nd with seen := false }

/-- The graph with every seen flag cleared: what is left when the flags are ignored. -/
def graph.skeleton (g : graph) : graph :=
  { g with heap := g.heap.map (Option.map node.unmark) }

/-- The seen flag behind `p`, `false` where there is no cell. -/
def graph.seenb (g : graph) (p : Nat) : Bool :=
  match g.deref p with
  | some nd => nd.seen
  | none => false

/-- The neighbour entries behind `p`, none where there is no cell. -/
def graph.nbrs (g : graph) (p : Nat) : List Nat :=
  match g.deref p with
  | some nd => nd.neighbours
  | none => []

/-- The number of allocated cells that are not marked seen. -/
def graph.unseen_count (g : graph) : Nat :=
  g.heap.countP fun c => match c with
    | some nd => !nd.seen
    | none => false

/-- The graph `g` holds a node named `s`: an entry of `g->nodes` is a cell with that name. -/
def has_name (g : graph) (s : String) : Prop :=
  ∃ p ∈ g.nodes, ∃ nd, g.deref p = some nd ∧ nd.name = s

/-- What holds of every graph made by the operations: `g->nodes` lists exactly the
allocated cells, each once; neighbour entries are allocated cells, each once per list; no
flag is set; names differ from cell to cell; `nodecount` is the length of `g->nodes`. -/
structure graph.wf (g : graph) : Prop where
  nodes_live : ∀ p ∈ g.nodes, g.live p
  live_nodes : ∀ p, g.live p → p ∈ g.nodes
  nodes_nodup : g.nodes.Nodup
  closed : g.closed
  nbrs_nodup : ∀ p nd, g.deref p = some nd → nd.neighbours.Nodup
  unseen : g.unseen
  names : ∀ p q a b, g.deref p = some a → g.deref q = some b → a.name = b.name → p = q
  count : g.nodecount = g.nodes.length

/-- The graphs made from `graph_empty` by calls of `graph_insert_node`, `graph_insert_edge`,
`graph_delete_edge` and `graph_delete_node` on nodes of the graph, each call having
returned. -/
inductive built : graph → Prop
  | empty (max_nodes fresh_edgecount : Int) : built (graph_empty max_nodes fresh_edgecount)
  | insert_node {g g' : graph} (s : String) :
      built g → graph_insert_node g s = some g' → built g'
  | insert_edge {g g' : graph} (n1 n2 : Nat) :
      built g → n1 ∈ g.nodes → n2 ∈ g.nodes → graph_insert_edge g n1 n2 = some g' → built g'
  | delete_edge {g g' : graph} (n1 n2 : Nat) :
      built g → n1 ∈ g.nodes → n2 ∈ g.nodes → graph_delete_edge g n1 n2 = some g' → built g'
  | delete_node {g g' : graph} (n : Nat) :
      built g → n ∈ g.nodes → graph_delete_node g n = some g' → built g'

/-- The cells and entries of `g` can be read: every entry of `g->nodes` and every entry
of a neighbour list is an allocated cell. -/
def graph.valid (g : graph) : Prop :=
  (∀ p ∈ g.nodes, g.live p) ∧ g.closed

/-- A sequence of `graph_insert_node` calls, one per name, in order. -/
def insert_nodes : graph → List String → Option graph
  | g, [] => some g
  | g, s :: rest =>
    match graph_insert_node g s with
    | none => none
    | some g' => insert_nodes g' rest

/-- The names of the nodes of `g`, in the order of `g->nodes`. -/
def node_names (g : graph) : List String :=
  g.nodes.filterMap fun p => (g.deref p).map node.name

instance (g : graph) (p : Nat) : Decidable (g.live p) := by
  unfold graph.live; infer_instance

instance (g : graph) : Decidable g.closed := by
  unfold graph.closed; infer_instance

instance (g : graph) : Decidable g.unseen := by
  unfold graph.unseen; infer_instance

instance (g : graph) : Decidable g.valid := by
  unfold graph.valid; infer_instance

instance (g : graph) (a b : Nat) : Decidable (neighbour_of g a b) :=
  decidable_of_iff (b ∈ g.nbrs a) (by
    unfold graph.nbrs neighbour_of graph_neighbours
    cases g.deref a <;> simp)

/-- The total number of entries in the neighbour lists of the nodes the graph holds. -/
def entry_count (g : graph) : Nat :=
  (g.nodes.map fun p => (g.nbrs p).length).sum

/-- The number of unordered pairs of nodes, taken from the given entries of `g->nodes`,
that are connected by a neighbour entry in one direction or the other. -/
def pairs_from (g : graph) : List Nat → Nat
  | [] => 0
  | a :: rest =>
    (a :: rest).countP (fun b => decide (neighbour_of g a b ∨ neighbour_of g b a))
      + pairs_from g rest

/-- The number of unordered pairs of nodes of `g` that are connected by an edge. -/
def connected_pairs (g : graph) : Nat :=
  pairs_from g g.nodes

/-- The graphs made from `graph_empty`, whose fresh memory held `fresh_edgecount`, by calls
of `graph_insert_node`, `graph_insert_edge` and `graph_delete_edge` on nodes of the graph,
each call having returned. -/
inductive edges_built (fresh_edgecount : Int) : graph → Prop
  | empty (max_nodes : Int) : edges_built fresh_edgecount (graph_empty max_nodes fresh_edgecount)
  | insert_node {g g' : graph} (s : String) :
      edges_built fresh_edgecount g → graph_insert_node g s = some g' →
      edges_built fresh_edgecount g'
  | insert_edge {g g' : graph} (n1 n2 : Nat) :
      edges_built fresh_edgecount g → n1 ∈ g.nodes → n2 ∈ g.nodes →
      graph_insert_edge g n1 n2 = some g' → edges_built fresh_edgecount g'
  | delete_edge {g g' : graph} (n1 n2 : Nat) :
      edges_built fresh_edgecount g → n1 ∈ g.nodes → n2 ∈ g.nodes →
      graph_delete_edge g n1 n2 = some g' → edges_built fresh_edgecount g'

/-- Every entry of the neighbour list of a node of `g` is a node of `g`. -/
def graph.nodes_closed (g : graph) : Prop :=
  ∀ p ∈ g.nodes, ∀ l ∈ graph_neighbours g p, ∀ m ∈ l, m ∈ g.nodes

instance (g : graph) : Decidable g.nodes_closed := by
  unfold graph.nodes_closed; infer_instance

/-- A record of the rounds of the outer loop of `find_path`: for every round the queue as
the loop test found it, and the entries the round has enqueued, in order.  It follows
`find_path_loop` step by step; what a round has enqueued is what `find_path_visit` has
put behind the entries that were left in the queue. -/
def find_path_rounds : Nat → graph → queue → Option (List (queue × List Nat))
  | _, _, [] => some []
  | 0, _, _ :: _ => none
  | fuel + 1, g, n :: q =>
    match graph_neighbours g n with
    | none => none
    | some neighbourSet =>
      match find_path_visit g q neighbourSet with
      | none => none
      | some (g', q') =>
        match find_path_rounds fuel g' q' with
        | none => none
        | some rounds => some ((n :: q, q'.drop q.length) :: rounds)

/-- All entries enqueued by the recorded rounds, in order. -/
def rounds_enqueued : List (queue × List Nat) → List Nat
  | [] => []
  | r :: rounds => r.2 ++ rounds_enqueued rounds

/-- The text of a C string: the characters in front of the terminator, none of them the
terminator. -/
def c_string (s : String) : Prop :=
  NUL ∉ s.data

instance (s : String) : Decidable (c_string s) := by
  unfold c_string; infer_instance

/-- The name of every node of `g->nodes` that can be read is the text of a C string. -/
def graph.c_names (g : graph) : Prop :=
  ∀ p ∈ g.nodes, ∀ nd ∈ g.deref p, c_string nd.name

instance (g : graph) : Decidable g.c_names := by
  unfold graph.c_names; infer_instance

/-- The entry `x` stands somewhere in front of the entry `y` in the list `l`. -/
def listed_before (l : List Nat) (x y : Nat) : Prop :=
  List.Sublist [x, y] l

instance (l : List Nat) (x y : Nat) : Decidable (listed_before l x y) := by
  unfold listed_before; infer_instance

/-- The graphs made from `g` by further calls of `graph_insert_node`, `graph_insert_edge`,
`graph_delete_edge` and `graph_delete_node` on nodes of the graph, each call having
returned, none of which takes the entry `a` or the entry `b` out of the neighbour list of
`n` or deletes one of the three nodes. -/
inductive built_keeping (n a b : Nat) (g : graph) : graph → Prop
  | start : built_keeping n a b g g
  | insert_node {g1 g2 : graph} (s : String) :
      built_keeping n a b g g1 → graph_insert_node g1 s = some g2 →
      built_keeping n a b g g2
  | insert_edge {g1 g2 : graph} (n1 n2 : Nat) :
      built_keeping n a b g g1 → n1 ∈ g1.nodes → n2 ∈ g1.nodes →
      graph_insert_edge g1 n1 n2 = some g2 → built_keeping n a b g g2
  | delete_edge {g1 g2 : graph} (n1 n2 : Nat) :
      built_keeping n a b g g1 → n1 ∈ g1.nodes → n2 ∈ g1.nodes →
      (n1 = n → n2 ≠ a ∧ n2 ≠ b) →
      graph_delete_edge g1 n1 n2 = some g2 → built_keeping n a b g g2
  | delete_node {g1 g2 : graph} (m : Nat) :
      built_keeping n a b g g1 → m ∈ g1.nodes → m ≠ n → m ≠ a → m ≠ b →
      graph_delete_node g1 m = some g2 → built_keeping n a b g g2

/-- The nodes that the recorded rounds have taken from the queue, in order: the front of
the queue of every round. -/
def rounds_dequeued : List (queue × List Nat) → List Nat
  | [] => []
  | r :: rounds => r.1.head?.toList ++ rounds_dequeued rounds

/-! ## Example graphs -/

/-- Example: `graph_empty(2)`, then nodes "A" (cell 0) and "B" (cell 1), no edge. -/
def two_nodes_graph : graph :=
  { heap := [some { name := "A", seen := false, neighbours := [] },
             some { name := "B", seen := false, neighbours := [] }],
    nodes := [1, 0], edgecount := 0, nodecount := 2, maxnodes := 2 }

/-- Example: `two_nodes_graph` after `graph_insert_edge(g, A, B)`. -/
def one_way_graph : graph :=
  { heap := [some { name := "A", seen := false, neighbours := [1] },
             some { name := "B", seen := false, neighbours := [] }],
    nodes := [1, 0], edgecount := 1, nodecount := 2, maxnodes := 2 }

/-- Example: nodes "A" (cell 0), "B" (cell 1), "C" (cell 2) after
`graph_insert_edge(g, A, C)`, `graph_insert_edge(g, A, B)`, `graph_insert_edge(g, B, A)`. -/
def three_nodes_graph : graph :=
  { heap := [some { name := "A", seen := false, neighbours := [1, 2] },
             some { name := "B", seen := false, neighbours := [0] },
             some { name := "C", seen := false, neighbours := [] }],
    nodes := [2, 1, 0], edgecount := 3, nodecount := 3, maxnodes := 3 }

/-- Example: `graph_empty(max_nodes)` after `graph_insert_node(g, "X")`, for a capacity of
at least one. -/
def x_graph (max_nodes : Int) : graph :=
  { heap := [some { name := "X", seen := false, neighbours := [] }],
    nodes := [0], edgecount := 0, nodecount := 1, maxnodes := max_nodes }

/-- Example: `graph_empty(3)` after the nodes "A", "B" and "C" were inserted. -/
def abc_graph : graph :=
  { heap := [some { name := "A", seen := false, neighbours := [] },
             some { name := "B", seen := false, neighbours := [] },
             some { name := "C", seen := false, neighbours := [] }],
    nodes := [2, 1, 0], edgecount := 0, nodecount := 3, maxnodes := 3 }

/-- Example: `graph_empty(8)` after `graph_insert_node(g, "UME")`. -/
def ume_graph : graph :=
  { heap := [some { name := "UME", seen := false, neighbours := [] }],
    nodes := [0], edgecount := 0, nodecount := 1, maxnodes := 8 }

/-- Example: `one_way_graph` with the seen flag of "B" left set by an earlier query. -/
def stale_graph : graph :=
  { heap := [some { name := "A", seen := false, neighbours := [1] },
             some { name := "B", seen := true, neighbours := [] }],
    nodes := [1, 0], edgecount := 1, nodecount := 2, maxnodes := 2 }

/-- Example: `one_way_graph` after `graph_insert_edge(g, B, A)`: the edge between "A" and
"B" inserted in both directions, as `main` does. -/
def both_ways_graph : graph :=
  { heap := [some { name := "A", seen := false, neighbours := [1] },
             some { name := "B", seen := false, neighbours := [0] }],
    nodes := [1, 0], edgecount := 2, nodecount := 2, maxnodes := 2 }

/-- Example: `abc_graph` after `graph_insert_edge(g, B, A)`. -/
def b_to_a_graph : graph :=
  { heap := [some { name := "A", seen := false, neighbours := [] },
             some { name := "B", seen := false, neighbours := [0] },
             some { name := "C", seen := false, neighbours := [] }],
    nodes := [2, 1, 0], edgecount := 1, nodecount := 3, maxnodes := 3 }

/-- Example: the graph with the nodes "A", "B", "C" and the edges A–B and B–C:
`abc_graph` after `graph_insert_edge` for (A, B), (B, A), (B, C), (C, B). -/
def path_graph : graph :=
  { heap := [some { name := "A", seen := false, neighbours := [1] },
             some { name := "B", seen := false, neighbours := [2, 0] },
             some { name := "C", seen := false, neighbours := [1] }],
    nodes := [2, 1, 0], edgecount := 4, nodecount := 3, maxnodes := 3 }

/-- Example: `two_nodes_graph` with the seen flag of "B" left set by an earlier query. -/
def stale_apart_graph : graph :=
  { heap := [some { name := "A", seen := false, neighbours := [] },
             some { name := "B", seen := true, neighbours := [] }],
    nodes := [1, 0], edgecount := 0, nodecount := 2, maxnodes := 2 }

/-- Example: `abc_graph` after `graph_insert_edge(g, A, B)` and then
`graph_insert_edge(g, A, C)`. -/
def a_to_bc_graph : graph :=
  { heap := [some { name := "A", seen := false, neighbours := [2, 1] },
             some { name := "B", seen := false, neighbours := [] },
             some { name := "C", seen := false, neighbours := [] }],
    nodes := [2, 1, 0], edgecount := 2, nodecount := 3, maxnodes := 3 }

/-- Example: `graph_empty(2)` on memory whose `edgecount` word held `fresh_edgecount`, then
nodes "A" (cell 0) and "B" (cell 1), no edge. -/
def fresh_two_nodes_graph (fresh_edgecount : Int) : graph :=
  { heap := [some { name := "A", seen := false, neighbours := [] },
             some { name := "B", seen := false, neighbours := [] }],
    nodes := [1, 0], edgecount := fresh_edgecount, nodecount := 2, maxnodes := 2 }

/-- Example: the nodes "A" and "B" with the one entry from "A" to "B" and the given edge
count. -/
def fresh_one_way_graph (edgecount : Int) : graph :=
  { heap := [some { name := "A", seen := false, neighbours := [1] },
             some { name := "B", seen := false, neighbours := [] }],
    nodes := [1, 0], edgecount := edgecount, nodecount := 2, maxnodes := 2 }

/-- Example: `graph_empty(4)`, then nodes "A" (cell 0), "B" (cell 1), "C" (cell 2) and
"D" (cell 3), with the given neighbour list for "A", none for the others, and the given
edge count. -/
def abcd_graph (neighbours : List Nat) (edgecount : Int) : graph :=
  { heap := [some { name := "A", seen := false, neighbours := neighbours },
             some { name := "B", seen := false, neighbours := [] },
             some { name := "C", seen := false, neighbours := [] },
             some { name := "D", seen := false, neighbours := [] }],
    nodes := [3, 2, 1, 0], edgecount := edgecount, nodecount := 4, maxnodes := 4 }

/-! ## Memory cells -/

theorem cell_set_self (h : List (Option node)) (p : Nat) (c : Option node)
    (hp : p < h.length) : (h.set p c).getD p none = c := by
  simp [List.getD_eq_getElem?_getD, hp]

theorem cell_set_ne (h : List (Option node)) {p q : Nat} (c : Option node) (hne : q ≠ p) :
    (h.set p c).getD q none = h.getD q none := by
  simp [List.getD_eq_getElem?_getD, List.getElem?_set_ne (Ne.symm hne)]

theorem cell_lt {h : List (Option node)} {p : Nat} {nd : node}
    (hp : h.getD p none = some nd) : p < h.length := by
  by_contra hlt
  simp [List.getD_eq_getElem?_getD, List.getElem?_eq_none (not_lt.mp hlt)] at hp

theorem cell_append_left (h t : List (Option node)) {p : Nat} (hp : p < h.length) :
    (h ++ t).getD p none = h.getD p none := by
  simp [List.getD_eq_getElem?_getD, List.getElem?_append_left hp]

theorem cell_append_self (h : List (Option node)) (c : Option node) :
    (h ++ [c]).getD h.length none = c := by
  simp [List.getD_eq_getElem?_getD]

theorem cell_set_same (h : List (Option node)) (p : Nat) (c : Option node)
    (hp : h.getD p none = c) : h.set p c = h := by
  induction h generalizing p with
  | nil => simp
  | cons x xs ih =>
    cases p with
    | zero => simp at hp; simp [hp]
    | succ p =>
      have hp2 : xs.getD p none = c := by simpa using hp
      simp [ih p hp2]

theorem cell_mem {h : List (Option node)} {p : Nat} {nd : node}
    (hp : h.getD p none = some nd) : some nd ∈ h := by
  have hlt := cell_lt hp
  have h2 : h[p]? = some (some nd) := by
    rw [List.getElem?_eq_getElem hlt]
    simp [List.getD_eq_getElem?_getD, List.getElem?_eq_getElem hlt] at hp
    simp [hp]
  exact List.getElem?_mem h2

theorem mem_cell {h : List (Option node)} {nd : node} (hm : some nd ∈ h) :
    ∃ p, h.getD p none = some nd := by
  obtain ⟨p, hp, hpe⟩ := List.getElem_of_mem hm
  exact ⟨p, by simp [List.getD_eq_getElem?_getD, List.getElem?_eq_getElem hp, hpe]⟩

theorem deref_lt {g : graph} {p : Nat} {nd : node} (h : g.deref p = some nd) :
    p < g.heap.length :=
  cell_lt h

theorem live_iff {g : graph} {p : Nat} : g.live p ↔ ∃ nd, g.deref p = some nd := by
  unfold graph.live
  exact Option.isSome_iff_exists

theorem closed_iff {g : graph} :
    g.closed ↔ ∀ p nd, g.deref p = some nd → ∀ m ∈ nd.neighbours, g.live m := by
  unfold graph.closed graph.live
  constructor
  · intro h p nd hp m hm
    exact h (some nd) (cell_mem hp) nd rfl m hm
  · intro h c hc nd hnd m hm
    have hc2 : some nd ∈ g.heap := by
      have : c = some nd := hnd
      rw [← this]; exact hc
    obtain ⟨p, hp⟩ := mem_cell hc2
    exact h p nd hp m hm

theorem unseen_iff {g : graph} :
    g.unseen ↔ ∀ p nd, g.deref p = some nd → nd.seen = false := by
  unfold graph.unseen
  constructor
  · intro h p nd hp
    exact h (some nd) (cell_mem hp) nd rfl
  · intro h c hc nd hnd
    have hc2 : some nd ∈ g.heap := by
      have : c = some nd := hnd
      rw [← this]; exact hc
    obtain ⟨p, hp⟩ := mem_cell hc2
    exact h p nd hp

/-! ## Seen flags and the skeleton -/

theorem deref_skeleton (g : graph) (p : Nat) :
    g.skeleton.deref p = (g.deref p).map node.unmark := by
  unfold graph.deref graph.skeleton
  exact List.getD_map g.heap none (Option.map node.unmark)

theorem skeleton_deref {g g' : graph} (h : g'.skeleton = g.skeleton) (p : Nat) :
    (g'.deref p).map node.unmark = (g.deref p).map node.unmark := by
  rw [← deref_skeleton, h, deref_skeleton]

theorem skeleton_cell {g g' : graph} (h : g'.skeleton = g.skeleton) {p : Nat} {nd' : node}
    (hp : g'.deref p = some nd') :
    ∃ nd, g.deref p = some nd ∧ nd.name = nd'.name ∧ nd.neighbours = nd'.neighbours := by
  have h1 := skeleton_deref h p
  rw [hp] at h1
  cases hg : g.deref p with
  | none => rw [hg] at h1; simp at h1
  | some nd =>
    rw [hg] at h1
    simp only [Option.map_some', Option.some.injEq, node.unmark] at h1
    refine ⟨nd, rfl, ?_, ?_⟩
    · have := congrArg node.name h1; simpa using this.symm
    · have := congrArg node.neighbours h1; simpa using this.symm

theorem skeleton_live {g g' : graph} (h : g'.skeleton = g.skeleton) (p : Nat) :
    g'.live p ↔ g.live p := by
  rw [live_iff, live_iff]
  constructor
  · rintro ⟨nd', hp⟩
    obtain ⟨nd, hnd, _⟩ := skeleton_cell h hp
    exact ⟨nd, hnd⟩
  · rintro ⟨nd, hp⟩
    obtain ⟨nd', hnd, _⟩ := skeleton_cell h.symm hp
    exact ⟨nd', hnd⟩

theorem skeleton_neighbours {g g' : graph} (h : g'.skeleton = g.skeleton) (p : Nat) :
    graph_neighbours g' p = graph_neighbours g p := by
  unfold graph_neighbours
  cases hp : g'.deref p with
  | some nd' =>
    obtain ⟨nd, hnd, _, hn⟩ := skeleton_cell h hp
    simp [hnd, hn]
  | none =>
    cases hq : g.deref p with
    | none => rfl
    | some nd =>
      obtain ⟨nd', hnd, _⟩ := skeleton_cell h.symm hq
      rw [hp] at hnd
      exact absurd hnd (by simp)

theorem skeleton_nbrs {g g' : graph} (h : g'.skeleton = g.skeleton) (p : Nat) :
    g'.nbrs p = g.nbrs p := by
  have h1 := skeleton_neighbours h p
  unfold graph_neighbours at h1
  unfold graph.nbrs
  cases hp : g'.deref p <;> cases hq : g.deref p <;> simp_all

theorem skeleton_closed {g g' : graph} (h : g'.skeleton = g.skeleton) (hc : g.closed) :
    g'.closed := by
  rw [closed_iff] at hc ⊢
  intro p nd' hp m hm
  obtain ⟨nd, hnd, _, hn⟩ := skeleton_cell h hp
  exact (skeleton_live h m).mpr (hc p nd hnd m (hn ▸ hm))

theorem skeleton_heap_length {g g' : graph} (h : g'.skeleton = g.skeleton) :
    g'.heap.length = g.heap.length := by
  have h1 := congrArg (fun x => x.heap.length) h
  simpa [graph.skeleton] using h1

theorem skeleton_neighbour_of {g g' : graph} (h : g'.skeleton = g.skeleton) (a b : Nat) :
    neighbour_of g' a b ↔ neighbour_of g a b := by
  unfold neighbour_of
  rw [skeleton_neighbours h a]

theorem skeleton_reachable {g g' : graph} (h : g'.skeleton = g.skeleton) (a b : Nat) :
    reachable g' a b ↔ reachable g a b := by
  unfold reachable
  have : neighbour_of g' = neighbour_of g := by
    funext x y
    exact propext (skeleton_neighbour_of h x y)
  rw [this]

theorem nbrs_iff {g : graph} {a b : Nat} : b ∈ g.nbrs a ↔ neighbour_of g a b := by
  unfold graph.nbrs neighbour_of graph_neighbours
  cases g.deref a <;> simp

theorem seenb_eq {g : graph} {p : Nat} {b : Bool} (h : graph_node_is_seen g p = some b) :
    g.seenb p = b := by
  unfold graph_node_is_seen at h
  unfold graph.seenb
  cases hp : g.deref p with
  | none => rw [hp] at h; simp at h
  | some nd => rw [hp] at h; simpa using h

theorem is_seen_of_live {g : graph} {p : Nat} (h : g.live p) :
    graph_node_is_seen g p = some (g.seenb p) := by
  obtain ⟨nd, hnd⟩ := live_iff.mp h
  unfold graph_node_is_seen graph.seenb
  simp [hnd]

theorem set_seen_some {g : graph} {n : Nat} (s : Bool) (h : g.live n) :
    ∃ g', graph_node_set_seen g n s = some g' := by
  obtain ⟨nd, hnd⟩ := live_iff.mp h
  unfold graph_node_set_seen
  simp [hnd]

theorem heap_set_skeleton (h : List (Option node)) (n : Nat) (nd : node) (s : Bool)
    (hn : h.getD n none = some nd) :
    (h.set n (some { nd with seen := s })).map (Option.map node.unmark)
      = h.map (Option.map node.unmark) := by
  induction h generalizing n with
  | nil => simp
  | cons x xs ih =>
    cases n with
    | zero =>
      have hx : x = some nd := by simpa using hn
      simp [hx, node.unmark]
    | succ n =>
      have hn2 : xs.getD n none = some nd := by simpa using hn
      simp [ih n hn2]

theorem set_seen_skeleton {g g' : graph} {n : Nat} {s : Bool}
    (h : graph_node_set_seen g n s = some g') : g'.skeleton = g.skeleton := by
  unfold graph_node_set_seen at h
  cases hn : g.deref n with
  | none => rw [hn] at h; simp at h
  | some nd =>
    rw [hn] at h
    simp only [Option.some.injEq] at h
    subst h
    unfold graph.skeleton
    simp only [heap_set_skeleton g.heap n nd s hn]

theorem set_seen_seenb {g g' : graph} {n : Nat} {s : Bool}
    (h : graph_node_set_seen g n s = some g') (p : Nat) :
    g'.seenb p = if p = n then s else g.seenb p := by
  unfold graph_node_set_seen at h
  cases hn : g.deref n with
  | none => rw [hn] at h; simp at h
  | some nd =>
    rw [hn] at h
    simp only [Option.some.injEq] at h
    subst h
    unfold graph.seenb graph.deref
    by_cases hp : p = n
    · subst hp
      simp only [cell_set_self g.heap p _ (deref_lt hn), if_true]
    · simp only [cell_set_ne g.heap _ hp, if_neg hp]

theorem heap_set_count (h : List (Option node)) (n : Nat) (nd : node)
    (hn : h.getD n none = some nd) (hs : nd.seen = false) :
    (h.set n (some { nd with seen := true })).countP (fun c => match c with
        | some nd => !nd.seen
        | none => false) + 1
      = h.countP (fun c => match c with
        | some nd => !nd.seen
        | none => false) := by
  induction h generalizing n with
  | nil => simp at hn
  | cons x xs ih =>
    cases n with
    | zero =>
      have hx : x = some nd := by simpa using hn
      subst hx
      simp [List.countP_cons, hs]
    | succ n =>
      have hn2 : xs.getD n none = some nd := by simpa using hn
      have := ih n hn2
      simp only [List.set_cons_succ, List.countP_cons]
      omega

theorem set_seen_count {g g' : graph} {n : Nat}
    (h : graph_node_set_seen g n true = some g') (hs : g.seenb n = false) :
    g'.unseen_count + 1 = g.unseen_count := by
  unfold graph_node_set_seen at h
  cases hn : g.deref n with
  | none => rw [hn] at h; simp at h
  | some nd =>
    rw [hn] at h
    simp only [Option.some.injEq] at h
    subst h
    have hs2 : nd.seen = false := by
      unfold graph.seenb at hs
      rw [hn] at hs
      exact hs
    exact heap_set_count g.heap n nd hn hs2

theorem unseen_count_le (g : graph) : g.unseen_count ≤ g.heap.length :=
  List.countP_le_length _

/-! ## The loops of `find_path` -/

/-- The inner loop returns; it marks exactly the entries of `ns`, enqueues those that
were not seen, each once, and touches nothing but seen flags. -/
theorem find_path_visit_spec (ns : List Nat) : ∀ (g : graph) (q : queue),
    (∀ m ∈ ns, g.live m) →
    ∃ g' new, find_path_visit g q ns = some (g', q ++ new) ∧ g'.skeleton = g.skeleton ∧
      (∀ p, g'.seenb p = (g.seenb p || decide (p ∈ ns))) ∧
      (∀ x, x ∈ new ↔ x ∈ ns ∧ g.seenb x = false) ∧
      new.Nodup ∧
      g'.unseen_count + new.length = g.unseen_count := by
  induction ns with
  | nil =>
    intro g q _
    exact ⟨g, [], by simp [find_path_visit], rfl, by simp, by simp, by simp, by simp⟩
  | cons entry ahead ih =>
    intro g q hl
    have hle : g.live entry := hl entry (List.mem_cons_self _ _)
    have hseen := is_seen_of_live hle
    rw [find_path_visit, hseen]
    cases hb : g.seenb entry with
    | true =>
      simp only
      obtain ⟨g', new, h1, h2, h3, h4, h5, h6⟩ :=
        ih g q (fun m hm => hl m (List.mem_cons_of_mem _ hm))
      refine ⟨g', new, h1, h2, ?_, ?_, h5, h6⟩
      · intro p
        rw [h3 p]
        by_cases hp : p = entry
        · subst hp; simp [hb]
        · simp [hp]
      · intro x
        rw [h4 x]
        constructor
        · rintro ⟨hx, hs⟩
          exact ⟨List.mem_cons_of_mem _ hx, hs⟩
        · rintro ⟨hx, hs⟩
          rcases List.mem_cons.mp hx with hx | hx
          · subst hx; rw [hb] at hs; exact absurd hs (by simp)
          · exact ⟨hx, hs⟩
    | false =>
      obtain ⟨g1, hg1⟩ := set_seen_some true hle
      simp only [hg1]
      have hsk := set_seen_skeleton hg1
      obtain ⟨g', new, h1, h2, h3, h4, h5, h6⟩ :=
        ih g1 (queue_enqueue q entry)
          (fun m hm => (skeleton_live hsk m).mpr (hl m (List.mem_cons_of_mem _ hm)))
      have hg1s : ∀ p, g1.seenb p = if p = entry then true else g.seenb p :=
        set_seen_seenb hg1
      refine ⟨g', entry :: new, ?_, h2.trans hsk, ?_, ?_, ?_, ?_⟩
      · rw [h1]; simp [queue_enqueue]
      · intro p
        rw [h3 p, hg1s p]
        by_cases hp : p = entry <;> simp [hp]
      · intro x
        rw [List.mem_cons, h4 x, hg1s x]
        by_cases hx : x = entry
        · subst hx; simp [hb]
        · simp [hx]
      · refine List.nodup_cons.mpr ⟨?_, h5⟩
        intro hmem
        have := ((h4 entry).mp hmem).2
        rw [hg1s entry] at this
        simp at this
      · have := set_seen_count hg1 hb
        simp only [List.length_cons]
        omega

/-- The outer loop with enough fuel returns; it touches nothing but seen flags, never
clears one, marks only what the queue reaches, and leaves the seen set closed under
neighbour entries when every seen node outside the queue already has seen neighbours. -/
theorem find_path_loop_spec (fuel : Nat) : ∀ (g : graph) (q : queue),
    g.closed → (∀ x ∈ q, g.live x) → g.unseen_count + q.length ≤ fuel →
    ∃ g', find_path_loop fuel g q = some g' ∧ g'.skeleton = g.skeleton ∧
      (∀ p, g.seenb p = true → g'.seenb p = true) ∧
      (∀ p, g'.seenb p = true → g.seenb p = true ∨ ∃ x ∈ q, reachable g x p) ∧
      ((∀ p, g.seenb p = true → p ∉ q → ∀ m ∈ g.nbrs p, g.seenb m = true) →
        ∀ p, g'.seenb p = true → ∀ m ∈ g'.nbrs p, g'.seenb m = true) := by
  induction fuel with
  | zero =>
    intro g q _ _ hf
    have hq : q = [] := List.length_eq_zero.mp (by omega)
    subst hq
    exact ⟨g, by simp [find_path_loop], rfl, fun _ h => h, fun _ h => Or.inl h,
      fun h p hp m hm => h p hp (List.not_mem_nil _) m hm⟩
  | succ f ih =>
    intro g q hc hq hf
    cases q with
    | nil =>
      exact ⟨g, by simp [find_path_loop], rfl, fun _ h => h, fun _ h => Or.inl h,
        fun h p hp m hm => h p hp (List.not_mem_nil _) m hm⟩
    | cons n q0 =>
      have hn : g.live n := hq n (List.mem_cons_self _ _)
      obtain ⟨nd, hnd⟩ := live_iff.mp hn
      have hnb : graph_neighbours g n = some (g.nbrs n) := by
        unfold graph_neighbours graph.nbrs
        simp [hnd]
      have hnl : ∀ m ∈ g.nbrs n, g.live m := by
        intro m hm
        have : m ∈ nd.neighbours := by
          unfold graph.nbrs at hm
          rw [hnd] at hm
          exact hm
        exact closed_iff.mp hc n nd hnd m this
      obtain ⟨g1, new, h1, h2, h3, h4, _, h6⟩ := find_path_visit_spec (g.nbrs n) g q0 hnl
      have hlive1 : ∀ x ∈ q0 ++ new, g1.live x := by
        intro x hx
        refine (skeleton_live h2 x).mpr ?_
        rcases List.mem_append.mp hx with hx | hx
        · exact hq x (List.mem_cons_of_mem _ hx)
        · exact hnl x ((h4 x).mp hx).1
      have hfuel : g1.unseen_count + (q0 ++ new).length ≤ f := by
        simp only [List.length_append, List.length_cons] at hf ⊢
        omega
      obtain ⟨g', k1, k2, k3, k4, k5⟩ := ih g1 (q0 ++ new) (skeleton_closed h2 hc) hlive1 hfuel
      refine ⟨g', ?_, k2.trans h2, ?_, ?_, ?_⟩
      · rw [find_path_loop, hnb]
        simp only [h1, k1]
      · intro p hp
        apply k3
        rw [h3 p, hp]
        rfl
      · intro p hp
        rcases k4 p hp with hp1 | ⟨x, hx, hxp⟩
        · rw [h3 p] at hp1
          rcases Bool.or_eq_true _ _ ▸ hp1 with hp2 | hp2
          · exact Or.inl hp2
          · right
            refine ⟨n, List.mem_cons_self _ _, ?_⟩
            exact Relation.ReflTransGen.single (nbrs_iff.mp (of_decide_eq_true hp2))
        · right
          have hxp' : reachable g x p := (skeleton_reachable h2 x p).mp hxp
          rcases List.mem_append.mp hx with hx | hx
          · exact ⟨x, List.mem_cons_of_mem _ hx, hxp'⟩
          · refine ⟨n, List.mem_cons_self _ _, ?_⟩
            exact Relation.ReflTransGen.head (nbrs_iff.mp ((h4 x).mp hx).1) hxp'
      · intro hI
        apply k5
        intro p hp hpq m hm
        rw [skeleton_nbrs h2 p] at hm
        rw [h3 m]
        rw [h3 p] at hp
        by_cases hpn : p = n
        · subst hpn
          simp [hm]
        · by_cases hps : g.seenb p = true
          · have hpq0 : p ∉ n :: q0 := by
              intro hmem
              rcases List.mem_cons.mp hmem with h | h
              · exact hpn h
              · exact hpq (List.mem_append_left _ h)
            simp [hI p hps hpq0 m hm]
          · exfalso
            have hps' : g.seenb p = false := by simpa using hps
            rw [hps'] at hp
            have hpin : p ∈ g.nbrs n := by simpa using hp
            exact hpq (List.mem_append_right _ ((h4 p).mpr ⟨hpin, hps'⟩))

theorem seenb_of_unseen {g : graph} (h : g.unseen) (p : Nat) : g.seenb p = false := by
  unfold graph.seenb
  cases hp : g.deref p with
  | none => rfl
  | some nd => exact unseen_iff.mp h p nd hp

/-- The whole of `find_path` on a graph whose neighbour entries are allocated cells: it
returns, the answer is the seen flag of `dest` at the end, only seen flags have changed
and none was cleared, `src` is seen, and when no flag was set on entry the seen nodes are
exactly the nodes reached from `src`. -/
theorem find_path_spec {g : graph} {src dest : Nat} (hc : g.closed) (hs : g.live src)
    (hd : g.live dest) :
    ∃ g', find_path g src dest = some (g'.seenb dest, g') ∧ g'.skeleton = g.skeleton ∧
      g'.seenb src = true ∧ (∀ p, g.seenb p = true → g'.seenb p = true) ∧
      (g.unseen → ∀ p, g'.seenb p = true ↔ reachable g src p) := by
  obtain ⟨g1, hg1⟩ := set_seen_some true hs
  have hsk1 := set_seen_skeleton hg1
  have hs1 : ∀ p, g1.seenb p = if p = src then true else g.seenb p := set_seen_seenb hg1
  have hq : ∀ x ∈ queue_enqueue queue_empty src, g1.live x := by
    intro x hx
    have : x = src := by simpa [queue_enqueue, queue_empty] using hx
    subst this
    exact (skeleton_live hsk1 x).mpr hs
  have hfuel : g1.unseen_count + (queue_enqueue queue_empty src).length
      ≤ g1.heap.length + 1 := by
    have := unseen_count_le g1
    simp only [queue_enqueue, queue_empty, List.nil_append, List.length_singleton]
    omega
  obtain ⟨g2, k1, k2, k3, k4, k5⟩ :=
    find_path_loop_spec (g1.heap.length + 1) g1 (queue_enqueue queue_empty src)
      (skeleton_closed hsk1 hc) hq hfuel
  have hsk2 : g2.skeleton = g.skeleton := k2.trans hsk1
  have hd2 : g2.live dest := (skeleton_live hsk2 dest).mpr hd
  have hsrc : g2.seenb src = true := k3 src (by rw [hs1 src]; simp)
  refine ⟨g2, ?_, hsk2, hsrc, ?_, ?_⟩
  · unfold find_path
    simp only [hg1, k1, is_seen_of_live hd2]
  · intro p hp
    apply k3
    rw [hs1 p, hp]
    simp
  · intro hu p
    constructor
    · intro hp
      rcases k4 p hp with h | ⟨x, hx, hxp⟩
      · rw [hs1 p, seenb_of_unseen hu p] at h
        by_cases hps : p = src
        · subst hps; exact Relation.ReflTransGen.refl
        · simp [hps] at h
      · have : x = src := by simpa [queue_enqueue, queue_empty] using hx
        subst this
        exact (skeleton_reachable hsk1 x p).mp hxp
    · intro hr
      have hclosure := k5 (by
        intro p hp hpq
        rw [hs1 p, seenb_of_unseen hu p] at hp
        by_cases hps : p = src
        · subst hps
          exact absurd (by simp [queue_enqueue, queue_empty]) hpq
        · simp [hps] at hp)
      induction hr with
      | refl => exact hsrc
      | tail _ hbc ih =>
        exact hclosure _ ih _ ((skeleton_nbrs hsk2 _).symm ▸ nbrs_iff.mpr hbc)

/-! ## Names -/

theorem strcmp_chars_eq_zero (a b : List Char) : strcmp_chars a b = 0 ↔ a = b := by
  induction a generalizing b with
  | nil => cases b <;> simp [strcmp_chars]
  | cons x xs ih =>
    cases b with
    | nil => simp [strcmp_chars]
    | cons y ys =>
      rw [strcmp_chars]
      by_cases hxy : x = y
      · simp [hxy, ih ys]
      · rw [if_neg hxy]
        have hne : x :: xs ≠ y :: ys := fun h => hxy (List.cons.inj h).1
        by_cases hlt : x.toNat < y.toNat
        · rw [if_pos hlt]
          exact ⟨fun h => absurd h (by decide), fun h => absurd h hne⟩
        · rw [if_neg hlt]
          exact ⟨fun h => absurd h (by decide), fun h => absurd h hne⟩

theorem strcmp_eq_zero (a b : String) : strcmp a b = 0 ↔ a = b := by
  unfold strcmp
  rw [strcmp_chars_eq_zero]
  constructor
  · intro h; exact String.ext h
  · intro h; rw [h]

theorem insert_node_scan_spec (g : graph) (s : String) (l : List Nat)
    (hl : ∀ p ∈ l, g.live p) :
    (insert_node_scan g s l = some true ∧ ∃ p ∈ l, ∃ nd, g.deref p = some nd ∧ nd.name = s)
    ∨ (insert_node_scan g s l = some false ∧
        ∀ p ∈ l, ∀ nd, g.deref p = some nd → nd.name ≠ s) := by
  induction l with
  | nil => right; simp [insert_node_scan]
  | cons p ahead ih =>
    obtain ⟨nd, hnd⟩ := live_iff.mp (hl p (List.mem_cons_self _ _))
    rw [insert_node_scan, hnd]
    by_cases hs : strcmp nd.name s = 0
    · left
      simp only [hs, if_true, true_and]
      exact ⟨p, List.mem_cons_self _ _, nd, hnd, (strcmp_eq_zero _ _).mp hs⟩
    · simp only [hs, if_false]
      rcases ih (fun q hq => hl q (List.mem_cons_of_mem _ hq)) with ⟨h1, q, hq, h2⟩ | ⟨h1, h2⟩
      · left
        exact ⟨h1, q, List.mem_cons_of_mem _ hq, h2⟩
      · right
        refine ⟨h1, ?_⟩
        intro q hq nd' hnd'
        rcases List.mem_cons.mp hq with hq | hq
        · subst hq
          rw [hnd] at hnd'
          have : nd = nd' := by simpa using hnd'
          subst this
          exact fun h => hs ((strcmp_eq_zero _ _).mpr h)
        · exact h2 q hq nd' hnd'

theorem find_node_scan_spec (g : graph) (s : String) (l : List Nat)
    (hl : ∀ p ∈ l, g.live p) :
    (∃ p ∈ l, ∃ nd, find_node_scan g s l = lookup.found p ∧ g.deref p = some nd ∧ nd.name = s)
    ∨ (find_node_scan g s l = lookup.not_found ∧
        ∀ p ∈ l, ∀ nd, g.deref p = some nd → nd.name ≠ s) := by
  induction l with
  | nil => right; simp [find_node_scan]
  | cons p ahead ih =>
    obtain ⟨nd, hnd⟩ := live_iff.mp (hl p (List.mem_cons_self _ _))
    rw [find_node_scan, hnd]
    by_cases hs : strcmp nd.name s = 0
    · left
      simp only [hs, if_true]
      exact ⟨p, List.mem_cons_self _ _, nd, rfl, hnd, (strcmp_eq_zero _ _).mp hs⟩
    · simp only [hs, if_false]
      rcases ih (fun q hq => hl q (List.mem_cons_of_mem _ hq)) with
        ⟨q, hq, nd', h1, h2⟩ | ⟨h1, h2⟩
      · left
        exact ⟨q, List.mem_cons_of_mem _ hq, nd', h1, h2⟩
      · right
        refine ⟨h1, ?_⟩
        intro q hq nd' hnd'
        rcases List.mem_cons.mp hq with hq | hq
        · subst hq
          rw [hnd] at hnd'
          have : nd = nd' := by simpa using hnd'
          subst this
          exact fun h => hs ((strcmp_eq_zero _ _).mpr h)
        · exact h2 q hq nd' hnd'

/-- The three ways through `graph_insert_node_out`. -/
theorem graph_insert_node_out_cases {g : graph} {s : String} {r : graph × List String}
    (h : graph_insert_node_out g s = some r) :
    (¬ g.nodecount < g.maxnodes ∧ r = (g, [warning_full]))
    ∨ (g.nodecount < g.maxnodes ∧ insert_node_scan g s g.nodes = some true
        ∧ r = (g, [warning_duplicate]))
    ∨ (g.nodecount < g.maxnodes ∧ insert_node_scan g s g.nodes = some false
        ∧ s.length < 41
        ∧ r = ({ g with
                 heap := g.heap ++ [some { name := s, seen := false, neighbours := [] }]
                 nodes := g.heap.length :: g.nodes
                 nodecount := g.nodecount + 1 }, [])) := by
  unfold graph_insert_node_out at h
  by_cases hc : g.nodecount < g.maxnodes
  · simp only [hc, if_true] at h
    cases hsc : insert_node_scan g s g.nodes with
    | none => rw [hsc] at h; simp at h
    | some b =>
      rw [hsc] at h
      cases b with
      | true =>
        right; left
        simp only [Option.some.injEq] at h
        exact ⟨hc, rfl, h.symm⟩
      | false =>
        right; right
        unfold strcpy at h
        by_cases hlen : s.length < 41
        · simp only [hlen, if_true, Option.some.injEq] at h
          exact ⟨hc, rfl, hlen, h.symm⟩
        · simp [hlen] at h
  · left
    simp only [hc, if_false, Option.some.injEq] at h
    exact ⟨hc, h.symm⟩

/-! ## Graphs made by the operations of graph4.c -/

theorem cell_push (h : List (Option node)) (c : node) (p : Nat) :
    (h ++ [some c]).getD p none = if p = h.length then some c else h.getD p none := by
  by_cases hp : p = h.length
  · subst hp
    rw [if_pos rfl]
    exact cell_append_self h (some c)
  · rw [if_neg hp]
    by_cases hlt : p < h.length
    · exact cell_append_left h [some c] hlt
    · have h1 : h.length + 1 ≤ p := by omega
      simp [List.getD_eq_getElem?_getD, List.getElem?_eq_none, h1, not_lt.mp hlt]

theorem cell_set (h : List (Option node)) (n p : Nat) (c : Option node) (hn : n < h.length) :
    (h.set n c).getD p none = if p = n then c else h.getD p none := by
  by_cases hp : p = n
  · subst hp
    rw [if_pos rfl]
    exact cell_set_self h p c hn
  · rw [if_neg hp]
    exact cell_set_ne h c hp

theorem wf_empty (max_nodes fresh_edgecount : Int) : (graph_empty max_nodes fresh_edgecount).wf where
  nodes_live := by simp [graph_empty]
  live_nodes := by simp [graph_empty, graph.live, graph.deref]
  nodes_nodup := by simp [graph_empty]
  closed := by simp [graph_empty, graph.closed]
  nbrs_nodup := by simp [graph_empty, graph.deref]
  unseen := by simp [graph_empty, graph.unseen]
  names := by simp [graph_empty, graph.deref]
  count := by simp [graph_empty]

/-- Pushing a fresh cell with no neighbours and a new name keeps the invariant. -/
theorem wf_push {g : graph} {s : String} (hw : g.wf)
    (hs : ∀ p ∈ g.nodes, ∀ nd, g.deref p = some nd → nd.name ≠ s) :
    graph.wf { g with
      heap := g.heap ++ [some { name := s, seen := false, neighbours := [] }]
      nodes := g.heap.length :: g.nodes
      nodecount := g.nodecount + 1 } := by
  have hd : ∀ p, graph.deref { g with
      heap := g.heap ++ [some { name := s, seen := false, neighbours := [] }]
      nodes := g.heap.length :: g.nodes
      nodecount := g.nodecount + 1 } p
      = if p = g.heap.length then some { name := s, seen := false, neighbours := [] }
        else g.deref p := fun p => cell_push g.heap _ p
  have hold : ∀ p nd, g.deref p = some nd → p ≠ g.heap.length := by
    intro p nd hp
    exact Nat.ne_of_lt (deref_lt hp)
  have hlive : ∀ p, g.live p → graph.live { g with
      heap := g.heap ++ [some { name := s, seen := false, neighbours := [] }]
      nodes := g.heap.length :: g.nodes
      nodecount := g.nodecount + 1 } p := by
    intro p hp
    obtain ⟨nd, hnd⟩ := live_iff.mp hp
    exact live_iff.mpr ⟨nd, by rw [hd p, if_neg (hold p nd hnd)]; exact hnd⟩
  constructor
  · intro p hp
    rcases List.mem_cons.mp hp with hp | hp
    · exact live_iff.mpr ⟨_, by rw [hd p, if_pos hp]⟩
    · exact hlive p (hw.nodes_live p hp)
  · intro p hp
    obtain ⟨nd, hnd⟩ := live_iff.mp hp
    rw [hd p] at hnd
    by_cases hpl : p = g.heap.length
    · exact List.mem_cons.mpr (Or.inl hpl)
    · rw [if_neg hpl] at hnd
      exact List.mem_cons_of_mem _ (hw.live_nodes p (live_iff.mpr ⟨nd, hnd⟩))
  · refine List.nodup_cons.mpr ⟨?_, hw.nodes_nodup⟩
    intro hmem
    obtain ⟨nd, hnd⟩ := live_iff.mp (hw.nodes_live _ hmem)
    exact hold _ nd hnd rfl
  · rw [closed_iff]
    intro p nd hp m hm
    rw [hd p] at hp
    by_cases hpl : p = g.heap.length
    · rw [if_pos hpl] at hp
      have : nd = { name := s, seen := false, neighbours := [] } := by
        simpa using hp.symm
      subst this
      simp at hm
    · rw [if_neg hpl] at hp
      exact hlive m (closed_iff.mp hw.closed p nd hp m hm)
  · intro p nd hp
    rw [hd p] at hp
    by_cases hpl : p = g.heap.length
    · rw [if_pos hpl] at hp
      have : nd = { name := s, seen := false, neighbours := [] } := by
        simpa using hp.symm
      subst this
      simp
    · rw [if_neg hpl] at hp
      exact hw.nbrs_nodup p nd hp
  · rw [unseen_iff]
    intro p nd hp
    rw [hd p] at hp
    by_cases hpl : p = g.heap.length
    · rw [if_pos hpl] at hp
      have : nd = { name := s, seen := false, neighbours := [] } := by
        simpa using hp.symm
      subst this
      rfl
    · rw [if_neg hpl] at hp
      exact unseen_iff.mp hw.unseen p nd hp
  · intro p q a b hp hq hab
    rw [hd p] at hp
    rw [hd q] at hq
    by_cases hpl : p = g.heap.length <;> by_cases hql : q = g.heap.length
    · rw [hpl, hql]
    · exfalso
      rw [if_pos hpl] at hp
      rw [if_neg hql] at hq
      have ha : a = { name := s, seen := false, neighbours := [] } := by
        simpa using hp.symm
      subst ha
      exact hs q (hw.live_nodes q (live_iff.mpr ⟨b, hq⟩)) b hq hab.symm
    · exfalso
      rw [if_neg hpl] at hp
      rw [if_pos hql] at hq
      have hb : b = { name := s, seen := false, neighbours := [] } := by
        simpa using hq.symm
      subst hb
      exact hs p (hw.live_nodes p (live_iff.mpr ⟨a, hp⟩)) a hp hab
    · rw [if_neg hpl] at hp
      rw [if_neg hql] at hq
      exact hw.names p q a b hp hq hab
  · have := hw.count
    simp only [List.length_cons, Nat.cast_add, Nat.cast_one]
    omega

theorem graph_insert_node_eq {g g' : graph} {s : String}
    (h : graph_insert_node g s = some g') :
    ∃ out, graph_insert_node_out g s = some (g', out) := by
  unfold graph_insert_node at h
  cases hr : graph_insert_node_out g s with
  | none => rw [hr] at h; simp at h
  | some r =>
    rw [hr] at h
    simp only [Option.map_some', Option.some.injEq] at h
    exact ⟨r.2, by rw [← h]⟩

theorem wf_insert_node {g g' : graph} {s : String} (hw : g.wf)
    (h : graph_insert_node g s = some g') : g'.wf := by
  obtain ⟨out, ho⟩ := graph_insert_node_eq h
  rcases graph_insert_node_out_cases ho with ⟨_, hr⟩ | ⟨_, _, hr⟩ | ⟨_, hsc, _, hr⟩
  · rw [(Prod.mk.inj hr).1]; exact hw
  · rw [(Prod.mk.inj hr).1]; exact hw
  · rw [(Prod.mk.inj hr).1]
    apply wf_push hw
    rcases insert_node_scan_spec g s g.nodes hw.nodes_live with ⟨h1, _⟩ | ⟨_, h2⟩
    · rw [h1] at hsc; simp at hsc
    · exact h2

/-- Writing a new neighbour list into one cell keeps the invariant when the list has no
entry twice and only allocated entries. -/
theorem wf_update {g : graph} {n1 : Nat} {nd1 : node} {l : List Nat} (e : Int) (hw : g.wf)
    (h1 : g.deref n1 = some nd1) (hl : l.Nodup) (hm : ∀ m ∈ l, g.live m) :
    graph.wf { g with
      heap := g.heap.set n1 (some { nd1 with neighbours := l })
      edgecount := e } := by
  have hd : ∀ p, graph.deref { g with
      heap := g.heap.set n1 (some { nd1 with neighbours := l })
      edgecount := e } p
      = if p = n1 then some { nd1 with neighbours := l } else g.deref p :=
    fun p => cell_set g.heap n1 p _ (deref_lt h1)
  have hlive : ∀ p, graph.live { g with
      heap := g.heap.set n1 (some { nd1 with neighbours := l })
      edgecount := e } p ↔ g.live p := by
    intro p
    rw [live_iff, live_iff, hd p]
    by_cases hp : p = n1
    · subst hp
      simp [h1]
    · simp [hp]
  constructor
  · intro p hp
    exact (hlive p).mpr (hw.nodes_live p hp)
  · intro p hp
    exact hw.live_nodes p ((hlive p).mp hp)
  · exact hw.nodes_nodup
  · rw [closed_iff]
    intro p nd hp m hmem
    rw [hd p] at hp
    refine (hlive m).mpr ?_
    by_cases hpn : p = n1
    · rw [if_pos hpn] at hp
      have : nd = { nd1 with neighbours := l } := by simpa using hp.symm
      subst this
      exact hm m hmem
    · rw [if_neg hpn] at hp
      exact closed_iff.mp hw.closed p nd hp m hmem
  · intro p nd hp
    rw [hd p] at hp
    by_cases hpn : p = n1
    · rw [if_pos hpn] at hp
      have : nd = { nd1 with neighbours := l } := by simpa using hp.symm
      subst this
      exact hl
    · rw [if_neg hpn] at hp
      exact hw.nbrs_nodup p nd hp
  · rw [unseen_iff]
    intro p nd hp
    rw [hd p] at hp
    by_cases hpn : p = n1
    · rw [if_pos hpn] at hp
      have : nd = { nd1 with neighbours := l } := by simpa using hp.symm
      subst this
      exact unseen_iff.mp hw.unseen n1 nd1 h1
    · rw [if_neg hpn] at hp
      exact unseen_iff.mp hw.unseen p nd hp
  · intro p q a b hp hq hab
    rw [hd p] at hp
    rw [hd q] at hq
    by_cases hpn : p = n1 <;> by_cases hqn : q = n1
    · rw [hpn, hqn]
    · rw [if_pos hpn] at hp
      rw [if_neg hqn] at hq
      have ha : a = { nd1 with neighbours := l } := by simpa using hp.symm
      subst ha
      rw [hpn]
      exact hw.names n1 q nd1 b h1 hq hab
    · rw [if_neg hpn] at hp
      rw [if_pos hqn] at hq
      have hb : b = { nd1 with neighbours := l } := by simpa using hq.symm
      subst hb
      rw [hqn]
      exact hw.names p n1 a nd1 hp h1 hab
    · rw [if_neg hpn] at hp
      rw [if_neg hqn] at hq
      exact hw.names p q a b hp hq hab
  · exact hw.count

/-! ### `graph_insert_edge` -/

theorem insert_edge_scan_true {g : graph} {n2 : Nat} {l : List Nat}
    (h : insert_edge_scan g n2 l = some true) : n2 ∈ l := by
  induction l with
  | nil => simp [insert_edge_scan] at h
  | cons n ahead ih =>
    rw [insert_edge_scan] at h
    by_cases hn : n = n2
    · exact List.mem_cons.mpr (Or.inl hn.symm)
    · simp only [nodes_are_equal, hn, decide_False] at h
      cases hd : g.deref n with
      | none => rw [hd] at h; simp at h
      | some nd =>
        rw [hd] at h
        exact List.mem_cons_of_mem _ (ih h)

theorem insert_edge_scan_false {g : graph} {n2 : Nat} {l : List Nat}
    (h : insert_edge_scan g n2 l = some false) : n2 ∉ l := by
  induction l with
  | nil => simp
  | cons n ahead ih =>
    rw [insert_edge_scan] at h
    by_cases hn : n = n2
    · simp [nodes_are_equal, hn] at h
    · simp only [nodes_are_equal, hn, decide_False] at h
      cases hd : g.deref n with
      | none => rw [hd] at h; simp at h
      | some nd =>
        rw [hd] at h
        intro hmem
        rcases List.mem_cons.mp hmem with hm | hm
        · exact hn hm.symm
        · exact ih h hm

theorem insert_edge_scan_total (g : graph) (n2 : Nat) (l : List Nat)
    (hl : ∀ m ∈ l, g.live m) : insert_edge_scan g n2 l = some (decide (n2 ∈ l)) := by
  induction l with
  | nil => simp [insert_edge_scan]
  | cons n ahead ih =>
    rw [insert_edge_scan]
    by_cases hn : n = n2
    · simp [nodes_are_equal, hn]
    · obtain ⟨nd, hnd⟩ := live_iff.mp (hl n (List.mem_cons_self _ _))
      have hn' : ¬ n2 = n := fun h => hn h.symm
      simp only [nodes_are_equal, hn, decide_False, hnd, List.mem_cons, hn', false_or]
      exact ih (fun m hm => hl m (List.mem_cons_of_mem _ hm))

/-- The two ways through `graph_insert_edge` when it returns. -/
theorem graph_insert_edge_cases {g g' : graph} {n1 n2 : Nat}
    (h : graph_insert_edge g n1 n2 = some g') :
    ∃ nd1, g.deref n1 = some nd1 ∧
      ((n2 ∈ nd1.neighbours ∧ g' = g) ∨
       (n2 ∉ nd1.neighbours ∧
        g' = { g with
               heap := g.heap.set n1 (some { nd1 with neighbours := n2 :: nd1.neighbours })
               edgecount := int_wrap (g.edgecount + 1) })) := by
  unfold graph_insert_edge at h
  cases hd : g.deref n1 with
  | none => rw [hd] at h; simp at h
  | some nd1 =>
    rw [hd] at h
    dsimp only at h
    refine ⟨nd1, rfl, ?_⟩
    cases hsc : insert_edge_scan g n2 nd1.neighbours with
    | none => rw [hsc] at h; simp at h
    | some b =>
      rw [hsc] at h
      cases b with
      | true =>
        left
        simp only [Option.some.injEq] at h
        exact ⟨insert_edge_scan_true hsc, h.symm⟩
      | false =>
        right
        simp only [Option.some.injEq] at h
        exact ⟨insert_edge_scan_false hsc, h.symm⟩

theorem wf_insert_edge {g g' : graph} {n1 n2 : Nat} (hw : g.wf) (h2 : n2 ∈ g.nodes)
    (h : graph_insert_edge g n1 n2 = some g') : g'.wf := by
  obtain ⟨nd1, hd, ⟨_, hg⟩ | ⟨hn, hg⟩⟩ := graph_insert_edge_cases h
  · rw [hg]; exact hw
  · rw [hg]
    apply wf_update _ hw hd
    · exact List.nodup_cons.mpr ⟨hn, hw.nbrs_nodup n1 nd1 hd⟩
    · intro m hm
      rcases List.mem_cons.mp hm with hm | hm
      · rw [hm]; exact hw.nodes_live n2 h2
      · exact closed_iff.mp hw.closed n1 nd1 hd m hm

/-! ### `graph_delete_edge` -/

theorem erase_ne_cons {n n2 : Nat} (h : ¬ n = n2) (tl : List Nat) :
    (n :: tl).erase n2 = n :: tl.erase n2 := by
  rw [List.erase_cons_tail]
  simpa using h

/-- Without a match the loop of `graph_delete_edge` walks to the end and changes nothing. -/
theorem delete_edge_loop_absent (n2 : Nat) : ∀ (ahead passed : List Nat) (ec : Int),
    n2 ∉ ahead → delete_edge_loop n2 passed ahead ec = some (passed ++ ahead, ec) := by
  intro ahead
  induction ahead with
  | nil => intro passed ec _; simp [delete_edge_loop]
  | cons n tl ih =>
    intro passed ec hn
    have hne : ¬ n = n2 := fun h => hn (List.mem_cons.mpr (Or.inl h.symm))
    cases tl with
    | nil => simp [delete_edge_loop, nodes_are_equal, hne]
    | cons m rest =>
      rw [delete_edge_loop]
      simp only [nodes_are_equal, hne, decide_False]
      rw [ih (passed ++ [n]) ec (fun h => hn (List.mem_cons_of_mem _ h))]
      simp

/-- The loop of `graph_delete_edge` on a list without repeated entries: it breaks off when
`n2` is the last entry, and otherwise takes `n2` out and counts it. -/
theorem delete_edge_loop_nodup (n2 : Nat) : ∀ (ahead passed : List Nat) (ec : Int),
    ahead.Nodup →
    delete_edge_loop n2 passed ahead ec
      = if ahead.getLast? = some n2 then none
        else some (passed ++ ahead.erase n2,
          if n2 ∈ ahead then int_wrap (ec - 1) else ec) := by
  intro ahead
  induction ahead with
  | nil => intro passed ec _; simp [delete_edge_loop]
  | cons n tl ih =>
    intro passed ec hnd
    cases tl with
    | nil =>
      by_cases hne : n = n2
      · subst hne; simp [delete_edge_loop, nodes_are_equal]
      · have hne' : ¬ n2 = n := fun h => hne h.symm
        simp [delete_edge_loop, nodes_are_equal, hne, hne', erase_ne_cons hne]
    | cons m rest =>
      rw [delete_edge_loop, List.getLast?_cons_cons]
      by_cases hne : n = n2
      · subst hne
        have hnot : n ∉ m :: rest := (List.nodup_cons.mp hnd).1
        have hrest : n ∉ rest := fun h => hnot (List.mem_cons_of_mem _ h)
        have hlast : ¬ (m :: rest).getLast? = some n :=
          fun h => hnot (List.mem_of_getLast?_eq_some h)
        simp only [nodes_are_equal, decide_True, if_true, if_neg hlast,
          List.erase_cons_head, List.mem_cons, true_or]
        rw [delete_edge_loop_absent n rest (passed ++ [m]) (int_wrap (ec - 1)) hrest]
        simp
      · have hne' : ¬ n2 = n := fun h => hne h.symm
        simp only [nodes_are_equal, hne, decide_False]
        rw [ih (passed ++ [n]) ec (List.nodup_cons.mp hnd).2, erase_ne_cons hne]
        have hmem : n2 ∈ n :: m :: rest ↔ n2 ∈ m :: rest := by
          simp [hne']
        simp only [hmem, List.append_assoc, List.singleton_append, Bool.false_eq_true,
          if_false]

/-- The function `graph_delete_edge` on a cell whose neighbour list has no repeated entry. -/
theorem graph_delete_edge_eq {g : graph} {n1 : Nat} {nd1 : node} (n2 : Nat)
    (hd : g.deref n1 = some nd1) (hn : nd1.neighbours.Nodup) :
    graph_delete_edge g n1 n2
      = if nd1.neighbours.getLast? = some n2 then none
        else some { g with
          heap := g.heap.set n1 (some { nd1 with neighbours := nd1.neighbours.erase n2 })
          edgecount :=
            if n2 ∈ nd1.neighbours then int_wrap (g.edgecount - 1) else g.edgecount } := by
  unfold graph_delete_edge
  rw [hd]
  dsimp only
  rw [delete_edge_loop_nodup n2 nd1.neighbours [] g.edgecount hn]
  by_cases hl : nd1.neighbours.getLast? = some n2
  · simp [hl]
  · simp [hl]

theorem wf_delete_edge {g g' : graph} {n1 n2 : Nat} (hw : g.wf)
    (h : graph_delete_edge g n1 n2 = some g') : g'.wf := by
  cases hd : g.deref n1 with
  | none => simp [graph_delete_edge, hd] at h
  | some nd1 =>
    have hn := hw.nbrs_nodup n1 nd1 hd
    rw [graph_delete_edge_eq n2 hd hn] at h
    by_cases hl : nd1.neighbours.getLast? = some n2
    · simp [hl] at h
    · simp only [hl, if_false, Option.some.injEq] at h
      rw [← h]
      apply wf_update _ hw hd (hn.erase n2)
      intro m hm
      exact closed_iff.mp hw.closed n1 nd1 hd m (List.mem_of_mem_erase hm)

/-! ### `graph_delete_node` -/

/-- Without a match the second loop of `graph_delete_node` changes nothing. -/
theorem delete_node_loop_absent (n : Nat) : ∀ (ahead : List Nat) (g : graph)
    (passed : List Nat), n ∉ ahead →
    delete_node_loop n g passed ahead = some { g with nodes := passed ++ ahead } := by
  intro ahead
  induction ahead with
  | nil => intro g passed _; simp [delete_node_loop]
  | cons ni tl ih =>
    intro g passed hn
    have hne : ¬ ni = n := fun h => hn (List.mem_cons.mpr (Or.inl h.symm))
    cases tl with
    | nil => simp [delete_node_loop, nodes_are_equal, hne]
    | cons m rest =>
      rw [delete_node_loop]
      simp only [nodes_are_equal, hne, decide_False, Bool.false_eq_true, if_false]
      rw [ih g (passed ++ [ni]) (fun h => hn (List.mem_cons_of_mem _ h))]
      simp

/-- The second loop of `graph_delete_node` on a list without repeated entries that holds
the allocated cell `n`: it breaks off when `n` is the last entry, and otherwise unlinks
`n`, frees the cell and lowers `nodecount`. -/
theorem delete_node_loop_nodup (n : Nat) : ∀ (ahead : List Nat) (g : graph)
    (passed : List Nat), ahead.Nodup → n ∈ ahead → g.live n →
    delete_node_loop n g passed ahead
      = if ahead.getLast? = some n then none
        else some { g with
          heap := g.heap.set n none
          nodecount := g.nodecount - 1
          nodes := passed ++ ahead.erase n } := by
  intro ahead
  induction ahead with
  | nil => intro g passed _ hn _; simp at hn
  | cons ni tl ih =>
    intro g passed hnd hn hlive
    obtain ⟨nd, hcell⟩ := live_iff.mp hlive
    cases tl with
    | nil =>
      have : n = ni := by simpa using hn
      subst this
      simp [delete_node_loop, nodes_are_equal]
    | cons m rest =>
      rw [delete_node_loop, List.getLast?_cons_cons]
      by_cases hne : ni = n
      · subst hne
        have hnot : ni ∉ m :: rest := (List.nodup_cons.mp hnd).1
        have hrest : ni ∉ rest := fun h => hnot (List.mem_cons_of_mem _ h)
        have hlast : ¬ (m :: rest).getLast? = some ni :=
          fun h => hnot (List.mem_of_getLast?_eq_some h)
        simp only [nodes_are_equal, decide_True, if_true, if_neg hlast, hcell,
          List.erase_cons_head]
        rw [delete_node_loop_absent ni rest _ (passed ++ [m]) hrest]
        simp
      · have hn2 : n ∈ m :: rest := by
          rcases List.mem_cons.mp hn with h | h
          · exact absurd h.symm hne
          · exact h
        simp only [nodes_are_equal, hne, decide_False, Bool.false_eq_true, if_false]
        rw [ih g (passed ++ [ni]) (List.nodup_cons.mp hnd).2 hn2 hlive, erase_ne_cons hne]
        simp only [List.append_assoc, List.singleton_append]

theorem erase_erase_nodup {l : List Nat} (n : Nat) (h : l.Nodup) :
    (l.erase n).erase n = l.erase n :=
  List.erase_of_not_mem h.not_mem_erase

/-- The first loop of `graph_delete_node` on a graph made by the operations: when it
returns, `n` has been taken out of the neighbour list of every entry it went over, and
nothing else in the cells has changed. -/
theorem delete_node_edges_spec (n : Nat) : ∀ (ahead : List Nat) (g g' : graph),
    g.wf → (∀ ni ∈ ahead, ni ∈ g.nodes) → delete_node_edges n g ahead = some g' →
    g'.wf ∧ g'.nodes = g.nodes ∧ g'.nodecount = g.nodecount ∧ g'.maxnodes = g.maxnodes ∧
      g'.heap.length = g.heap.length ∧
      ∀ p, g'.deref p = (g.deref p).map (fun nd =>
        if p ∈ ahead then { nd with neighbours := nd.neighbours.erase n } else nd) := by
  intro ahead
  induction ahead with
  | nil =>
    intro g g' hw _ h
    simp only [delete_node_edges, Option.some.injEq] at h
    subst h
    refine ⟨hw, rfl, rfl, rfl, rfl, ?_⟩
    intro p
    simp
  | cons ni rest ih =>
    intro g g' hw hin h
    obtain ⟨ndi, hcell⟩ := live_iff.mp (hw.nodes_live ni (hin ni (List.mem_cons_self _ _)))
    have hno := hw.nbrs_nodup ni ndi hcell
    rw [delete_node_edges] at h
    cases h1 : graph_delete_edge g ni n with
    | none => rw [h1] at h; simp at h
    | some g1 =>
      rw [h1] at h
      dsimp only at h
      have hw1 := wf_delete_edge hw h1
      rw [graph_delete_edge_eq n hcell hno] at h1
      by_cases hl : ndi.neighbours.getLast? = some n
      · simp [hl] at h1
      · simp only [hl, if_false, Option.some.injEq] at h1
        have hnodes : g1.nodes = g.nodes := by rw [← h1]
        have hd1 : ∀ p, g1.deref p
            = if p = ni then some { ndi with neighbours := ndi.neighbours.erase n }
              else g.deref p := by
          intro p
          rw [← h1]
          exact cell_set g.heap ni p _ (deref_lt hcell)
        obtain ⟨k1, k2, k3, k4, k5, k6⟩ := ih g1 g' hw1
          (fun x hx => hnodes ▸ hin x (List.mem_cons_of_mem _ hx)) h
        refine ⟨k1, k2.trans hnodes, ?_, ?_, ?_, ?_⟩
        · rw [k3, ← h1]
        · rw [k4, ← h1]
        · rw [k5, ← h1]; simp
        · intro p
          rw [k6 p, hd1 p]
          by_cases hp : p = ni
          · subst hp
            rw [hcell]
            by_cases hpr : p ∈ rest
            · simp [hpr, erase_erase_nodup n hno]
            · simp [hpr]
          · have hmem : p ∈ ni :: rest ↔ p ∈ rest := by simp [hp]
            simp only [if_neg hp, hmem]

/-- The function `graph_delete_node` on a node of a graph made by the operations: when it
returns, the entry `n` is gone from `g->nodes` and from every neighbour list, the cell `n`
is freed and `nodecount` is one less. -/
theorem graph_delete_node_spec {g g' : graph} {n : Nat} (hw : g.wf) (hn : n ∈ g.nodes)
    (h : graph_delete_node g n = some g') :
    g'.nodes = g.nodes.erase n ∧ g'.nodecount = g.nodecount - 1 ∧
      g'.maxnodes = g.maxnodes ∧
      ∀ p, g'.deref p = if p = n then none
        else (g.deref p).map (fun nd => { nd with neighbours := nd.neighbours.erase n }) := by
  unfold graph_delete_node at h
  cases h1 : delete_node_edges n g g.nodes with
  | none => rw [h1] at h; simp at h
  | some g1 =>
    rw [h1] at h
    dsimp only at h
    obtain ⟨k1, k2, k3, k4, k5, k6⟩ := delete_node_edges_spec n g.nodes g g1 hw (fun _ h => h) h1
    have hn1 : n ∈ g1.nodes := k2 ▸ hn
    have hlive1 := k1.nodes_live n hn1
    rw [delete_node_loop_nodup n g1.nodes g1 [] k1.nodes_nodup hn1 hlive1] at h
    by_cases hl : g1.nodes.getLast? = some n
    · simp [hl] at h
    · simp only [hl, if_false, Option.some.injEq, List.nil_append] at h
      subst h
      refine ⟨by rw [k2], by rw [k3], k4, ?_⟩
      intro p
      have hlt : n < g1.heap.length := by
        obtain ⟨nd, hnd⟩ := live_iff.mp hlive1
        exact deref_lt hnd
      have := cell_set g1.heap n p none hlt
      unfold graph.deref at k6 ⊢
      rw [this]
      by_cases hp : p = n
      · simp [hp]
      · rw [if_neg hp, if_neg hp, k6 p]
        cases hc : g.heap.getD p none with
        | none => rfl
        | some nd =>
          have hpin : p ∈ g.nodes := hw.live_nodes p (live_iff.mpr ⟨nd, hc⟩)
          simp [hpin]

theorem wf_delete_node {g g' : graph} {n : Nat} (hw : g.wf) (hn : n ∈ g.nodes)
    (h : graph_delete_node g n = some g') : g'.wf := by
  obtain ⟨k1, k2, _, k4⟩ := graph_delete_node_spec hw hn h
  have hcell : ∀ p nd', g'.deref p = some nd' →
      p ≠ n ∧ ∃ nd, g.deref p = some nd ∧
        nd' = { nd with neighbours := nd.neighbours.erase n } := by
    intro p nd' hp
    rw [k4 p] at hp
    by_cases hpn : p = n
    · simp [hpn] at hp
    · rw [if_neg hpn] at hp
      cases hc : g.deref p with
      | none => rw [hc] at hp; simp at hp
      | some nd =>
        rw [hc] at hp
        exact ⟨hpn, nd, rfl, by simpa using hp.symm⟩
  have hlive : ∀ p, g'.live p ↔ p ≠ n ∧ g.live p := by
    intro p
    rw [live_iff, live_iff]
    constructor
    · rintro ⟨nd', hp⟩
      obtain ⟨h1, nd, h2, _⟩ := hcell p nd' hp
      exact ⟨h1, nd, h2⟩
    · rintro ⟨h1, nd, h2⟩
      exact ⟨_, by rw [k4 p, if_neg h1, h2]; rfl⟩
  constructor
  · intro p hp
    rw [k1] at hp
    have := (hw.nodes_nodup.mem_erase_iff).mp hp
    exact (hlive p).mpr ⟨this.1, hw.nodes_live p this.2⟩
  · intro p hp
    obtain ⟨h1, h2⟩ := (hlive p).mp hp
    rw [k1]
    exact (hw.nodes_nodup.mem_erase_iff).mpr ⟨h1, hw.live_nodes p h2⟩
  · rw [k1]; exact hw.nodes_nodup.erase n
  · rw [closed_iff]
    intro p nd' hp m hm
    obtain ⟨_, nd, h2, h3⟩ := hcell p nd' hp
    subst h3
    have hno := hw.nbrs_nodup p nd h2
    have hm2 := (hno.mem_erase_iff).mp hm
    exact (hlive m).mpr ⟨hm2.1, closed_iff.mp hw.closed p nd h2 m hm2.2⟩
  · intro p nd' hp
    obtain ⟨_, nd, h2, h3⟩ := hcell p nd' hp
    subst h3
    exact (hw.nbrs_nodup p nd h2).erase n
  · rw [unseen_iff]
    intro p nd' hp
    obtain ⟨_, nd, h2, h3⟩ := hcell p nd' hp
    subst h3
    exact unseen_iff.mp hw.unseen p nd h2
  · intro p q a b hp hq hab
    obtain ⟨_, nda, ha2, ha3⟩ := hcell p a hp
    obtain ⟨_, ndb, hb2, hb3⟩ := hcell q b hq
    subst ha3 hb3
    exact hw.names p q nda ndb ha2 hb2 hab
  · rw [k1, List.length_erase_of_mem hn]
    have hc := hw.count
    have hpos : 0 < g.nodes.length := List.length_pos_of_mem hn
    rw [k2, hc]
    omega

/-- Every graph made by the operations satisfies the invariant. -/
theorem built_wf {g : graph} (h : built g) : g.wf := by
  induction h with
  | empty max_nodes fresh_edgecount => exact wf_empty max_nodes fresh_edgecount
  | insert_node s _ h ih => exact wf_insert_node ih h
  | insert_edge n1 n2 _ _ h2 h ih => exact wf_insert_edge ih h2 h
  | delete_edge n1 n2 _ _ _ h ih => exact wf_delete_edge ih h
  | delete_node n _ hn h ih => exact wf_delete_node ih hn h

/-! ## Lemmas for the claims -/

theorem two_nodes_built : built two_nodes_graph := by
  have h1 : built { heap := [some { name := "A", seen := false, neighbours := [] }],
                    nodes := [0], edgecount := 0, nodecount := 1, maxnodes := 2 } :=
    built.insert_node "A" (built.empty 2 0) (by decide)
  exact built.insert_node "B" h1 (by decide)

theorem one_way_built : built one_way_graph :=
  built.insert_edge 0 1 two_nodes_built (by decide) (by decide) (by decide)

theorem same_component_iff_reachable {g : graph}
    (hsym : ∀ x y, neighbour_of g x y → neighbour_of g y x) (a b : Nat) :
    same_component g a b ↔ reachable g a b := by
  unfold same_component reachable
  constructor
  · intro h
    refine Relation.ReflTransGen.mono ?_ h
    intro x y hxy
    rcases hxy with hxy | hxy
    · exact hxy
    · exact hsym y x hxy
  · intro h
    exact Relation.ReflTransGen.mono (fun x y hxy => Or.inl hxy) h

/-- The graph that `main` builds, whatever `edgecount` started from. -/
theorem main_graph_eq (fresh_edgecount : Int) :
    main_graph fresh_edgecount = some
      { heap := [some { name := "UME", seen := false, neighbours := [1] },
                 some { name := "BMA", seen := false, neighbours := [3, 2, 0] },
                 some { name := "MMX", seen := false, neighbours := [1] },
                 some { name := "GOT", seen := false, neighbours := [1] },
                 some { name := "PJA", seen := false, neighbours := [5] },
                 some { name := "LLA", seen := false, neighbours := [4] }],
        nodes := [5, 4, 3, 2, 1, 0],
        edgecount := int_wrap (int_wrap (int_wrap (int_wrap (int_wrap (int_wrap (int_wrap
          (int_wrap (fresh_edgecount + 1) + 1) + 1) + 1) + 1) + 1) + 1) + 1),
        nodecount := 6, maxnodes := 8 } := by
  rfl

theorem graph_insert_node_total {g : graph} {s : String} (hn : ∀ p ∈ g.nodes, g.live p)
    (hlen : s.length ≤ 40) : ∃ r, graph_insert_node_out g s = some r := by
  unfold graph_insert_node_out
  by_cases hc : g.nodecount < g.maxnodes
  · rw [if_pos hc]
    rcases insert_node_scan_spec g s g.nodes hn with ⟨h1, _⟩ | ⟨h1, _⟩
    · rw [h1]; exact ⟨_, rfl⟩
    · rw [h1]
      have : s.length < 41 := by omega
      simp only [strcpy, this, if_true]
      exact ⟨_, rfl⟩
  · rw [if_neg hc]; exact ⟨_, rfl⟩

theorem insert_nodes_built (names : List String) : ∀ (g g' : graph), built g →
    insert_nodes g names = some g' → built g' := by
  induction names with
  | nil =>
    intro g g' hb h
    simp only [insert_nodes, Option.some.injEq] at h
    exact h ▸ hb
  | cons s rest ih =>
    intro g g' hb h
    rw [insert_nodes] at h
    cases h1 : graph_insert_node g s with
    | none => rw [h1] at h; simp at h
    | some g1 =>
      rw [h1] at h
      exact ih g1 g' (built.insert_node s hb h1) h

theorem insert_nodes_total (names : List String) : ∀ (g : graph), built g →
    (∀ s ∈ names, s.length ≤ 40) → ∃ g', insert_nodes g names = some g' := by
  induction names with
  | nil => intro g _ _; exact ⟨g, rfl⟩
  | cons s rest ih =>
    intro g hb hlen
    obtain ⟨r, hr⟩ := graph_insert_node_total (built_wf hb).nodes_live
      (hlen s (List.mem_cons_self _ _))
    have h1 : graph_insert_node g s = some r.1 := by
      unfold graph_insert_node; rw [hr]; rfl
    obtain ⟨g', h2⟩ := ih r.1 (built.insert_node s hb h1)
      (fun t ht => hlen t (List.mem_cons_of_mem _ ht))
    refine ⟨g', ?_⟩
    rw [insert_nodes, h1]
    exact h2

theorem filterMap_length_live (g : graph) (l : List Nat) (hl : ∀ p ∈ l, g.live p) :
    (l.filterMap fun p => (g.deref p).map node.name).length = l.length := by
  induction l with
  | nil => rfl
  | cons p rest ih =>
    obtain ⟨nd, hnd⟩ := live_iff.mp (hl p (List.mem_cons_self _ _))
    rw [List.filterMap_cons, hnd]
    simp only [Option.map_some', List.length_cons]
    rw [ih (fun q hq => hl q (List.mem_cons_of_mem _ hq))]

theorem node_names_nodup {g : graph} (hw : g.wf) :
    (node_names g).length = g.nodes.length ∧ (node_names g).Nodup := by
  refine ⟨filterMap_length_live g g.nodes hw.nodes_live, ?_⟩
  unfold node_names
  refine List.Nodup.filterMap ?_ hw.nodes_nodup
  intro p q b hp hq
  cases hcp : g.deref p with
  | none => rw [hcp] at hp; simp at hp
  | some a =>
    cases hcq : g.deref q with
    | none => rw [hcq] at hq; simp at hq
    | some c =>
      rw [hcp] at hp
      rw [hcq] at hq
      have h1 : a.name = b := by simpa using hp
      have h2 : c.name = b := by simpa using hq
      exact hw.names p q a c hcp hcq (h1.trans h2.symm)

/-- The loop of `graph_reset_seen` over allocated entries returns; it clears the flag of
every entry it goes over and touches nothing else. -/
theorem reset_seen_loop_spec (l : List Nat) : ∀ (g : graph), (∀ p ∈ l, g.live p) →
    ∃ g', reset_seen_loop g l = some g' ∧ g'.skeleton = g.skeleton ∧
      ∀ p, g'.seenb p = if p ∈ l then false else g.seenb p := by
  induction l with
  | nil =>
    intro g _
    exact ⟨g, rfl, rfl, by simp⟩
  | cons entry ahead ih =>
    intro g hl
    obtain ⟨g1, hg1⟩ := set_seen_some false (hl entry (List.mem_cons_self _ _))
    have hsk := set_seen_skeleton hg1
    obtain ⟨g', h1, h2, h3⟩ := ih g1
      (fun m hm => (skeleton_live hsk m).mpr (hl m (List.mem_cons_of_mem _ hm)))
    refine ⟨g', ?_, h2.trans hsk, ?_⟩
    · rw [reset_seen_loop, hg1]
      exact h1
    · intro p
      rw [h3 p, set_seen_seenb hg1 p]
      by_cases hp : p = entry
      · subst hp; simp
      · simp [hp]

theorem skeleton_nodes {g g' : graph} (h : g'.skeleton = g.skeleton) : g'.nodes = g.nodes := by
  have h1 := congrArg graph.nodes h
  simpa [graph.skeleton] using h1

/-! ### Counting neighbour entries -/

theorem sum_map_congr_mem (l : List Nat) (f f' : Nat → Nat) (h : ∀ p ∈ l, f' p = f p) :
    (l.map f').sum = (l.map f).sum := by
  induction l with
  | nil => rfl
  | cons a rest ih =>
    simp only [List.map_cons, List.sum_cons]
    rw [h a (List.mem_cons_self _ _), ih (fun p hp => h p (List.mem_cons_of_mem _ hp))]

theorem sum_map_update (l : List Nat) (f f' : Nat → Nat) (n1 : Nat) (hnd : l.Nodup)
    (hn : n1 ∈ l) (hf : ∀ p, p ≠ n1 → f' p = f p) :
    (l.map f').sum + f n1 = (l.map f).sum + f' n1 := by
  induction l with
  | nil => simp at hn
  | cons a rest ih =>
    have hnot := (List.nodup_cons.mp hnd).1
    have hrest := (List.nodup_cons.mp hnd).2
    simp only [List.map_cons, List.sum_cons]
    by_cases ha : a = n1
    · subst ha
      have := sum_map_congr_mem rest f f'
        (fun p hp => hf p (fun h => hnot (h ▸ hp)))
      omega
    · have hin : n1 ∈ rest := by
        rcases List.mem_cons.mp hn with h | h
        · exact absurd h.symm ha
        · exact h
      have := ih hrest hin
      have := hf a ha
      omega

theorem nbrs_update {g : graph} {n1 : Nat} {nd1 : node} (l : List Nat) (e : Int)
    (h1 : g.deref n1 = some nd1) (p : Nat) :
    graph.nbrs { g with
      heap := g.heap.set n1 (some { nd1 with neighbours := l })
      edgecount := e } p = if p = n1 then l else g.nbrs p := by
  unfold graph.nbrs graph.deref
  rw [cell_set g.heap n1 p _ (deref_lt h1)]
  by_cases hp : p = n1
  · simp [hp]
  · simp [hp]

/-- Writing a new neighbour list into the cell of a node changes the number of entries by
the difference of the lengths. -/
theorem entry_count_update {g : graph} {n1 : Nat} {nd1 : node} (l : List Nat) (e : Int)
    (hnd : g.nodes.Nodup) (hn1 : n1 ∈ g.nodes) (h1 : g.deref n1 = some nd1) :
    entry_count { g with
      heap := g.heap.set n1 (some { nd1 with neighbours := l })
      edgecount := e } + nd1.neighbours.length = entry_count g + l.length := by
  unfold entry_count
  have h := sum_map_update g.nodes (fun p => (g.nbrs p).length)
    (fun p => (graph.nbrs { g with
      heap := g.heap.set n1 (some { nd1 with neighbours := l })
      edgecount := e } p).length) n1 hnd hn1
    (by
      intro p hp
      simp only [nbrs_update l e h1 p, if_neg hp])
  have h2 : (g.nbrs n1).length = nd1.neighbours.length := by
    unfold graph.nbrs; rw [h1]
  have h3 : (graph.nbrs { g with
      heap := g.heap.set n1 (some { nd1 with neighbours := l })
      edgecount := e } n1).length = l.length := by
    rw [nbrs_update l e h1 n1, if_pos rfl]
  simp only [h2, h3] at h
  exact h

theorem entry_count_insert_node {g g' : graph} {s : String} (hw : g.wf)
    (h : graph_insert_node g s = some g') :
    g'.edgecount = g.edgecount ∧ entry_count g' = entry_count g := by
  obtain ⟨out, ho⟩ := graph_insert_node_eq h
  rcases graph_insert_node_out_cases ho with ⟨_, hr⟩ | ⟨_, _, hr⟩ | ⟨_, _, _, hr⟩
  · rw [(Prod.mk.inj hr).1]; exact ⟨rfl, rfl⟩
  · rw [(Prod.mk.inj hr).1]; exact ⟨rfl, rfl⟩
  · rw [(Prod.mk.inj hr).1]
    refine ⟨rfl, ?_⟩
    unfold entry_count
    have hd : ∀ p, graph.deref { g with
        heap := g.heap ++ [some { name := s, seen := false, neighbours := [] }]
        nodes := g.heap.length :: g.nodes
        nodecount := g.nodecount + 1 } p
        = if p = g.heap.length then some { name := s, seen := false, neighbours := [] }
          else g.deref p := fun p => cell_push g.heap _ p
    simp only [List.map_cons, List.sum_cons]
    have h0 : (graph.nbrs { g with
        heap := g.heap ++ [some { name := s, seen := false, neighbours := [] }]
        nodes := g.heap.length :: g.nodes
        nodecount := g.nodecount + 1 } g.heap.length).length = 0 := by
      unfold graph.nbrs
      rw [hd, if_pos rfl]
      rfl
    rw [h0, Nat.zero_add]
    apply sum_map_congr_mem
    intro p hp
    obtain ⟨nd, hnd⟩ := live_iff.mp (hw.nodes_live p hp)
    have hne : p ≠ g.heap.length := Nat.ne_of_lt (deref_lt hnd)
    unfold graph.nbrs
    rw [hd p, if_neg hne]

theorem entry_count_insert_edge {g g' : graph} {n1 n2 : Nat} (hw : g.wf) (hn1 : n1 ∈ g.nodes)
    (h : graph_insert_edge g n1 n2 = some g') :
    (g'.edgecount = g.edgecount ∧ entry_count g' = entry_count g) ∨
      (g'.edgecount = int_wrap (g.edgecount + 1) ∧ entry_count g' = entry_count g + 1) := by
  obtain ⟨nd1, hd, ⟨_, hg⟩ | ⟨_, hg⟩⟩ := graph_insert_edge_cases h
  · rw [hg]
    exact Or.inl ⟨rfl, rfl⟩
  · have hc := entry_count_update (n2 :: nd1.neighbours) (int_wrap (g.edgecount + 1))
      hw.nodes_nodup hn1 hd
    rw [hg]
    simp only [List.length_cons] at hc
    refine Or.inr ⟨rfl, ?_⟩
    omega

theorem entry_count_delete_edge {g g' : graph} {n1 n2 : Nat} (hw : g.wf) (hn1 : n1 ∈ g.nodes)
    (h : graph_delete_edge g n1 n2 = some g') :
    (g'.edgecount = g.edgecount ∧ entry_count g' = entry_count g) ∨
      (g'.edgecount = int_wrap (g.edgecount - 1) ∧ entry_count g' + 1 = entry_count g) := by
  obtain ⟨nd1, hd⟩ := live_iff.mp (hw.nodes_live n1 hn1)
  have hno := hw.nbrs_nodup n1 nd1 hd
  rw [graph_delete_edge_eq n2 hd hno] at h
  by_cases hl : nd1.neighbours.getLast? = some n2
  · simp [hl] at h
  · simp only [hl, if_false, Option.some.injEq] at h
    have hc := entry_count_update (nd1.neighbours.erase n2)
      (if n2 ∈ nd1.neighbours then int_wrap (g.edgecount - 1) else g.edgecount)
      hw.nodes_nodup hn1 hd
    rw [← h]
    simp only
    by_cases hm : n2 ∈ nd1.neighbours
    · have hlen := List.length_erase_of_mem hm
      have hpos : 0 < nd1.neighbours.length := List.length_pos_of_mem hm
      simp only [hm, if_true] at hc ⊢
      refine Or.inr ⟨trivial, ?_⟩
      omega
    · have hlen : (nd1.neighbours.erase n2).length = nd1.neighbours.length := by
        rw [List.erase_of_not_mem hm]
      simp only [hm, if_false] at hc ⊢
      refine Or.inl ⟨trivial, ?_⟩
      omega

theorem edges_built_built {fresh_edgecount : Int} {g : graph}
    (h : edges_built fresh_edgecount g) : built g := by
  induction h with
  | empty max_nodes => exact built.empty max_nodes fresh_edgecount
  | insert_node s _ h ih => exact built.insert_node s ih h
  | insert_edge n1 n2 _ h1 h2 h ih => exact built.insert_edge n1 n2 ih h1 h2 h
  | delete_edge n1 n2 _ h1 h2 h ih => exact built.delete_edge n1 n2 ih h1 h2 h

theorem abc_built : built abc_graph :=
  insert_nodes_built ["A", "B", "C"] (graph_empty 3 0) abc_graph (built.empty 3 0)
    (by decide)

theorem both_ways_edges_built : edges_built 0 both_ways_graph := by
  have h0 : edges_built 0 (graph_empty 2 0) := edges_built.empty 2
  have h1 : edges_built 0
      { heap := [some { name := "A", seen := false, neighbours := [] }],
        nodes := [0], edgecount := 0, nodecount := 1, maxnodes := 2 } :=
    edges_built.insert_node "A" h0 (by decide)
  have h2 : edges_built 0 two_nodes_graph := edges_built.insert_node "B" h1 (by decide)
  have h3 : edges_built 0 one_way_graph :=
    edges_built.insert_edge 0 1 h2 (by decide) (by decide) (by decide)
  exact edges_built.insert_edge 1 0 h3 (by decide) (by decide) (by decide)

theorem x_built : built (x_graph 1) :=
  built.insert_node "X" (built.empty 1 0) (by decide)

theorem b_to_a_built : built b_to_a_graph :=
  built.insert_edge 1 0 abc_built (by decide) (by decide) (by decide)

theorem path_built : built path_graph := by
  have h1 : built
      { heap := [some { name := "A", seen := false, neighbours := [1] },
                 some { name := "B", seen := false, neighbours := [] },
                 some { name := "C", seen := false, neighbours := [] }],
        nodes := [2, 1, 0], edgecount := 1, nodecount := 3, maxnodes := 3 } :=
    built.insert_edge 0 1 abc_built (by decide) (by decide) (by decide)
  have h2 : built
      { heap := [some { name := "A", seen := false, neighbours := [1] },
                 some { name := "B", seen := false, neighbours := [0] },
                 some { name := "C", seen := false, neighbours := [] }],
        nodes := [2, 1, 0], edgecount := 2, nodecount := 3, maxnodes := 3 } :=
    built.insert_edge 1 0 h1 (by decide) (by decide) (by decide)
  have h3 : built
      { heap := [some { name := "A", seen := false, neighbours := [1] },
                 some { name := "B", seen := false, neighbours := [2, 0] },
                 some { name := "C", seen := false, neighbours := [] }],
        nodes := [2, 1, 0], edgecount := 3, nodecount := 3, maxnodes := 3 } :=
    built.insert_edge 1 2 h2 (by decide) (by decide) (by decide)
  exact built.insert_edge 2 1 h3 (by decide) (by decide) (by decide)

/-! ### Seen flags, once more -/

/-- The loop of `graph_reset_seen` over allocated entries whose flag is already clear
returns the graph as it was. -/
theorem reset_seen_loop_same (l : List Nat) (g : graph)
    (hl : ∀ p ∈ l, graph_node_is_seen g p = some false) : reset_seen_loop g l = some g := by
  induction l with
  | nil => rfl
  | cons entry ahead ih =>
    have he := hl entry (List.mem_cons_self _ _)
    have hset : graph_node_set_seen g entry false = some g := by
      unfold graph_node_is_seen at he
      unfold graph_node_set_seen
      cases hc : g.deref entry with
      | none => rw [hc] at he; simp at he
      | some nd =>
        rw [hc] at he
        have hs : nd.seen = false := by simpa using he
        have hnd : ({ nd with seen := false } : node) = nd := by
          cases nd
          simp only at hs
          subst hs
          rfl
        dsimp only
        rw [hnd, cell_set_same g.heap entry (some nd) hc]
    rw [reset_seen_loop, hset]
    exact ih (fun p hp => hl p (List.mem_cons_of_mem _ hp))

theorem skeleton_counts {g g' : graph} (h : g'.skeleton = g.skeleton) :
    g'.nodecount = g.nodecount ∧ g'.edgecount = g.edgecount ∧ g'.maxnodes = g.maxnodes := by
  have h1 := congrArg graph.nodecount h
  have h2 := congrArg graph.edgecount h
  have h3 := congrArg graph.maxnodes h
  exact ⟨by simpa [graph.skeleton] using h1, by simpa [graph.skeleton] using h2,
    by simpa [graph.skeleton] using h3⟩

theorem skeleton_name {g g' : graph} (h : g'.skeleton = g.skeleton) (p : Nat) :
    (g'.deref p).map node.name = (g.deref p).map node.name := by
  cases hp : g'.deref p with
  | some nd' =>
    obtain ⟨nd, hnd, hname, _⟩ := skeleton_cell h hp
    simp [hnd, hname]
  | none =>
    cases hq : g.deref p with
    | none => rfl
    | some nd =>
      obtain ⟨nd', hnd, _⟩ := skeleton_cell h.symm hq
      rw [hp] at hnd
      exact absurd hnd (by simp)

theorem is_seen_true_iff {g : graph} {p : Nat} :
    graph_node_is_seen g p = some true ↔ g.live p ∧ g.seenb p = true := by
  unfold graph_node_is_seen graph.seenb
  rw [live_iff]
  cases g.deref p with
  | none => simp
  | some nd => simp

/-- One more round of fuel does not change what the outer loop of `find_path` returns. -/
theorem find_path_loop_fuel (f : Nat) : ∀ (g : graph) (q : queue) (g' : graph),
    find_path_loop f g q = some g' → find_path_loop (f + 1) g q = some g' := by
  induction f with
  | zero =>
    intro g q g' h
    cases q with
    | nil => simpa [find_path_loop] using h
    | cons n q0 => simp [find_path_loop] at h
  | succ k ih =>
    intro g q g' h
    cases q with
    | nil => simpa [find_path_loop] using h
    | cons n q0 =>
      rw [find_path_loop] at h ⊢
      cases hn : graph_neighbours g n with
      | none => rw [hn] at h; simp at h
      | some ns =>
        rw [hn] at h
        dsimp only at h ⊢
        cases hv : find_path_visit g q0 ns with
        | none => rw [hv] at h; simp at h
        | some r =>
          rw [hv] at h
          dsimp only at h ⊢
          exact ih _ _ _ h

theorem find_path_loop_mono {f f' : Nat} {g g' : graph} {q : queue}
    (h : find_path_loop f g q = some g') (hf : f ≤ f') :
    find_path_loop f' g q = some g' := by
  induction hf with
  | refl => exact h
  | step _ ih => exact find_path_loop_fuel _ _ _ _ ih

/-! ### The enqueue record of `find_path` -/

theorem skeleton_nodes_closed {g g' : graph} (h : g'.skeleton = g.skeleton)
    (hc : g.nodes_closed) : g'.nodes_closed := by
  unfold graph.nodes_closed at hc ⊢
  rw [skeleton_nodes h]
  intro p hp l hl m hm
  rw [skeleton_neighbours h p] at hl
  exact hc p hp l hl m hm

theorem nodes_closed_nbrs {g : graph} (hc : g.nodes_closed) {p m : Nat} (hp : p ∈ g.nodes)
    (hm : m ∈ g.nbrs p) : m ∈ g.nodes := by
  obtain ⟨l, hl, hml⟩ := nbrs_iff.mp hm
  exact hc p hp l hl m hml

/-- The rounds of the outer loop, with enough fuel: the record exists, no entry is
enqueued twice, every enqueued entry was not seen before and is a node, and the queue at
every loop test is a stretch of the entries in the queue followed by the entries enqueued
later. -/
theorem find_path_rounds_spec (fuel : Nat) : ∀ (g : graph) (q : queue),
    g.closed → (∀ x ∈ q, g.live x) → g.unseen_count + q.length ≤ fuel →
    g.nodes_closed → (∀ x ∈ q, x ∈ g.nodes) →
    ∃ rounds, find_path_rounds fuel g q = some rounds ∧
      (rounds_enqueued rounds).Nodup ∧
      (∀ x ∈ rounds_enqueued rounds, g.seenb x = false ∧ x ∈ g.nodes) ∧
      ∀ r ∈ rounds, ∃ a b, a ++ r.1 ++ b = q ++ rounds_enqueued rounds := by
  induction fuel with
  | zero =>
    intro g q _ _ hf _ _
    have hq : q = [] := List.length_eq_zero.mp (by omega)
    subst hq
    exact ⟨[], by simp [find_path_rounds], by simp [rounds_enqueued],
      by simp [rounds_enqueued], by simp⟩
  | succ f ih =>
    intro g q hc hq hf hnc hqn
    cases q with
    | nil =>
      exact ⟨[], by simp [find_path_rounds], by simp [rounds_enqueued],
        by simp [rounds_enqueued], by simp⟩
    | cons n q0 =>
      have hn : g.live n := hq n (List.mem_cons_self _ _)
      obtain ⟨nd, hnd⟩ := live_iff.mp hn
      have hnb : graph_neighbours g n = some (g.nbrs n) := by
        unfold graph_neighbours graph.nbrs
        simp [hnd]
      have hnl : ∀ m ∈ g.nbrs n, g.live m := by
        intro m hm
        have : m ∈ nd.neighbours := by
          unfold graph.nbrs at hm
          rw [hnd] at hm
          exact hm
        exact closed_iff.mp hc n nd hnd m this
      obtain ⟨g1, new, h1, h2, h3, h4, h5, h6⟩ := find_path_visit_spec (g.nbrs n) g q0 hnl
      have hlive1 : ∀ x ∈ q0 ++ new, g1.live x := by
        intro x hx
        refine (skeleton_live h2 x).mpr ?_
        rcases List.mem_append.mp hx with hx | hx
        · exact hq x (List.mem_cons_of_mem _ hx)
        · exact hnl x ((h4 x).mp hx).1
      have hfuel : g1.unseen_count + (q0 ++ new).length ≤ f := by
        simp only [List.length_append, List.length_cons] at hf ⊢
        omega
      have hnewn : ∀ x ∈ new, x ∈ g.nodes := fun x hx =>
        nodes_closed_nbrs hnc (hqn n (List.mem_cons_self _ _)) ((h4 x).mp hx).1
      have hqn1 : ∀ x ∈ q0 ++ new, x ∈ g1.nodes := by
        intro x hx
        rw [skeleton_nodes h2]
        rcases List.mem_append.mp hx with hx | hx
        · exact hqn x (List.mem_cons_of_mem _ hx)
        · exact hnewn x hx
      obtain ⟨rounds, k1, k2, k3, k4⟩ := ih g1 (q0 ++ new) (skeleton_closed h2 hc) hlive1
        hfuel (skeleton_nodes_closed h2 hnc) hqn1
      refine ⟨(n :: q0, new) :: rounds, ?_, ?_, ?_, ?_⟩
      · rw [find_path_rounds, hnb]
        simp only [h1, k1, List.drop_left]
      · rw [rounds_enqueued]
        refine List.nodup_append.mpr ⟨h5, k2, ?_⟩
        intro x hx1 hx2
        have hs1 : g1.seenb x = true := by
          rw [h3 x]
          simp [((h4 x).mp hx1).1]
        rw [(k3 x hx2).1] at hs1
        exact absurd hs1 (by simp)
      · intro x hx
        rw [rounds_enqueued] at hx
        rcases List.mem_append.mp hx with hx | hx
        · exact ⟨((h4 x).mp hx).2, hnewn x hx⟩
        · obtain ⟨hs, hnode⟩ := k3 x hx
          rw [skeleton_nodes h2] at hnode
          rw [h3 x] at hs
          refine ⟨?_, hnode⟩
          cases hg : g.seenb x with
          | false => rfl
          | true => rw [hg] at hs; simp at hs
      · intro r hr
        rw [rounds_enqueued]
        rcases List.mem_cons.mp hr with hr | hr
        · subst hr
          exact ⟨[], new ++ rounds_enqueued rounds, by simp⟩
        · obtain ⟨a, b, hab⟩ := k4 r hr
          refine ⟨n :: a, b, ?_⟩
          simp only [List.cons_append, List.append_assoc] at hab ⊢
          rw [hab]

/-! ### The order of neighbour entries -/

/-- The call `graph_insert_edge(g, n, a)` for a node `n` and an `a` that is not yet a
neighbour of `n` puts `a` in front of the neighbour list of `n` and counts it. -/
theorem graph_insert_edge_new {g : graph} {n a : Nat} (hv : g.valid) (hn : n ∈ g.nodes)
    (hna : ¬ neighbour_of g n a) :
    ∃ nd, g.deref n = some nd ∧
      graph_insert_edge g n a = some { g with
        heap := g.heap.set n (some { nd with neighbours := a :: nd.neighbours })
        edgecount := int_wrap (g.edgecount + 1) } := by
  obtain ⟨nd, hnd⟩ := live_iff.mp (hv.1 n hn)
  have hl : graph_neighbours g n = some nd.neighbours := by
    unfold graph_neighbours; rw [hnd]; rfl
  have ha : a ∉ nd.neighbours := fun h => hna ⟨nd.neighbours, hl, h⟩
  have hscan := insert_edge_scan_total g a nd.neighbours
    (fun m hm => closed_iff.mp hv.2 n nd hnd m hm)
  refine ⟨nd, hnd, ?_⟩
  unfold graph_insert_edge
  rw [hnd]
  dsimp only
  rw [hscan]
  simp [ha]

theorem wf_valid {g : graph} (hw : g.wf) : g.valid :=
  ⟨hw.nodes_live, hw.closed⟩

theorem wf_nodes_closed {g : graph} (hw : g.wf) : g.nodes_closed := by
  intro p hp l hl m hm
  unfold graph_neighbours at hl
  cases hc : g.deref p with
  | none => rw [hc] at hl; simp at hl
  | some nd =>
    rw [hc] at hl
    have hnl : nd.neighbours = l := by simpa using hl
    exact hw.live_nodes m (closed_iff.mp hw.closed p nd hc m (hnl ▸ hm))

theorem neighbours_of_deref {g : graph} {p : Nat} {nd : node} (h : g.deref p = some nd) :
    graph_neighbours g p = some nd.neighbours := by
  unfold graph_neighbours; rw [h]; rfl

/-- The call `graph_insert_edge(g, n, a)` for a node `n` and an `a` that is not yet a
neighbour of `n`, read through `graph_neighbours`: `a` is the new first entry of the list
of `n`, every other list and the node list are as before. -/
theorem graph_insert_edge_front {g : graph} {n a : Nat} (hv : g.valid) (hn : n ∈ g.nodes)
    (hna : ¬ neighbour_of g n a) :
    ∃ g1 l, graph_insert_edge g n a = some g1 ∧ g1.nodes = g.nodes ∧
      graph_neighbours g n = some l ∧ graph_neighbours g1 n = some (a :: l) ∧
      ∀ p, p ≠ n → graph_neighbours g1 p = graph_neighbours g p := by
  obtain ⟨nd, hnd, hg1⟩ := graph_insert_edge_new hv hn hna
  have hd : ∀ p, graph.deref { g with
      heap := g.heap.set n (some { nd with neighbours := a :: nd.neighbours })
      edgecount := int_wrap (g.edgecount + 1) } p
      = if p = n then some { nd with neighbours := a :: nd.neighbours } else g.deref p :=
    fun p => cell_set g.heap n p _ (deref_lt hnd)
  refine ⟨_, nd.neighbours, hg1, rfl, neighbours_of_deref hnd, ?_, ?_⟩
  · unfold graph_neighbours; rw [hd n, if_pos rfl]; rfl
  · intro p hp
    unfold graph_neighbours; rw [hd p, if_neg hp]

/-! ### The character loops of graph3.c -/

theorem nodes_are_equal_loop_eq (a : List Char) : ∀ b : List Char, NUL ∉ a → NUL ∉ b →
    graph3.nodes_are_equal_loop a b = decide (a = b) := by
  induction a with
  | nil =>
    intro b _ hb
    cases b with
    | nil => simp [graph3.nodes_are_equal_loop, c_char]
    | cons y ys =>
      have hy : y ≠ NUL := fun h => hb (h ▸ List.mem_cons_self _ _)
      simp [graph3.nodes_are_equal_loop, c_char, hy]
  | cons x xs ih =>
    intro b ha hb
    have hx : x ≠ NUL := fun h => ha (h ▸ List.mem_cons_self _ _)
    cases b with
    | nil => simp [graph3.nodes_are_equal_loop, hx]
    | cons y ys =>
      have hy : y ≠ NUL := fun h => hb (h ▸ List.mem_cons_self _ _)
      rw [graph3.nodes_are_equal_loop]
      by_cases hxy : x = y
      · subst hxy
        simp [hx, ih ys (fun h => ha (List.mem_cons_of_mem _ h))
          (fun h => hb (List.mem_cons_of_mem _ h))]
      · simp [hx, hy, hxy]

theorem find_node_compare_false (a b : List Char) :
    graph3.find_node_compare a b false = false := by
  cases a with
  | nil => simp [graph3.find_node_compare]
  | cons x xs =>
    cases b with
    | nil => simp [graph3.find_node_compare]
    | cons y ys => simp [graph3.find_node_compare]

theorem find_node_compare_eq (a : List Char) : ∀ b : List Char, NUL ∉ a → NUL ∉ b →
    graph3.find_node_compare a b true = decide (a = b) := by
  induction a with
  | nil =>
    intro b _ hb
    cases b with
    | nil => simp [graph3.find_node_compare, c_char]
    | cons y ys =>
      have hy : y ≠ NUL := fun h => hb (h ▸ List.mem_cons_self _ _)
      simp [graph3.find_node_compare, c_char, hy]
  | cons x xs ih =>
    intro b ha hb
    have hx : x ≠ NUL := fun h => ha (h ▸ List.mem_cons_self _ _)
    cases b with
    | nil => simp [graph3.find_node_compare, hx]
    | cons y ys =>
      have hy : y ≠ NUL := fun h => hb (h ▸ List.mem_cons_self _ _)
      rw [graph3.find_node_compare]
      by_cases hxy : x = y
      · subst hxy
        simp [hx, ih ys (fun h => ha (List.mem_cons_of_mem _ h))
          (fun h => hb (List.mem_cons_of_mem _ h))]
      · simp [hx, hy, hxy, find_node_compare_false]

theorem string_data_eq_iff (a b : String) : a.data = b.data ↔ a = b :=
  ⟨fun h => String.ext h, fun h => h ▸ rfl⟩

theorem graph3_find_node_scan_eq (g : graph) (s : String) (hs : NUL ∉ s.data)
    (l : List Nat)
    (hnames : ∀ p ∈ l, ∀ nd, g.deref p = some nd → NUL ∉ nd.name.data) :
    graph3.find_node_scan g s l = find_node_scan g s l := by
  induction l with
  | nil => rfl
  | cons p ahead ih =>
    rw [graph3.find_node_scan, find_node_scan]
    cases hc : g.deref p with
    | none => rfl
    | some nd =>
      dsimp only
      rw [find_node_compare_eq nd.name.data s.data
        (hnames p (List.mem_cons_self _ _) nd hc) hs,
        ih (fun q hq => hnames q (List.mem_cons_of_mem _ hq))]
      by_cases hn : nd.name = s
      · have h0 : strcmp nd.name s = 0 := (strcmp_eq_zero _ _).mpr hn
        subst hn
        simp [h0]
      · have h0 : ¬ strcmp nd.name s = 0 := fun h => hn ((strcmp_eq_zero _ _).mp h)
        have hd : ¬ nd.name.data = s.data := fun h => hn ((string_data_eq_iff _ _).mp h)
        simp [h0, hd]

/-! ### The edge counter -/

theorem int_wrap_of_in_int {x : Int} (h : in_int x) : int_wrap x = x := by
  unfold in_int INT_MIN INT_MAX at h
  unfold int_wrap
  omega

/-- In a graph made from `graph_empty` without `graph_delete_node`, the edge count is the
start value plus the number of neighbour entries, in the arithmetic of `int`. -/
theorem edges_built_edgecount {fresh_edgecount : Int} {g : graph}
    (hf : in_int fresh_edgecount) (h : edges_built fresh_edgecount g) :
    g.edgecount = int_wrap (fresh_edgecount + entry_count g) := by
  induction h with
  | empty max_nodes =>
    simp only [graph_empty, entry_count, List.map_nil, List.sum_nil, Nat.cast_zero,
      Int.add_zero]
    exact (int_wrap_of_in_int hf).symm
  | insert_node s hb h ih =>
    obtain ⟨h1, h2⟩ := entry_count_insert_node (built_wf (edges_built_built hb)) h
    rw [h1, h2]
    exact ih
  | insert_edge n1 n2 hb hn1 _ h ih =>
    rcases entry_count_insert_edge (built_wf (edges_built_built hb)) hn1 h with
      ⟨k1, k2⟩ | ⟨k1, k2⟩
    · rw [k1, k2]; exact ih
    · rw [k1, k2, ih]
      unfold int_wrap
      push_cast
      omega
  | delete_edge n1 n2 hb hn1 _ h ih =>
    rcases entry_count_delete_edge (built_wf (edges_built_built hb)) hn1 h with
      ⟨k1, k2⟩ | ⟨k1, k2⟩
    · rw [k1, k2]; exact ih
    · rw [k1, ih, ← k2]
      unfold int_wrap
      push_cast
      omega

theorem fresh_two_nodes_edges_built (fresh_edgecount : Int) :
    edges_built fresh_edgecount (fresh_two_nodes_graph fresh_edgecount) := by
  have h0 : edges_built fresh_edgecount (graph_empty 2 fresh_edgecount) :=
    edges_built.empty 2
  have h1 : edges_built fresh_edgecount
      { heap := [some { name := "A", seen := false, neighbours := [] }],
        nodes := [0], edgecount := fresh_edgecount, nodecount := 1, maxnodes := 2 } :=
    edges_built.insert_node "A" h0 rfl
  exact edges_built.insert_node "B" h1 rfl

theorem wrapped_edges_built :
    edges_built 2147483647 (fresh_one_way_graph (-2147483648)) :=
  edges_built.insert_edge 0 1 (fresh_two_nodes_edges_built 2147483647) (by decide)
    (by decide) (by decide)

/-- A second `graph_insert_edge(g, A, B)` right after a first one returns the graph of the
first call unchanged; over the two calls the edge count goes up by one, in the arithmetic
of `int`, when `B` was not yet a neighbour of `A`, and not at all otherwise. -/
theorem graph_insert_edge_again {g : graph} {A B : Nat} (hv : g.valid) (hA : A ∈ g.nodes) :
    ∃ g1, graph_insert_edge g A B = some g1 ∧ graph_insert_edge g1 A B = some g1 ∧
      (¬ neighbour_of g A B → g1.edgecount = int_wrap (g.edgecount + 1)) ∧
      (neighbour_of g A B → g1 = g) := by
  obtain ⟨nd, hnd⟩ := live_iff.mp (hv.1 A hA)
  have hl : graph_neighbours g A = some nd.neighbours := by
    unfold graph_neighbours; rw [hnd]; rfl
  have hscan := insert_edge_scan_total g B nd.neighbours
    (fun m hm => closed_iff.mp hv.2 A nd hnd m hm)
  by_cases hB : B ∈ nd.neighbours
  · have hg : graph_insert_edge g A B = some g := by
      unfold graph_insert_edge
      rw [hnd]
      dsimp only
      rw [hscan]
      simp [hB]
    refine ⟨g, hg, hg, ?_, fun _ => rfl⟩
    intro hno
    exact absurd ⟨nd.neighbours, hl, hB⟩ hno
  · have hg : graph_insert_edge g A B = some { g with
        heap := g.heap.set A (some { nd with neighbours := B :: nd.neighbours })
        edgecount := int_wrap (g.edgecount + 1) } := by
      unfold graph_insert_edge
      rw [hnd]
      dsimp only
      rw [hscan]
      simp [hB]
    have hd : graph.deref { g with
        heap := g.heap.set A (some { nd with neighbours := B :: nd.neighbours })
        edgecount := int_wrap (g.edgecount + 1) } A
        = some { nd with neighbours := B :: nd.neighbours } :=
      cell_set_self g.heap A _ (deref_lt hnd)
    refine ⟨_, hg, ?_, fun _ => rfl, ?_⟩
    · unfold graph_insert_edge
      rw [hd]
      simp [insert_edge_scan, nodes_are_equal]
    · rintro ⟨l, h1, h2⟩
      rw [hl] at h1
      have : nd.neighbours = l := by simpa using h1
      exact absurd (this ▸ h2) hB

/-! ### Newest first -/

theorem listed_before_antisymm {l : List Nat} {x y : Nat} (hn : l.Nodup)
    (h : listed_before l x y) : ¬ listed_before l y x := by
  unfold listed_before at *
  induction l with
  | nil => cases h
  | cons c l ih =>
    intro h2
    obtain ⟨hc, hl⟩ := List.nodup_cons.mp hn
    rcases List.sublist_cons_iff.mp h with h | ⟨r, hr, hrl⟩
    · have hx : x ∈ l := h.subset (by simp)
      rcases List.sublist_cons_iff.mp h2 with h2 | ⟨r2, hr2, _⟩
      · exact ih hl h h2
      · have : y = c := (List.cons.inj hr2).1
        have hy : y ∈ l := h.subset (by simp)
        exact hc (this ▸ hy)
    · obtain ⟨hxc, hr1⟩ := List.cons.inj hr
      have hy : y ∈ l := List.singleton_sublist.mp (hr1 ▸ hrl)
      rcases List.sublist_cons_iff.mp h2 with h2 | ⟨r2, hr2, _⟩
      · have hx : x ∈ l := h2.subset (by simp)
        exact hc (hxc ▸ hx)
      · have : y = c := (List.cons.inj hr2).1
        exact hc (this ▸ hy)

theorem nbrs_of_neighbours {g : graph} {n : Nat} {l : List Nat}
    (h : graph_neighbours g n = some l) : g.nbrs n = l := by
  unfold graph_neighbours at h
  unfold graph.nbrs
  cases hd : g.deref n with
  | none => rw [hd] at h; simp at h
  | some nd => rw [hd] at h; simpa using h

theorem neighbours_of_live {g : graph} {n : Nat} (h : g.live n) :
    graph_neighbours g n = some (g.nbrs n) := by
  obtain ⟨nd, hnd⟩ := live_iff.mp h
  unfold graph_neighbours graph.nbrs
  simp [hnd]

theorem keep_insert_node {g g' : graph} {s : String} {n : Nat} (hw : g.wf)
    (hn : n ∈ g.nodes) (h : graph_insert_node g s = some g') :
    n ∈ g'.nodes ∧ g'.nbrs n = g.nbrs n := by
  obtain ⟨out, ho⟩ := graph_insert_node_eq h
  rcases graph_insert_node_out_cases ho with ⟨_, hr⟩ | ⟨_, _, hr⟩ | ⟨_, _, _, hr⟩
  · rw [(Prod.mk.inj hr).1]; exact ⟨hn, rfl⟩
  · rw [(Prod.mk.inj hr).1]; exact ⟨hn, rfl⟩
  · rw [(Prod.mk.inj hr).1]
    refine ⟨List.mem_cons_of_mem _ hn, ?_⟩
    obtain ⟨nd, hnd⟩ := live_iff.mp (hw.nodes_live n hn)
    have hne : n ≠ g.heap.length := Nat.ne_of_lt (deref_lt hnd)
    unfold graph.nbrs graph.deref
    simp only
    rw [cell_push g.heap _ n, if_neg hne]

theorem keep_insert_edge {g g' : graph} {n1 n2 : Nat} (n : Nat)
    (h : graph_insert_edge g n1 n2 = some g') :
    g'.nodes = g.nodes ∧ (g'.nbrs n = g.nbrs n ∨ g'.nbrs n = n2 :: g.nbrs n) := by
  obtain ⟨nd1, hd, ⟨_, hg⟩ | ⟨_, hg⟩⟩ := graph_insert_edge_cases h
  · rw [hg]; exact ⟨rfl, Or.inl rfl⟩
  · rw [hg]
    refine ⟨rfl, ?_⟩
    rw [nbrs_update (n2 :: nd1.neighbours) _ hd n]
    by_cases hp : n = n1
    · subst hp
      right
      rw [if_pos rfl]
      unfold graph.nbrs
      rw [hd]
    · left
      rw [if_neg hp]

theorem keep_delete_edge {g g' : graph} {n1 n2 : Nat} (n : Nat) (hw : g.wf)
    (hn1 : n1 ∈ g.nodes) (h : graph_delete_edge g n1 n2 = some g') :
    g'.nodes = g.nodes ∧
      g'.nbrs n = if n = n1 then (g.nbrs n).erase n2 else g.nbrs n := by
  obtain ⟨nd1, hd⟩ := live_iff.mp (hw.nodes_live n1 hn1)
  have hno := hw.nbrs_nodup n1 nd1 hd
  rw [graph_delete_edge_eq n2 hd hno] at h
  by_cases hl : nd1.neighbours.getLast? = some n2
  · simp [hl] at h
  · simp only [hl, if_false, Option.some.injEq] at h
    rw [← h]
    refine ⟨rfl, ?_⟩
    rw [nbrs_update (nd1.neighbours.erase n2) _ hd n]
    by_cases hp : n = n1
    · subst hp
      rw [if_pos rfl, if_pos rfl]
      unfold graph.nbrs
      rw [hd]
    · rw [if_neg hp, if_neg hp]

theorem keep_delete_node {g g' : graph} {m n : Nat} (hw : g.wf) (hm : m ∈ g.nodes)
    (hnm : n ≠ m) (h : graph_delete_node g m = some g') :
    g'.nodes = g.nodes.erase m ∧ g'.nbrs n = (g.nbrs n).erase m := by
  obtain ⟨k1, _, _, k4⟩ := graph_delete_node_spec hw hm h
  refine ⟨k1, ?_⟩
  unfold graph.nbrs
  rw [k4 n, if_neg hnm]
  cases g.deref n with
  | none => simp
  | some nd => simp

/-- Further calls that keep the entries `a` and `b` in the neighbour list of `n` leave
them in the order they stand in. -/
theorem built_keeping_spec {n a b : Nat} {g g' : graph} (hb : built g) (hn : n ∈ g.nodes)
    (h : built_keeping n a b g g') :
    built g' ∧ n ∈ g'.nodes ∧
      ∀ s : List Nat, (∀ x ∈ s, x = a ∨ x = b) →
        List.Sublist s (g.nbrs n) → List.Sublist s (g'.nbrs n) := by
  induction h with
  | start => exact ⟨hb, hn, fun _ _ h => h⟩
  | insert_node s _ h ih =>
    obtain ⟨ib, inn, isub⟩ := ih
    obtain ⟨k1, k2⟩ := keep_insert_node (built_wf ib) inn h
    refine ⟨built.insert_node s ib h, k1, fun t ht hs => ?_⟩
    rw [k2]
    exact isub t ht hs
  | insert_edge n1 n2 _ hn1 hn2 h ih =>
    obtain ⟨ib, inn, isub⟩ := ih
    obtain ⟨k1, k2⟩ := keep_insert_edge n h
    refine ⟨built.insert_edge n1 n2 ib hn1 hn2 h, k1 ▸ inn, fun t ht hs => ?_⟩
    rcases k2 with k2 | k2
    · rw [k2]; exact isub t ht hs
    · rw [k2]; exact (isub t ht hs).cons n2
  | delete_edge n1 n2 _ hn1 hn2 hk h ih =>
    obtain ⟨ib, inn, isub⟩ := ih
    obtain ⟨k1, k2⟩ := keep_delete_edge n (built_wf ib) hn1 h
    refine ⟨built.delete_edge n1 n2 ib hn1 hn2 h, k1 ▸ inn, fun t ht hs => ?_⟩
    rw [k2]
    by_cases hp : n = n1
    · rw [if_pos hp]
      obtain ⟨ha, hb2⟩ := hk hp.symm
      have hnot : n2 ∉ t := by
        intro hm
        rcases ht n2 hm with e | e
        · exact ha e
        · exact hb2 e
      have := (isub t ht hs).erase n2
      rwa [List.erase_of_not_mem hnot] at this
    · rw [if_neg hp]
      exact isub t ht hs
  | delete_node m _ hm hmn hma hmb h ih =>
    obtain ⟨ib, inn, isub⟩ := ih
    obtain ⟨k1, k2⟩ := keep_delete_node (built_wf ib) hm (Ne.symm hmn) h
    refine ⟨built.delete_node m ib hm h, ?_, fun t ht hs => ?_⟩
    · rw [k1]
      exact (List.mem_erase_of_ne (Ne.symm hmn)).mpr inn
    · rw [k2]
      have hnot : m ∉ t := by
        intro hx
        rcases ht m hx with e | e
        · exact hma e
        · exact hmb e
      have := (isub t ht hs).erase m
      rwa [List.erase_of_not_mem hnot] at this

theorem find_path_visit_append (ns : List Nat) :
    ∀ (g : graph) (q : queue) (g' : graph) (q' : queue),
    find_path_visit g q ns = some (g', q') → ∃ new, q' = q ++ new := by
  induction ns with
  | nil =>
    intro g q g' q' h
    simp only [find_path_visit, Option.some.injEq, Prod.mk.injEq] at h
    exact ⟨[], by simp [h.2]⟩
  | cons entry ahead ih =>
    intro g q g' q' h
    rw [find_path_visit] at h
    cases hs : graph_node_is_seen g entry with
    | none => rw [hs] at h; simp at h
    | some b =>
      rw [hs] at h
      cases b with
      | true => exact ih g q g' q' h
      | false =>
        dsimp only at h
        cases hg : graph_node_set_seen g entry true with
        | none => rw [hg] at h; simp at h
        | some g1 =>
          rw [hg] at h
          obtain ⟨new, hnew⟩ := ih g1 (queue_enqueue q entry) g' q' h
          exact ⟨entry :: new, by rw [hnew]; simp [queue_enqueue]⟩

/-- The queue is first-in-first-out: the nodes are taken from it in the order in which
they were put in. -/
theorem find_path_rounds_dequeued (fuel : Nat) :
    ∀ (g : graph) (q : queue) (rounds : List (queue × List Nat)),
    find_path_rounds fuel g q = some rounds →
    rounds_dequeued rounds = q ++ rounds_enqueued rounds := by
  induction fuel with
  | zero =>
    intro g q rounds h
    cases q with
    | nil =>
      simp only [find_path_rounds, Option.some.injEq] at h
      subst h
      rfl
    | cons n q0 => simp [find_path_rounds] at h
  | succ f ih =>
    intro g q rounds h
    cases q with
    | nil =>
      simp only [find_path_rounds, Option.some.injEq] at h
      subst h
      rfl
    | cons n q0 =>
      rw [find_path_rounds] at h
      cases hl : graph_neighbours g n with
      | none => rw [hl] at h; simp at h
      | some l =>
        rw [hl] at h
        dsimp only at h
        cases hv : find_path_visit g q0 l with
        | none => rw [hv] at h; simp at h
        | some r =>
          obtain ⟨g', q'⟩ := r
          rw [hv] at h
          dsimp only at h
          cases hr : find_path_rounds f g' q' with
          | none => rw [hr] at h; simp at h
          | some rs =>
            rw [hr] at h
            simp only [Option.some.injEq] at h
            subst h
            obtain ⟨new, hnew⟩ := find_path_visit_append l g q0 g' q' hv
            have := ih g' q' rs hr
            subst hnew
            simp [rounds_dequeued, rounds_enqueued, this]

/-- The inner loop of `find_path` enqueues the entries that are not seen in the order of
the neighbour list. -/
theorem find_path_visit_order (ns : List Nat) :
    ∀ (g : graph) (q : queue) (g' : graph) (new : List Nat),
    ns.Nodup → (∀ m ∈ ns, g.live m) → find_path_visit g q ns = some (g', q ++ new) →
    ∀ x y, x ≠ y → g.seenb x = false → g.seenb y = false →
      List.Sublist [x, y] ns → List.Sublist [x, y] new := by
  induction ns with
  | nil =>
    intro g q g' new _ _ _ x y _ _ _ h
    cases h
  | cons entry ahead ih =>
    intro g q g' new hnd hl h x y hxy hx hy hsub
    have hle : g.live entry := hl entry (List.mem_cons_self _ _)
    have hseen := is_seen_of_live hle
    have hla : ∀ m ∈ ahead, g.live m := fun m hm => hl m (List.mem_cons_of_mem _ hm)
    obtain ⟨hea, hnda⟩ := List.nodup_cons.mp hnd
    rw [find_path_visit, hseen] at h
    cases hb : g.seenb entry with
    | true =>
      rw [hb] at h
      dsimp only at h
      rcases List.sublist_cons_iff.mp hsub with hs | ⟨r, hr, _⟩
      · exact ih g q g' new hnda hla h x y hxy hx hy hs
      · have hxe : x = entry := (List.cons.inj hr).1
        rw [hxe, hb] at hx
        exact absurd hx (by simp)
    | false =>
      rw [hb] at h
      dsimp only at h
      obtain ⟨g1, hg1⟩ := set_seen_some true hle
      rw [hg1] at h
      dsimp only at h
      have hs1 : ∀ p, g1.seenb p = if p = entry then true else g.seenb p :=
        set_seen_seenb hg1
      have hl1 : ∀ m ∈ ahead, g1.live m :=
        fun m hm => (skeleton_live (set_seen_skeleton hg1) m).mpr (hla m hm)
      obtain ⟨g2, new', k1, _, _, k4, _, _⟩ :=
        find_path_visit_spec ahead g1 (queue_enqueue q entry) hl1
      have hq : q ++ new = queue_enqueue q entry ++ new' := by
        rw [k1] at h
        have := congrArg Prod.snd (Option.some.inj h)
        exact this.symm
      have hnew : new = entry :: new' := by
        simpa [queue_enqueue] using hq
      rcases List.sublist_cons_iff.mp hsub with hs | ⟨r, hr, hrs⟩
      · have hxa : x ∈ ahead := hs.subset (by simp)
        have hya : y ∈ ahead := hs.subset (by simp)
        have hxe : x ≠ entry := fun e => hea (e ▸ hxa)
        have hye : y ≠ entry := fun e => hea (e ▸ hya)
        have := ih g1 (queue_enqueue q entry) g2 new' hnda hl1 k1 x y hxy
          (by rw [hs1, if_neg hxe]; exact hx) (by rw [hs1, if_neg hye]; exact hy) hs
        rw [hnew]
        exact this.cons entry
      · obtain ⟨hxe, hr1⟩ := List.cons.inj hr
        have hya : y ∈ ahead := List.singleton_sublist.mp (hr1 ▸ hrs)
        have hye : y ≠ entry := fun e => hxy (hxe.trans e.symm)
        have hyn : y ∈ new' :=
          (k4 y).mpr ⟨hya, by rw [hs1, if_neg hye]; exact hy⟩
        rw [hnew, hxe]
        exact List.Sublist.cons₂ _ (List.singleton_sublist.mpr hyn)

theorem wf_nbrs_nodup {g : graph} (hw : g.wf) (p : Nat) : (g.nbrs p).Nodup := by
  unfold graph.nbrs
  cases hd : g.deref p with
  | none => exact List.nodup_nil
  | some nd => exact hw.nbrs_nodup p nd hd

/-- The first round of the outer loop of `find_path` from a node `n`: it takes `n` from the
queue and enqueues the entries of the neighbour list of `n` that are not seen, in the
order of the list; and over all rounds no node is enqueued twice. -/
theorem find_path_first_round {g : graph} {n : Nat} {l : List Nat} (hv : g.valid)
    (hnc : g.nodes_closed) (hn : n ∈ g.nodes) (hl : graph_neighbours g n = some l)
    (hnd : l.Nodup) :
    ∃ g3 new rounds, graph_node_set_seen g n true = some g3 ∧
      find_path_rounds (g3.heap.length + 1) g3 (queue_enqueue queue_empty n)
        = some (([n], new) :: rounds) ∧
      (∀ x y, x ≠ y → x ≠ n → y ≠ n → g.seenb x = false → g.seenb y = false →
        List.Sublist [x, y] l → List.Sublist [x, y] new) ∧
      (n :: (new ++ rounds_enqueued rounds)).Nodup := by
  obtain ⟨nd, hnd0⟩ := live_iff.mp (hv.1 n hn)
  have hnl : nd.neighbours = l := by
    rw [neighbours_of_deref hnd0] at hl
    simpa using hl
  have hlive : ∀ m ∈ l, g.live m :=
    fun m hm => closed_iff.mp hv.2 n nd hnd0 m (hnl ▸ hm)
  obtain ⟨g3, hg3⟩ := set_seen_some true (hv.1 n hn)
  have hsk3 := set_seen_skeleton hg3
  have hs3 : ∀ p, g3.seenb p = if p = n then true else g.seenb p := set_seen_seenb hg3
  have hlive3 : ∀ m ∈ l, g3.live m :=
    fun m hm => (skeleton_live hsk3 m).mpr (hlive m hm)
  obtain ⟨g4, new, hvis, _⟩ := find_path_visit_spec l g3 [] hlive3
  have hq : ∀ x ∈ queue_enqueue queue_empty n, g3.live x := by
    intro x hx
    have : x = n := by simpa [queue_enqueue, queue_empty] using hx
    subst this
    exact (skeleton_live hsk3 x).mpr (hv.1 x hn)
  have hqn : ∀ x ∈ queue_enqueue queue_empty n, x ∈ g3.nodes := by
    intro x hx
    have : x = n := by simpa [queue_enqueue, queue_empty] using hx
    subst this
    rw [skeleton_nodes hsk3]
    exact hn
  have hfuel : g3.unseen_count + (queue_enqueue queue_empty n).length
      ≤ g3.heap.length + 1 := by
    have := unseen_count_le g3
    simp only [queue_enqueue, queue_empty, List.nil_append, List.length_singleton]
    omega
  obtain ⟨R, hR, hRn, hRs, _⟩ :=
    find_path_rounds_spec (g3.heap.length + 1) g3 (queue_enqueue queue_empty n)
      (skeleton_closed hsk3 hv.2) hq hfuel (skeleton_nodes_closed hsk3 hnc) hqn
  have hl3 : graph_neighbours g3 n = some l := by
    rw [skeleton_neighbours hsk3 n]; exact hl
  have hqe : queue_enqueue queue_empty n = [n] := rfl
  have hR2 := hR
  rw [hqe, find_path_rounds, hl3] at hR2
  dsimp only at hR2
  rw [hvis] at hR2
  dsimp only at hR2
  cases hrs : find_path_rounds g3.heap.length g4 ([] ++ new) with
  | none => rw [hrs] at hR2; simp at hR2
  | some rs =>
    rw [hrs] at hR2
    have hRe : R = ([n], new) :: rs := by simpa using hR2.symm
    subst hRe
    refine ⟨g3, new, rs, hg3, hR, ?_, ?_⟩
    · intro x y hxy hxn hyn hx hy hsub
      exact find_path_visit_order l g3 [] g4 new hnd hlive3 hvis x y hxy
        (by rw [hs3, if_neg hxn]; exact hx) (by rw [hs3, if_neg hyn]; exact hy) hsub
    · rw [rounds_enqueued] at hRn hRs
      refine List.nodup_cons.mpr ⟨?_, hRn⟩
      intro hmem
      have := (hRs n hmem).1
      rw [hs3, if_pos rfl] at this
      exact absurd this (by simp)

theorem abcd_built : built (abcd_graph [] 0) :=
  insert_nodes_built ["A", "B", "C", "D"] (graph_empty 4 0) (abcd_graph [] 0)
    (built.empty 4 0) (by decide)

/-! ## The claims -/

/-- C1, counterexample: after `graph_insert_edge(g, A, B)` alone, "A" and "B" are joined
by an inserted edge, hence in one connected component, yet `find_path(g, B, A)` returns
false. -/
theorem find_path_misses_one_way_edge :
    built one_way_graph ∧ one_way_graph.unseen ∧
      1 ∈ one_way_graph.nodes ∧ 0 ∈ one_way_graph.nodes ∧
      same_component one_way_graph 1 0 ∧
      (find_path one_way_graph 1 0).map Prod.fst = some false := by
  refine ⟨one_way_built, by decide, by decide, by decide, ?_, by decide⟩
  exact Relation.ReflTransGen.single (Or.inr (by decide))

/-- C1 (amended): on every graph made from `graph_empty` by the four operations, for nodes
`src` and `dest` of the graph, `find_path` returns, and it returns true exactly when `dest`
is reached from `src` along neighbour entries in their direction; when every neighbour
entry has its reverse entry, that is exactly when `dest` lies in the connected component
of `src`. -/
theorem find_path_built (g : graph) (hb : built g) (src dest : Nat)
    (hs : src ∈ g.nodes) (hd : dest ∈ g.nodes) :
    ∃ b g', find_path g src dest = some (b, g') ∧
      (b = true ↔ reachable g src dest) ∧
      ((∀ x y, neighbour_of g x y → neighbour_of g y x) →
        (b = true ↔ same_component g src dest)) := by
  have hw := built_wf hb
  obtain ⟨g', h1, _, _, _, h5⟩ :=
    find_path_spec hw.closed (hw.nodes_live src hs) (hw.nodes_live dest hd)
  refine ⟨g'.seenb dest, g', h1, h5 hw.unseen dest, ?_⟩
  intro hsym
  rw [same_component_iff_reachable hsym]
  exact h5 hw.unseen dest

/-- C1, witness: the amended statement at the graph with the single entry "A" to "B". -/
theorem find_path_built_witness :
    ∃ b g', find_path one_way_graph 0 1 = some (b, g') ∧
      (b = true ↔ reachable one_way_graph 0 1) ∧
      ((∀ x y, neighbour_of one_way_graph x y → neighbour_of one_way_graph y x) →
        (b = true ↔ same_component one_way_graph 0 1)) :=
  find_path_built one_way_graph one_way_built 0 1 (by decide) (by decide)

/-- C2: on every graph whose cells can be read and for every node `src` of it, whatever
the seen flags are, `find_path(g, src, src)` returns true. -/
theorem find_path_self (g : graph) (src : Nat) (hv : g.valid) (hs : src ∈ g.nodes) :
    ∃ g', find_path g src src = some (true, g') := by
  obtain ⟨g', h1, _, h3, _, _⟩ := find_path_spec hv.2 (hv.1 src hs) (hv.1 src hs)
  rw [h3] at h1
  exact ⟨g', h1⟩

/-- C2, witness: a graph with a stale seen flag. -/
theorem find_path_self_witness :
    stale_graph.valid ∧ 0 ∈ stale_graph.nodes ∧
      ∃ g', find_path stale_graph 0 0 = some (true, g') :=
  ⟨by decide, by decide, find_path_self stale_graph 0 (by decide) (by decide)⟩

/-- C3: on the graph that `main` builds, with no seen flag set, `find_path` from "UME" to
"GOT" returns true and `find_path` from "UME" to "PJA" returns false. -/
theorem main_query_scenario (fresh_edgecount : Int) :
    main_query fresh_edgecount "UME" "GOT" = some true ∧
      main_query fresh_edgecount "UME" "PJA" = some false := by
  unfold main_query
  rw [main_graph_eq fresh_edgecount]
  exact ⟨rfl, rfl⟩

/-- C4, counterexample: "A" and "B" are nodes without an edge; after one call
`graph_insert_edge(g, A, B)` the entry "B" is in the neighbours of "A", but "A" is not in
the neighbours of "B". -/
theorem graph_insert_edge_not_reciprocal :
    two_nodes_graph.valid ∧ 0 ∈ two_nodes_graph.nodes ∧ 1 ∈ two_nodes_graph.nodes ∧
      ¬ neighbour_of two_nodes_graph 0 1 ∧
      graph_insert_edge two_nodes_graph 0 1 = some one_way_graph ∧
      neighbour_of one_way_graph 0 1 ∧ ¬ neighbour_of one_way_graph 1 0 := by
  decide

/-- C4 (amended): for a node `A` of a graph whose cells can be read and a node `B` that is
not yet a neighbour of `A`, `graph_insert_edge(g, A, B)` returns, `B` is the first entry
of `graph_neighbours(g, A)` afterwards, and the neighbour list of every other node is as
before: `A` is in `graph_neighbours(g, B)` only if it was before or `A` is `B`. -/
theorem graph_insert_edge_one_way (g : graph) (A B : Nat) (hv : g.valid) (hA : A ∈ g.nodes)
    (hnew : ¬ neighbour_of g A B) :
    ∃ g' l, graph_insert_edge g A B = some g' ∧ graph_neighbours g A = some l ∧
      graph_neighbours g' A = some (B :: l) ∧ neighbour_of g' A B ∧
      (∀ n, n ≠ A → graph_neighbours g' n = graph_neighbours g n) ∧
      (neighbour_of g' B A ↔ (neighbour_of g B A ∨ A = B)) := by
  obtain ⟨nd, hnd⟩ := live_iff.mp (hv.1 A hA)
  have hl : graph_neighbours g A = some nd.neighbours := by
    unfold graph_neighbours; rw [hnd]; rfl
  have hB : B ∉ nd.neighbours := fun h => hnew ⟨nd.neighbours, hl, h⟩
  have hscan := insert_edge_scan_total g B nd.neighbours
    (fun m hm => closed_iff.mp hv.2 A nd hnd m hm)
  have hg : graph_insert_edge g A B = some { g with
      heap := g.heap.set A (some { nd with neighbours := B :: nd.neighbours })
      edgecount := int_wrap (g.edgecount + 1) } := by
    unfold graph_insert_edge
    rw [hnd]
    dsimp only
    rw [hscan]
    simp [hB]
  have hd : ∀ p, graph.deref { g with
      heap := g.heap.set A (some { nd with neighbours := B :: nd.neighbours })
      edgecount := int_wrap (g.edgecount + 1) } p
      = if p = A then some { nd with neighbours := B :: nd.neighbours } else g.deref p :=
    fun p => cell_set g.heap A p _ (deref_lt hnd)
  have hA' : graph_neighbours { g with
      heap := g.heap.set A (some { nd with neighbours := B :: nd.neighbours })
      edgecount := int_wrap (g.edgecount + 1) } A = some (B :: nd.neighbours) := by
    unfold graph_neighbours; rw [hd A, if_pos rfl]; rfl
  have hother : ∀ n, n ≠ A → graph_neighbours { g with
      heap := g.heap.set A (some { nd with neighbours := B :: nd.neighbours })
      edgecount := int_wrap (g.edgecount + 1) } n = graph_neighbours g n := by
    intro n hn
    unfold graph_neighbours; rw [hd n, if_neg hn]
  refine ⟨_, nd.neighbours, hg, hl, hA', ⟨_, hA', List.mem_cons_self _ _⟩, hother, ?_⟩
  by_cases hAB : A = B
  · subst hAB
    simp only [or_true, iff_true]
    exact ⟨_, hA', List.mem_cons_self _ _⟩
  · have hBA : B ≠ A := fun h => hAB h.symm
    unfold neighbour_of
    rw [hother B hBA]
    simp [hAB]

/-- C4, witness: the amended statement at the two nodes without an edge. -/
theorem graph_insert_edge_one_way_witness :
    two_nodes_graph.valid ∧ 0 ∈ two_nodes_graph.nodes ∧ ¬ neighbour_of two_nodes_graph 0 1 ∧
      ∃ g' l, graph_insert_edge two_nodes_graph 0 1 = some g' ∧
        graph_neighbours two_nodes_graph 0 = some l ∧
        graph_neighbours g' 0 = some (1 :: l) ∧ neighbour_of g' 0 1 ∧
        (∀ n, n ≠ 0 → graph_neighbours g' n = graph_neighbours two_nodes_graph n) ∧
        (neighbour_of g' 1 0 ↔ (neighbour_of two_nodes_graph 1 0 ∨ 0 = 1)) :=
  ⟨by decide, by decide, by decide,
    graph_insert_edge_one_way two_nodes_graph 0 1 (by decide) (by decide) (by decide)⟩

/-- C5, counterexample: "A" has the neighbours "B" and "C", and "B" has the neighbour "A";
after one call `graph_delete_edge(g, A, B)` the entry "B" is gone from the neighbours of
"A", but "A" is still in the neighbours of "B". -/
theorem graph_delete_edge_not_reciprocal :
    three_nodes_graph.valid ∧ 0 ∈ three_nodes_graph.nodes ∧ 1 ∈ three_nodes_graph.nodes ∧
      ∃ g', graph_delete_edge three_nodes_graph 0 1 = some g' ∧
        ¬ neighbour_of g' 0 1 ∧ neighbour_of g' 1 0 :=
  ⟨by decide, by decide, by decide,
    { heap := [some { name := "A", seen := false, neighbours := [2] },
               some { name := "B", seen := false, neighbours := [0] },
               some { name := "C", seen := false, neighbours := [] }],
      nodes := [2, 1, 0], edgecount := 2, nodecount := 3, maxnodes := 3 },
    by decide, by decide, by decide⟩

/-- C5 (amended): when `graph_neighbours(g, A)` holds no entry twice and `B` is not its last
entry, `graph_delete_edge(g, A, B)` returns, `B` is not in `graph_neighbours(g, A)`
afterwards (the other entries keep their order), and the neighbour list of every other
node, `B` included, is as before. -/
theorem graph_delete_edge_one_way (g : graph) (A B : Nat) (l : List Nat)
    (hl : graph_neighbours g A = some l) (hnd : l.Nodup) (hlast : l.getLast? ≠ some B) :
    ∃ g', graph_delete_edge g A B = some g' ∧
      graph_neighbours g' A = some (l.erase B) ∧ ¬ neighbour_of g' A B ∧
      (∀ n, n ≠ A → graph_neighbours g' n = graph_neighbours g n) := by
  unfold graph_neighbours at hl
  cases hc : g.deref A with
  | none => rw [hc] at hl; simp at hl
  | some nd =>
    rw [hc] at hl
    have hnl : nd.neighbours = l := by simpa using hl
    subst hnl
    have hg := graph_delete_edge_eq B hc hnd
    rw [if_neg hlast] at hg
    have hd : ∀ p, graph.deref { g with
        heap := g.heap.set A (some { nd with neighbours := nd.neighbours.erase B })
        edgecount := if B ∈ nd.neighbours then int_wrap (g.edgecount - 1) else g.edgecount } p
        = if p = A then some { nd with neighbours := nd.neighbours.erase B }
          else g.deref p :=
      fun p => cell_set g.heap A p _ (deref_lt hc)
    have hA' : graph_neighbours { g with
        heap := g.heap.set A (some { nd with neighbours := nd.neighbours.erase B })
        edgecount := if B ∈ nd.neighbours then int_wrap (g.edgecount - 1) else g.edgecount } A
        = some (nd.neighbours.erase B) := by
      unfold graph_neighbours; rw [hd A, if_pos rfl]; rfl
    refine ⟨_, hg, hA', ?_, ?_⟩
    · rintro ⟨l', h1, h2⟩
      rw [hA'] at h1
      have : nd.neighbours.erase B = l' := by simpa using h1
      subst this
      exact hnd.not_mem_erase h2
    · intro n hn
      unfold graph_neighbours; rw [hd n, if_neg hn]

/-- C5, witness: the amended statement at the graph of the counterexample. -/
theorem graph_delete_edge_one_way_witness :
    graph_neighbours three_nodes_graph 0 = some [1, 2] ∧ [1, 2].Nodup ∧
      [1, 2].getLast? ≠ some 1 ∧
      ∃ g', graph_delete_edge three_nodes_graph 0 1 = some g' ∧
        graph_neighbours g' 0 = some ([1, 2].erase 1) ∧ ¬ neighbour_of g' 0 1 ∧
        (∀ n, n ≠ 0 → graph_neighbours g' n = graph_neighbours three_nodes_graph n) :=
  ⟨by decide, by decide, by decide,
    graph_delete_edge_one_way three_nodes_graph 0 1 [1, 2] (by decide) (by decide)
      (by decide)⟩

/-- C6: for every capacity and every finite sequence of `graph_insert_node` calls on
`graph_empty(capacity)`, no two nodes of the resulting graph have the same name: the list
of the nodes' names has one name per node and no name twice.  The calls do return a
graph whenever every name fits the name buffer. -/
theorem insert_nodes_unique_names (max_nodes fresh_edgecount : Int) (names : List String) :
    (∀ g, insert_nodes (graph_empty max_nodes fresh_edgecount) names = some g →
      (node_names g).length = g.nodes.length ∧ (node_names g).Nodup) ∧
    ((∀ s ∈ names, s.length ≤ 40) →
      ∃ g, insert_nodes (graph_empty max_nodes fresh_edgecount) names = some g) := by
  constructor
  · intro g h
    exact node_names_nodup (built_wf (insert_nodes_built names _ g
      (built.empty max_nodes fresh_edgecount) h))
  · intro hlen
    exact insert_nodes_total names _ (built.empty max_nodes fresh_edgecount) hlen

/-- C6, witness: the names "X", "Y", "X" inserted into `graph_empty(8)` leave the two nodes
"Y" and "X". -/
theorem insert_nodes_unique_names_witness :
    (∀ s ∈ ["X", "Y", "X"], s.length ≤ 40) ∧
      (∃ g, insert_nodes (graph_empty 8 0) ["X", "Y", "X"] = some g ∧
        node_names g = ["Y", "X"] ∧
        (node_names g).length = g.nodes.length ∧ (node_names g).Nodup) := by
  refine ⟨by decide, ?_⟩
  obtain ⟨g, hg⟩ := (insert_nodes_unique_names 8 0 ["X", "Y", "X"]).2 (by decide)
  have h2 := (insert_nodes_unique_names 8 0 ["X", "Y", "X"]).1 g hg
  refine ⟨g, hg, ?_, h2⟩
  have hg2 : insert_nodes (graph_empty 8 0) ["X", "Y", "X"] = some
      { heap := [some { name := "X", seen := false, neighbours := [] },
                 some { name := "Y", seen := false, neighbours := [] }],
        nodes := [1, 0], edgecount := 0, nodecount := 2, maxnodes := 8 } := by decide
  rw [hg2] at hg
  have : g = _ := (Option.some.inj hg).symm
  rw [this]
  decide

/-- C7: when the entries of `g->nodes` can be read and `g` already holds a node named `s`,
`graph_insert_node(g, s)` returns the graph unchanged: node list, cells (names, neighbour
lists, seen flags), node count and edge count are as before. -/
theorem graph_insert_node_duplicate (g : graph) (s : String)
    (hn : ∀ p ∈ g.nodes, g.live p) (hs : has_name g s) :
    graph_insert_node g s = some g := by
  unfold graph_insert_node graph_insert_node_out
  by_cases hc : g.nodecount < g.maxnodes
  · rw [if_pos hc]
    rcases insert_node_scan_spec g s g.nodes hn with ⟨h1, _⟩ | ⟨_, h2⟩
    · rw [h1]; rfl
    · obtain ⟨p, hp, nd, hnd, hname⟩ := hs
      exact absurd hname (h2 p hp nd hnd)
  · rw [if_neg hc]; rfl

/-- C7, witness: "X" inserted twice into `graph_empty(2)`; the node count stays 1. -/
theorem graph_insert_node_duplicate_witness :
    graph_insert_node (graph_empty 2 0) "X" = some (x_graph 2) ∧
      (∀ p ∈ (x_graph 2).nodes, (x_graph 2).live p) ∧ has_name (x_graph 2) "X" ∧
      graph_insert_node (x_graph 2) "X" = some (x_graph 2) ∧ (x_graph 2).nodecount = 1 :=
  ⟨by decide, by decide, ⟨0, by decide, _, rfl, rfl⟩,
    graph_insert_node_duplicate (x_graph 2) "X" (by decide) ⟨0, by decide, _, rfl, rfl⟩,
    rfl⟩

/-- C8: when the node count of `g` equals its capacity, `graph_insert_node(g, s)` returns
the graph unchanged for every name `s`; the node count does not grow. -/
theorem graph_insert_node_full (g : graph) (s : String) (hfull : g.nodecount = g.maxnodes) :
    graph_insert_node g s = some g := by
  unfold graph_insert_node graph_insert_node_out
  have hc : ¬ g.nodecount < g.maxnodes := by omega
  rw [if_neg hc]
  rfl

/-- C8, witness: three distinct inserts into `graph_empty(3)`, then a fourth; the node
count stays 3. -/
theorem graph_insert_node_full_witness :
    insert_nodes (graph_empty 3 0) ["A", "B", "C"] = some abc_graph ∧
      abc_graph.nodecount = abc_graph.maxnodes ∧
      graph_insert_node abc_graph "D" = some abc_graph ∧ abc_graph.nodecount = 3 :=
  ⟨by decide, by decide, graph_insert_node_full abc_graph "D" (by decide), rfl⟩

/-- C9, counterexample: `graph_insert_node` hands back the same value after a successful
insert and after a rejection (the graph with the one node "X", once from the insert into
the empty graph and once from the rejected second insert, for a full graph and for a
duplicate name), so no reading of the returned value tells the outcomes apart. -/
theorem graph_insert_node_return_ambiguous :
    graph_insert_node_out (graph_empty 1 0) "X" = some (x_graph 1, []) ∧
      graph_insert_node_out (x_graph 1) "X" = some (x_graph 1, [warning_full]) ∧
      graph_insert_node_out (graph_empty 2 0) "X" = some (x_graph 2, []) ∧
      graph_insert_node_out (x_graph 2) "X" = some (x_graph 2, [warning_duplicate]) ∧
      ¬ ∃ tell : graph → List String, ∀ g s g' out,
          graph_insert_node_out g s = some (g', out) → tell g' = out := by
  have h1 : graph_insert_node_out (graph_empty 1 0) "X" = some (x_graph 1, []) := by decide
  have h2 : graph_insert_node_out (x_graph 1) "X" = some (x_graph 1, [warning_full]) := by
    decide
  refine ⟨h1, h2, by decide, by decide, ?_⟩
  rintro ⟨tell, ht⟩
  have a := ht _ _ _ _ h1
  have b := ht _ _ _ _ h2
  rw [a] at b
  exact absurd b (by decide)

/-- C9 (amended): `graph_insert_node` returns the graph in every case, changed only by a
successful insert; the outcomes are told apart by what is printed: nothing after a
successful insert (there was room and no node of that name), "Warning: Graph full!" when
the node count is not below the capacity, and "Warning: A node with that name already
exists in the graph!" when there is room and a node of that name. -/
theorem graph_insert_node_outcome (g : graph) (s : String)
    (hn : ∀ p ∈ g.nodes, g.live p) (hlen : s.length ≤ 40) :
    ∃ g' out, graph_insert_node_out g s = some (g', out) ∧
      graph_insert_node g s = some g' ∧
      (out = [] ↔ (g.nodecount < g.maxnodes ∧ ¬ has_name g s)) ∧
      (out = [warning_full] ↔ ¬ g.nodecount < g.maxnodes) ∧
      (out = [warning_duplicate] ↔ (g.nodecount < g.maxnodes ∧ has_name g s)) ∧
      (out ≠ [] → g' = g) := by
  have hne : warning_duplicate ≠ warning_full := by decide
  obtain ⟨r, hr⟩ := graph_insert_node_total hn hlen
  have hret : graph_insert_node g s = some r.1 := by
    unfold graph_insert_node; rw [hr]; rfl
  refine ⟨r.1, r.2, hr, hret, ?_⟩
  rcases graph_insert_node_out_cases hr with ⟨hc, h⟩ | ⟨hc, hsc, h⟩ | ⟨hc, hsc, _, h⟩
  · rw [h]
    simp [hc, hne.symm]
  · have hname : has_name g s := by
      rcases insert_node_scan_spec g s g.nodes hn with ⟨_, k⟩ | ⟨k, _⟩
      · exact k
      · rw [k] at hsc; simp at hsc
    rw [h]
    simp [hc, hname, hne]
  · have hname : ¬ has_name g s := by
      rcases insert_node_scan_spec g s g.nodes hn with ⟨k, _⟩ | ⟨_, k⟩
      · rw [k] at hsc; simp at hsc
      · rintro ⟨p, hp, nd, hnd, hnm⟩
        exact k p hp nd hnd hnm
    rw [h]
    simp [hc, hname]

/-- C9, witness: the second insert of "X" into a graph with room prints the duplicate
warning and returns the graph as it was. -/
theorem graph_insert_node_outcome_witness :
    (∀ p ∈ (x_graph 2).nodes, (x_graph 2).live p) ∧ "X".length ≤ 40 ∧
      ∃ g' out, graph_insert_node_out (x_graph 2) "X" = some (g', out) ∧
        graph_insert_node (x_graph 2) "X" = some g' ∧
        (out = [] ↔ ((x_graph 2).nodecount < (x_graph 2).maxnodes ∧
          ¬ has_name (x_graph 2) "X")) ∧
        (out = [warning_full] ↔ ¬ (x_graph 2).nodecount < (x_graph 2).maxnodes) ∧
        (out = [warning_duplicate] ↔ ((x_graph 2).nodecount < (x_graph 2).maxnodes ∧
          has_name (x_graph 2) "X")) ∧
        (out ≠ [] → g' = x_graph 2) :=
  ⟨by decide, by decide, graph_insert_node_outcome (x_graph 2) "X" (by decide) (by decide)⟩

/-- C10: when the entries of `g->nodes` can be read, `graph_find_node(g, s)` returns a node
exactly when `g` holds a node whose name equals `s` as a whole string; the node returned
is an entry of `g->nodes` with that name; otherwise the call ends in the not-found
failure. -/
theorem graph_find_node_exact (g : graph) (s : String) (hn : ∀ p ∈ g.nodes, g.live p) :
    ((∃ p, graph_find_node g s = lookup.found p) ↔ has_name g s) ∧
      (∀ p, graph_find_node g s = lookup.found p →
        p ∈ g.nodes ∧ ∃ nd, g.deref p = some nd ∧ nd.name = s) ∧
      (¬ has_name g s → graph_find_node g s = lookup.not_found) := by
  unfold graph_find_node
  rcases find_node_scan_spec g s g.nodes hn with ⟨p, hp, nd, h1, h2, h3⟩ | ⟨h1, h2⟩
  · have hname : has_name g s := ⟨p, hp, nd, h2, h3⟩
    refine ⟨⟨fun _ => hname, fun _ => ⟨p, h1⟩⟩, ?_, fun h => absurd hname h⟩
    intro q hq
    rw [h1] at hq
    have : p = q := by simpa using hq
    subst this
    exact ⟨hp, nd, h2, h3⟩
  · have hname : ¬ has_name g s := by
      rintro ⟨p, hp, nd, hnd, hnm⟩
      exact h2 p hp nd hnd hnm
    refine ⟨⟨?_, fun h => absurd h hname⟩, ?_, fun _ => h1⟩
    · rintro ⟨p, hp⟩
      rw [h1] at hp
      exact absurd hp (by simp)
    · intro p hp
      rw [h1] at hp
      exact absurd hp (by simp)

/-- C10, witness: in the graph with the one node "UME" the name "UME" is found, while the
proper prefix "UM" and the proper extension "UMEA" end in not-found. -/
theorem graph_find_node_exact_witness :
    (∀ p ∈ ume_graph.nodes, ume_graph.live p) ∧
      graph_find_node ume_graph "UME" = lookup.found 0 ∧
      graph_find_node ume_graph "UM" = lookup.not_found ∧
      graph_find_node ume_graph "UMEA" = lookup.not_found ∧
      (((∃ p, graph_find_node ume_graph "UM" = lookup.found p) ↔ has_name ume_graph "UM") ∧
        (∀ p, graph_find_node ume_graph "UM" = lookup.found p →
          p ∈ ume_graph.nodes ∧ ∃ nd, ume_graph.deref p = some nd ∧ nd.name = "UM") ∧
        (¬ has_name ume_graph "UM" → graph_find_node ume_graph "UM" = lookup.not_found)) :=
  ⟨by decide, by decide, by decide, by decide,
    graph_find_node_exact ume_graph "UM" (by decide)⟩

/-- C11, the code at the failing input: from `graph_empty(2)` on memory whose `edgecount`
word held 7, with the nodes "A" and "B" and no edge, the first
`graph_insert_edge(g, A, B)` gives edge count 8, and the second call right after it
returns the same graph, as the claim says; but the edge count of this graph with no
edges, after the edge was inserted twice, is 8, not 1. -/
theorem graph_insert_edge_twice_count :
    edges_built 7 (fresh_two_nodes_graph 7) ∧ entry_count (fresh_two_nodes_graph 7) = 0 ∧
      graph_insert_edge (fresh_two_nodes_graph 7) 0 1 = some (fresh_one_way_graph 8) ∧
      graph_insert_edge (fresh_one_way_graph 8) 0 1 = some (fresh_one_way_graph 8) ∧
      (fresh_one_way_graph 8).edgecount = 8 :=
  ⟨fresh_two_nodes_edges_built 7, by decide, by decide, by decide, by decide⟩

/-- C17: when the entries of `g->nodes` can be read, `A` is a node of `g` and `B` is not in
`graph_neighbours(g, A)`, the call `graph_delete_edge(g, A, B)` returns the graph
unchanged: node list, cells (names, neighbour lists, seen flags), node count and edge
count are as before. -/
theorem graph_delete_edge_absent (g : graph) (A B : Nat) (hn : ∀ p ∈ g.nodes, g.live p)
    (hA : A ∈ g.nodes) (hno : ¬ neighbour_of g A B) :
    graph_delete_edge g A B = some g := by
  obtain ⟨nd, hnd⟩ := live_iff.mp (hn A hA)
  have hB : B ∉ nd.neighbours := by
    intro h
    exact hno ⟨nd.neighbours, by unfold graph_neighbours; rw [hnd]; rfl, h⟩
  unfold graph_delete_edge
  rw [hnd]
  dsimp only
  rw [delete_edge_loop_absent B nd.neighbours [] g.edgecount hB]
  dsimp only
  rw [List.nil_append, cell_set_same g.heap A (some nd) hnd]

/-- C17, witness: in the graph with the single entry "A" to "B", deleting the edge from
"B" to "A", which is not there, leaves the graph as it was. -/
theorem graph_delete_edge_absent_witness :
    (∀ p ∈ one_way_graph.nodes, one_way_graph.live p) ∧ 1 ∈ one_way_graph.nodes ∧
      ¬ neighbour_of one_way_graph 1 0 ∧
      graph_delete_edge one_way_graph 1 0 = some one_way_graph :=
  ⟨by decide, by decide, by decide,
    graph_delete_edge_absent one_way_graph 1 0 (by decide) (by decide) (by decide)⟩

/-- C18, the code at the failing input: `graph_empty` leaves `edgecount` as found in the
fresh memory, so `graph_has_edges` on the new graph is true whenever that memory holds a
positive number, although `graph_is_empty` is true; with the value 1 in the memory,
`graph_has_edges(graph_empty(8))` is true. -/
theorem graph_empty_has_edges (max_nodes fresh_edgecount : Int) :
    graph_is_empty (graph_empty max_nodes fresh_edgecount) = true ∧
      graph_has_edges (graph_empty max_nodes fresh_edgecount) = decide (0 < fresh_edgecount) ∧
      graph_has_edges (graph_empty 8 1) = true := by
  refine ⟨rfl, ?_, by decide⟩
  unfold graph_has_edges graph_empty
  simp

/-- C19, counterexample: `graph_empty(0)` and `graph_empty(-3)` report no failure; each
returns an empty graph like any other, on which `graph_insert_node` is rejected as
full. -/
theorem graph_empty_accepts_no_capacity :
    graph_empty 0 0 = { heap := [], nodes := [], edgecount := 0, nodecount := 0,
                        maxnodes := 0 } ∧
      graph_is_empty (graph_empty 0 0) = true ∧
      graph_insert_node_out (graph_empty 0 0) "X" = some (graph_empty 0 0, [warning_full]) ∧
      graph_is_empty (graph_empty (-3) 0) = true ∧
      graph_insert_node_out (graph_empty (-3) 0) "X"
        = some (graph_empty (-3) 0, [warning_full]) := by
  decide

/-- C19 (amended): `graph_empty(max_nodes)` returns an empty graph of that capacity for
every `max_nodes`, positive or not, and reports no failure.  With `max_nodes <= 0` the
graph is full from the start: every `graph_insert_node` on it is rejected with the full
warning.  With `max_nodes > 0` a first insert of a name that fits the buffer succeeds. -/
theorem graph_empty_any_capacity (max_nodes fresh_edgecount : Int) :
    graph_is_empty (graph_empty max_nodes fresh_edgecount) = true ∧
      (graph_empty max_nodes fresh_edgecount).maxnodes = max_nodes ∧
      (graph_empty max_nodes fresh_edgecount).nodecount = 0 ∧
      (max_nodes ≤ 0 → ∀ s, graph_insert_node_out (graph_empty max_nodes fresh_edgecount) s
        = some (graph_empty max_nodes fresh_edgecount, [warning_full])) ∧
      (0 < max_nodes → ∀ s : String, s.length ≤ 40 →
        ∃ g', graph_insert_node_out (graph_empty max_nodes fresh_edgecount) s = some (g', []) ∧
          g'.nodecount = 1 ∧ node_names g' = [s]) := by
  refine ⟨rfl, rfl, rfl, ?_, ?_⟩
  · intro h s
    have hc : ¬ (0 : Int) < max_nodes := by omega
    simp [graph_insert_node_out, graph_empty, hc]
  · intro h s hs
    have hlen : s.length < 41 := by omega
    refine ⟨{ heap := [some { name := s, seen := false, neighbours := [] }], nodes := [0],
              edgecount := fresh_edgecount, nodecount := 0 + 1, maxnodes := max_nodes },
      ?_, ?_, ?_⟩
    · simp [graph_insert_node_out, graph_empty, h, insert_node_scan, strcpy, hlen]
    · simp
    · simp [node_names, graph.deref]

/-- C19, witness: capacity 0 gives a graph that rejects "X" as full; capacity 8 gives a
graph that takes "X". -/
theorem graph_empty_any_capacity_witness :
    (0 : Int) ≤ 0 ∧ (0 : Int) < 8 ∧ "X".length ≤ 40 ∧
      graph_insert_node_out (graph_empty 0 0) "X" = some (graph_empty 0 0, [warning_full]) ∧
      ∃ g', graph_insert_node_out (graph_empty 8 0) "X" = some (g', []) ∧
        g'.nodecount = 1 ∧ node_names g' = ["X"] :=
  ⟨by decide, by decide, by decide,
    (graph_empty_any_capacity 0 0).2.2.2.1 (by decide) "X",
    (graph_empty_any_capacity 8 0).2.2.2.2 (by decide) "X" (by decide)⟩

/-- C20: when the entries of `g->nodes` can be read, `graph_reset_seen(g)` returns, and
afterwards `graph_node_is_seen` is false for every node of `g`, whatever the flags were
before; the node list is as before and nothing but seen flags has changed. -/
theorem graph_reset_seen_clears (g : graph) (hn : ∀ p ∈ g.nodes, g.live p) :
    ∃ g', graph_reset_seen g = some g' ∧ g'.nodes = g.nodes ∧ g'.skeleton = g.skeleton ∧
      ∀ p ∈ g.nodes, graph_node_is_seen g' p = some false := by
  obtain ⟨g', h1, h2, h3⟩ := reset_seen_loop_spec g.nodes g hn
  refine ⟨g', h1, skeleton_nodes h2, h2, ?_⟩
  intro p hp
  rw [is_seen_of_live ((skeleton_live h2 p).mpr (hn p hp)), h3 p, if_pos hp]

/-- C20, witness: the graph with a stale seen flag on "B". -/
theorem graph_reset_seen_clears_witness :
    (∀ p ∈ stale_graph.nodes, stale_graph.live p) ∧
      graph_node_is_seen stale_graph 1 = some true ∧
      ∃ g', graph_reset_seen stale_graph = some g' ∧ g'.nodes = stale_graph.nodes ∧
        g'.skeleton = stale_graph.skeleton ∧
        ∀ p ∈ stale_graph.nodes, graph_node_is_seen g' p = some false :=
  ⟨by decide, by decide, graph_reset_seen_clears stale_graph (by decide)⟩

/-- C12, counterexample: with the edge between "A" and "B" inserted in both directions
(from `graph_empty` on memory that held 0) one unordered pair of nodes is connected, while
the edge count is 2, the number of neighbour entries. -/
theorem edgecount_counts_both_directions :
    built both_ways_graph ∧ connected_pairs both_ways_graph = 1 ∧
      both_ways_graph.edgecount = 2 ∧ entry_count both_ways_graph = 2 :=
  ⟨edges_built_built both_ways_edges_built, by decide, by decide, by decide⟩

/-- C12 (amended): in every graph made from `graph_empty` by calls of `graph_insert_node`,
`graph_insert_edge` and `graph_delete_edge` on nodes of the graph, the edge count is the
value it started from in `graph_empty` plus the total number of neighbour entries, taken
in the arithmetic of `int` (it wraps at `INT_MAX`); as long as that sum fits an `int` the
edge count exceeds the start value by exactly the number of entries: a pair of nodes
connected in both directions counts twice. -/
theorem edgecount_follows_entries (fresh_edgecount : Int) (g : graph)
    (hf : in_int fresh_edgecount) (h : edges_built fresh_edgecount g) :
    g.edgecount = int_wrap (fresh_edgecount + entry_count g) ∧
      (fresh_edgecount + entry_count g ≤ INT_MAX →
        g.edgecount = fresh_edgecount + entry_count g) := by
  have hw := edges_built_edgecount hf h
  refine ⟨hw, fun hle => ?_⟩
  rw [hw]
  unfold in_int INT_MIN at hf
  unfold INT_MAX at hle
  unfold int_wrap
  omega

/-- C12, witness: from memory that held 0, the two nodes with the edge inserted in both
directions have edge count 2 for two entries; from memory that held `INT_MAX`, the one
entry from "A" to "B" takes the edge count to `INT_MIN`. -/
theorem edgecount_follows_entries_witness :
    (in_int 0 ∧ edges_built 0 both_ways_graph ∧
      0 + (entry_count both_ways_graph : Int) ≤ INT_MAX ∧
      both_ways_graph.edgecount = 2 ∧ entry_count both_ways_graph = 2 ∧
      both_ways_graph.edgecount = 0 + entry_count both_ways_graph) ∧
    (in_int 2147483647 ∧ edges_built 2147483647 (fresh_one_way_graph (-2147483648)) ∧
      entry_count (fresh_one_way_graph (-2147483648)) = 1 ∧
      (fresh_one_way_graph (-2147483648)).edgecount
        = int_wrap (2147483647 + entry_count (fresh_one_way_graph (-2147483648)))) :=
  ⟨⟨by decide, both_ways_edges_built, by decide, by decide, by decide,
      (edgecount_follows_entries 0 both_ways_graph (by decide) both_ways_edges_built).2
        (by decide)⟩,
    ⟨by decide, wrapped_edges_built, by decide,
      (edgecount_follows_entries 2147483647 (fresh_one_way_graph (-2147483648)) (by decide)
        wrapped_edges_built).1⟩⟩

/-- C13, the code at the failing inputs: `graph_empty(3)` on memory that held 7 has edge
count 7 and no neighbour entry; and from `graph_empty(3)` on memory that held 0, after the
nodes "A", "B", "C" and `graph_insert_edge(g, B, A)`, the call `graph_delete_node(g, B)`
returns a graph with edge count 1 and no neighbour entry. -/
theorem edgecount_misses_entries :
    built (graph_empty 3 7) ∧ (graph_empty 3 7).edgecount = 7 ∧
      entry_count (graph_empty 3 7) = 0 ∧
      built b_to_a_graph ∧ 1 ∈ b_to_a_graph.nodes ∧
      b_to_a_graph.edgecount = 1 ∧ entry_count b_to_a_graph = 1 ∧
      ∃ g', graph_delete_node b_to_a_graph 1 = some g' ∧ built g' ∧
        g'.edgecount = 1 ∧ entry_count g' = 0 := by
  have hd : graph_delete_node b_to_a_graph 1 = some
      { heap := [some { name := "A", seen := false, neighbours := [] }, none,
                 some { name := "C", seen := false, neighbours := [] }],
        nodes := [2, 0], edgecount := 1, nodecount := 2, maxnodes := 3 } := by decide
  exact ⟨built.empty 3 7, by decide, by decide, b_to_a_built, by decide, by decide,
    by decide, _, hd, built.delete_node 1 b_to_a_built (by decide) hd, by decide, by decide⟩

/-- C14, the code at the failing input: in the graph with the single entry "A" to "B",
`graph_delete_node(g, B)` does not return a graph: its call `graph_delete_edge(g, A, B)`
unlinks the last entry of the neighbours of "A" and then reads through the NULL position
that `dlist_next` gives at the end of the list. -/
theorem graph_delete_node_breaks_at_last_neighbour :
    built one_way_graph ∧ 1 ∈ one_way_graph.nodes ∧
      graph_neighbours one_way_graph 0 = some [1] ∧
      graph_delete_edge one_way_graph 0 1 = none ∧
      graph_delete_node one_way_graph 1 = none :=
  ⟨one_way_built, by decide, by decide, by decide, by decide⟩

/-- C15, the code at the failing input: deleting the node that was inserted first, the
last entry of `g->nodes`, does not return a graph, in the graph with the one node "X" and
in the graph with the nodes "A", "B", "C" and no edge: the second loop of
`graph_delete_node` unlinks the last entry and then reads through the NULL position. -/
theorem graph_delete_node_breaks_at_oldest_node :
    built (x_graph 1) ∧ 0 ∈ (x_graph 1).nodes ∧ graph_delete_node (x_graph 1) 0 = none ∧
      built abc_graph ∧ 0 ∈ abc_graph.nodes ∧ graph_delete_node abc_graph 0 = none :=
  ⟨x_built, by decide, by decide, abc_built, by decide, by decide⟩

/-- C16, the code at the failing input: in the graph with the nodes "A", "B", "C" and the
edges A–B and B–C, each inserted in both directions (edge count 4),
`graph_delete_node(g, B)` does not return a graph, so the edge count is not lowered by 2:
"B" is the last entry of the neighbours of "C" and of "A". -/
theorem graph_delete_node_breaks_in_scenario :
    built path_graph ∧ 1 ∈ path_graph.nodes ∧ path_graph.edgecount = 4 ∧
      graph_neighbours path_graph 2 = some [1] ∧ graph_neighbours path_graph 0 = some [1] ∧
      graph_delete_node path_graph 1 = none :=
  ⟨path_built, by decide, by decide, by decide, by decide, by decide⟩

/-- C21: when the entries of `g->nodes` can be read and the seen flag of every node is
already false, `graph_reset_seen(g)` returns a graph equal to `g` (same nodes in the same
order, same cells, same counts); and for any flags a second `graph_reset_seen` right after a
first one returns the graph of the first unchanged. -/
theorem graph_reset_seen_noop (g : graph) (hn : ∀ p ∈ g.nodes, g.live p) :
    ((∀ p ∈ g.nodes, graph_node_is_seen g p = some false) → graph_reset_seen g = some g) ∧
      ∃ g', graph_reset_seen g = some g' ∧ graph_reset_seen g' = some g' := by
  constructor
  · intro hu
    exact reset_seen_loop_same g.nodes g hu
  · obtain ⟨g', h1, h2, h3⟩ := reset_seen_loop_spec g.nodes g hn
    refine ⟨g', h1, ?_⟩
    unfold graph_reset_seen
    apply reset_seen_loop_same
    intro p hp
    rw [skeleton_nodes h2] at hp
    rw [is_seen_of_live ((skeleton_live h2 p).mpr (hn p hp)), h3 p, if_pos hp]

/-- C21, witness: on the graph without a set flag the call returns the graph itself; on
the graph with a stale flag the second call changes nothing. -/
theorem graph_reset_seen_noop_witness :
    (∀ p ∈ one_way_graph.nodes, one_way_graph.live p) ∧
      (∀ p ∈ one_way_graph.nodes, graph_node_is_seen one_way_graph p = some false) ∧
      graph_reset_seen one_way_graph = some one_way_graph ∧
      graph_reset_seen stale_graph = some one_way_graph ∧
      ∃ g', graph_reset_seen stale_graph = some g' ∧ graph_reset_seen g' = some g' :=
  ⟨by decide, by decide,
    (graph_reset_seen_noop one_way_graph (by decide)).1 (by decide), by decide,
    (graph_reset_seen_noop stale_graph (by decide)).2⟩

/-- C22: on every graph whose cells can be read and in which no seen flag is set, for
nodes `src` and `dest` of the graph, `find_path(g, src, dest)` returns, and it returns true
exactly when `dest` is reached from `src` by following neighbour entries zero or more
times. -/
theorem find_path_reachable (g : graph) (src dest : Nat) (hv : g.valid) (hu : g.unseen)
    (hs : src ∈ g.nodes) (hd : dest ∈ g.nodes) :
    ∃ b g', find_path g src dest = some (b, g') ∧ (b = true ↔ reachable g src dest) := by
  obtain ⟨g', h1, _, _, _, h5⟩ := find_path_spec hv.2 (hv.1 src hs) (hv.1 dest hd)
  exact ⟨g'.seenb dest, g', h1, h5 hu dest⟩

/-- C22, witness: the graph with the edge between "A" and "B" in both directions. -/
theorem find_path_reachable_witness :
    both_ways_graph.valid ∧ both_ways_graph.unseen ∧
      (find_path both_ways_graph 1 0).map Prod.fst = some true ∧
      ∃ b g', find_path both_ways_graph 1 0 = some (b, g') ∧
        (b = true ↔ reachable both_ways_graph 1 0) :=
  ⟨by decide, by decide, by decide,
    find_path_reachable both_ways_graph 1 0 (by decide) (by decide) (by decide) (by decide)⟩

/-- C23: on every graph whose cells can be read, whatever the seen flags are, the queue
loop of `find_path` ends: after `src` is marked the loop returns within one round per
cell of the memory and one more, more rounds do not change what it returns, and
`find_path` returns an answer. -/
theorem find_path_terminates (g : graph) (src dest : Nat) (hv : g.valid)
    (hs : src ∈ g.nodes) (hd : dest ∈ g.nodes) :
    ∃ g1 g2, graph_node_set_seen g src true = some g1 ∧
      (∀ fuel, g.heap.length + 1 ≤ fuel →
        find_path_loop fuel g1 (queue_enqueue queue_empty src) = some g2) ∧
      ∃ b, find_path g src dest = some (b, g2) := by
  obtain ⟨g1, hg1⟩ := set_seen_some true (hv.1 src hs)
  have hsk1 := set_seen_skeleton hg1
  have hq : ∀ x ∈ queue_enqueue queue_empty src, g1.live x := by
    intro x hx
    have : x = src := by simpa [queue_enqueue, queue_empty] using hx
    subst this
    exact (skeleton_live hsk1 x).mpr (hv.1 x hs)
  have hlen := skeleton_heap_length hsk1
  have hfuel : g1.unseen_count + (queue_enqueue queue_empty src).length
      ≤ g1.heap.length + 1 := by
    have := unseen_count_le g1
    simp only [queue_enqueue, queue_empty, List.nil_append, List.length_singleton]
    omega
  obtain ⟨g2, k1, k2, _, _, _⟩ :=
    find_path_loop_spec (g1.heap.length + 1) g1 (queue_enqueue queue_empty src)
      (skeleton_closed hsk1 hv.2) hq hfuel
  have hd2 : g2.live dest := (skeleton_live (k2.trans hsk1) dest).mpr (hv.1 dest hd)
  refine ⟨g1, g2, hg1, ?_, g2.seenb dest, ?_⟩
  · intro fuel hf
    exact find_path_loop_mono k1 (by omega)
  · unfold find_path
    simp only [hg1, k1, is_seen_of_live hd2]

/-- C23, witness: the graph with the edge between "A" and "B" in both directions, a cycle,
with a stale flag on neither node. -/
theorem find_path_terminates_witness :
    both_ways_graph.valid ∧ 0 ∈ both_ways_graph.nodes ∧ 1 ∈ both_ways_graph.nodes ∧
      ∃ g1 g2, graph_node_set_seen both_ways_graph 0 true = some g1 ∧
        (∀ fuel, both_ways_graph.heap.length + 1 ≤ fuel →
          find_path_loop fuel g1 (queue_enqueue queue_empty 0) = some g2) ∧
        ∃ b, find_path both_ways_graph 0 1 = some (b, g2) :=
  ⟨by decide, by decide, by decide,
    find_path_terminates both_ways_graph 0 1 (by decide) (by decide) (by decide)⟩

/-- C26: on every graph whose cells can be read, `find_path` returns a graph with the same
nodes in the same order, the same node count, edge count and capacity, the same name and
the same neighbour list in every cell, and every node that was seen on entry is still
seen. -/
theorem find_path_frame (g : graph) (src dest : Nat) (hv : g.valid)
    (hs : src ∈ g.nodes) (hd : dest ∈ g.nodes) :
    ∃ b g', find_path g src dest = some (b, g') ∧
      g'.nodes = g.nodes ∧ g'.nodecount = g.nodecount ∧ g'.edgecount = g.edgecount ∧
      g'.maxnodes = g.maxnodes ∧
      (∀ p, (g'.deref p).map node.name = (g.deref p).map node.name) ∧
      (∀ p, graph_neighbours g' p = graph_neighbours g p) ∧
      (∀ p, graph_node_is_seen g p = some true → graph_node_is_seen g' p = some true) := by
  obtain ⟨g', h1, h2, _, h4, _⟩ := find_path_spec hv.2 (hv.1 src hs) (hv.1 dest hd)
  obtain ⟨c1, c2, c3⟩ := skeleton_counts h2
  refine ⟨g'.seenb dest, g', h1, skeleton_nodes h2, c1, c2, c3, skeleton_name h2,
    skeleton_neighbours h2, ?_⟩
  intro p hp
  obtain ⟨hl, hsn⟩ := is_seen_true_iff.mp hp
  exact is_seen_true_iff.mpr ⟨(skeleton_live h2 p).mpr hl, h4 p hsn⟩

/-- C26, witness: a query on the graph with a stale flag on "B". -/
theorem find_path_frame_witness :
    stale_graph.valid ∧
      ∃ b g', find_path stale_graph 0 0 = some (b, g') ∧
        g'.nodes = stale_graph.nodes ∧ g'.nodecount = stale_graph.nodecount ∧
        g'.edgecount = stale_graph.edgecount ∧ g'.maxnodes = stale_graph.maxnodes ∧
        (∀ p, (g'.deref p).map node.name = (stale_graph.deref p).map node.name) ∧
        (∀ p, graph_neighbours g' p = graph_neighbours stale_graph p) ∧
        (∀ p, graph_node_is_seen stale_graph p = some true →
          graph_node_is_seen g' p = some true) :=
  ⟨by decide, find_path_frame stale_graph 0 0 (by decide) (by decide) (by decide)⟩

/-- C27: on every graph whose cells can be read, when the seen flag of `dest` is already
true on entry, `find_path(g, src, dest)` returns true, whether or not `dest` is reached
from `src`: the flags are not reset by `find_path`. -/
theorem find_path_stale_flag (g : graph) (src dest : Nat) (hv : g.valid)
    (hs : src ∈ g.nodes) (hd : dest ∈ g.nodes)
    (hseen : graph_node_is_seen g dest = some true) :
    ∃ g', find_path g src dest = some (true, g') := by
  obtain ⟨g', h1, _, _, h4, _⟩ := find_path_spec hv.2 (hv.1 src hs) (hv.1 dest hd)
  rw [h4 dest (is_seen_true_iff.mp hseen).2] at h1
  exact ⟨g', h1⟩

/-- C27, witness: "A" and "B" without any edge and a stale flag on "B": "B" is not
reached from "A", yet the query from "A" to "B" returns true. -/
theorem find_path_stale_flag_witness :
    stale_apart_graph.valid ∧ 0 ∈ stale_apart_graph.nodes ∧ 1 ∈ stale_apart_graph.nodes ∧
      graph_node_is_seen stale_apart_graph 1 = some true ∧
      ¬ reachable stale_apart_graph 0 1 ∧
      ∃ g', find_path stale_apart_graph 0 1 = some (true, g') := by
  refine ⟨by decide, by decide, by decide, by decide, ?_,
    find_path_stale_flag stale_apart_graph 0 1 (by decide) (by decide) (by decide)
      (by decide)⟩
  intro h
  rcases Relation.ReflTransGen.cases_head h with h0 | ⟨c, hc, _⟩
  · exact absurd h0 (by decide)
  · obtain ⟨l, h1, h2⟩ := hc
    have hl : graph_neighbours stale_apart_graph 0 = some [] := by decide
    rw [hl] at h1
    have : l = [] := by simpa using h1.symm
    rw [this] at h2
    exact absurd h2 (List.not_mem_nil _)

/-- C24: on every graph whose cells can be read and whose neighbour entries are nodes of
the graph, during one call of `find_path` from a node `src` no node is enqueued twice
(`src` before the loop, then the entries the rounds enqueue), so the number of enqueue
operations is at most the number of nodes, and so is the length of the queue at every
test of the loop.  This holds for any seen flags on entry, in particular when all are
false. -/
theorem find_path_enqueues_once (g : graph) (src : Nat) (hv : g.valid)
    (hnc : g.nodes_closed) (hs : src ∈ g.nodes) :
    ∃ g1 rounds, graph_node_set_seen g src true = some g1 ∧
      find_path_rounds (g1.heap.length + 1) g1 (queue_enqueue queue_empty src)
        = some rounds ∧
      (src :: rounds_enqueued rounds).Nodup ∧
      (src :: rounds_enqueued rounds).length ≤ g.nodes.length ∧
      ∀ r ∈ rounds, r.1.length ≤ g.nodes.length := by
  obtain ⟨g1, hg1⟩ := set_seen_some true (hv.1 src hs)
  have hsk1 := set_seen_skeleton hg1
  have hnodes := skeleton_nodes hsk1
  have hs1 : ∀ p, g1.seenb p = if p = src then true else g.seenb p := set_seen_seenb hg1
  have hq : ∀ x ∈ queue_enqueue queue_empty src, g1.live x := by
    intro x hx
    have : x = src := by simpa [queue_enqueue, queue_empty] using hx
    subst this
    exact (skeleton_live hsk1 x).mpr (hv.1 x hs)
  have hqn : ∀ x ∈ queue_enqueue queue_empty src, x ∈ g1.nodes := by
    intro x hx
    have : x = src := by simpa [queue_enqueue, queue_empty] using hx
    subst this
    rw [hnodes]
    exact hs
  have hfuel : g1.unseen_count + (queue_enqueue queue_empty src).length
      ≤ g1.heap.length + 1 := by
    have := unseen_count_le g1
    simp only [queue_enqueue, queue_empty, List.nil_append, List.length_singleton]
    omega
  obtain ⟨rounds, k1, k2, k3, k4⟩ :=
    find_path_rounds_spec (g1.heap.length + 1) g1 (queue_enqueue queue_empty src)
      (skeleton_closed hsk1 hv.2) hq hfuel (skeleton_nodes_closed hsk1 hnc) hqn
  have hnd : (src :: rounds_enqueued rounds).Nodup := by
    refine List.nodup_cons.mpr ⟨?_, k2⟩
    intro hmem
    have := (k3 src hmem).1
    rw [hs1 src] at this
    simp at this
  have hsub : src :: rounds_enqueued rounds ⊆ g.nodes := by
    intro x hx
    rcases List.mem_cons.mp hx with hx | hx
    · rw [hx]; exact hs
    · rw [← hnodes]; exact (k3 x hx).2
  have hlen : (src :: rounds_enqueued rounds).length ≤ g.nodes.length :=
    (List.subperm_of_subset hnd hsub).length_le
  refine ⟨g1, rounds, hg1, k1, hnd, hlen, ?_⟩
  intro r hr
  obtain ⟨a, b, hab⟩ := k4 r hr
  have h1 := congrArg List.length hab
  simp only [queue_enqueue, queue_empty, List.nil_append, List.length_append,
    List.length_cons, List.length_nil] at h1 hlen
  omega

/-- C24, witness: the graph with the edge between "A" and "B" in both directions: from
"A" the two nodes are enqueued once each. -/
theorem find_path_enqueues_once_witness :
    both_ways_graph.valid ∧ both_ways_graph.nodes_closed ∧ 0 ∈ both_ways_graph.nodes ∧
      ∃ g1 rounds, graph_node_set_seen both_ways_graph 0 true = some g1 ∧
        find_path_rounds (g1.heap.length + 1) g1 (queue_enqueue queue_empty 0)
          = some rounds ∧
        (0 :: rounds_enqueued rounds).Nodup ∧
        (0 :: rounds_enqueued rounds).length ≤ both_ways_graph.nodes.length ∧
        ∀ r ∈ rounds, r.1.length ≤ both_ways_graph.nodes.length :=
  ⟨by decide, by decide, by decide,
    find_path_enqueues_once both_ways_graph 0 (by decide) (by decide) (by decide)⟩

/-- C28: for names that are C strings, `nodes_are_equal` of graph3.c is true exactly when
the two names are equal as whole strings, and so is the character loop in `graph_find_node`
of graph3.c, which thereby decides what the `strcmp` test of graph4.c decides; on every
graph whose node names are C strings and every search name, `graph_find_node` of graph3.c
and of graph4.c give the same outcome: the same node, or both the not-found failure, or
both a read of a freed cell. -/
theorem graph3_find_node_agrees (g : graph) (s : String) (hs : c_string s)
    (hnames : g.c_names) :
    (∀ n1 n2 : node, c_string n1.name → c_string n2.name →
        (graph3.nodes_are_equal n1 n2 = true ↔ n1.name = n2.name)) ∧
      (∀ n : node, c_string n.name →
        ((graph3.find_node_compare n.name.data s.data true = true ↔ n.name = s) ∧
          (graph3.find_node_compare n.name.data s.data true = true ↔
            strcmp n.name s = 0))) ∧
      graph3.graph_find_node g s = graph_find_node g s := by
  have hcmp : ∀ n : node, c_string n.name →
      (graph3.find_node_compare n.name.data s.data true = true ↔ n.name = s) := by
    intro n hn
    rw [find_node_compare_eq n.name.data s.data hn hs]
    simp [string_data_eq_iff]
  refine ⟨?_, fun n hn => ⟨hcmp n hn, (hcmp n hn).trans (strcmp_eq_zero _ _).symm⟩, ?_⟩
  · intro n1 n2 h1 h2
    unfold graph3.nodes_are_equal
    rw [nodes_are_equal_loop_eq n1.name.data n2.name.data h1 h2]
    simp [string_data_eq_iff]
  · exact graph3_find_node_scan_eq g s hs g.nodes
      (fun p hp nd hnd => hnames p hp nd hnd)

/-- C28, witness: in the graph with the nodes "C", "B", "A" both versions find "B" at the
same node, and both end in not-found for "AB", of which the name "A" is a proper prefix. -/
theorem graph3_find_node_agrees_witness :
    c_string "AB" ∧ abc_graph.c_names ∧
      graph3.graph_find_node abc_graph "B" = lookup.found 1 ∧
      graph_find_node abc_graph "B" = lookup.found 1 ∧
      graph3.graph_find_node abc_graph "AB" = lookup.not_found ∧
      graph3.nodes_are_equal { name := "UME", seen := false, neighbours := [] }
        { name := "UM", seen := true, neighbours := [] } = false ∧
      ((∀ n1 n2 : node, c_string n1.name → c_string n2.name →
          (graph3.nodes_are_equal n1 n2 = true ↔ n1.name = n2.name)) ∧
        (∀ n : node, c_string n.name →
          ((graph3.find_node_compare n.name.data "AB".data true = true ↔ n.name = "AB") ∧
            (graph3.find_node_compare n.name.data "AB".data true = true ↔
              strcmp n.name "AB" = 0))) ∧
        graph3.graph_find_node abc_graph "AB" = graph_find_node abc_graph "AB") :=
  ⟨by decide, by decide, by decide, by decide, by decide, by decide,
    graph3_find_node_agrees abc_graph "AB" (by decide) (by decide)⟩

end Ou5
